import Mathlib

/-!
# mkxp: scene ordering and shared font state

A shallow embedding of `src/scene.cpp` (the ordered element list of a `Scene`
and the `SceneElement` life cycle), of `src/font.cpp` (`SharedFontState`,
`pickExistingFontName`, `Font`) and of the serializers of `src/etc.cpp`
(`Color`, `Tone`, `Rect`), followed by the properties proved about them.

Objects that C++ reaches through pointers are named by natural numbers:
an element id stands for the address of a `SceneElement`, a scene id for the
address of a `Scene`, and a font handle for a `TTF_Font*` (0 is the null
pointer).
-/

namespace Mkxp

/-! ## Scene graph: data model -/

/-- The fields of `SceneElement` that scene.cpp reads and writes. `scene` is the
id of the owner scene (the `Scene *scene` back pointer). -/
structure SceneElement where
  creationStamp : Nat
  z : Int
  visible : Bool
  scene : Nat
deriving DecidableEq, Repr

/-- The whole heap as far as scene.cpp is concerned.

* `stamp`  : the process-wide counter behind `gState->genTimeStamp()`;
* `next`   : the id the next constructed element receives (a fresh address);
* `alive`  : whether the element with that id is constructed and not yet destroyed;
* `elems`  : the field values of every element;
* `scenes` : `Scene::elements` of every scene, front to back. -/
structure World where
  stamp : Nat
  next : Nat
  alive : Nat → Bool
  elems : Nat → SceneElement
  scenes : Nat → List Nat

/-- The state before anything is constructed: every scene is empty, the stamp
counter stands at `c`. -/
def World.init (c : Nat) : World where
  stamp := c
  next := 0
  alive := fun _ => false
  elems := fun _ => ⟨0, 0, false, 0⟩
  scenes := fun _ => []

/-- Modelled from the spec: `genTimeStamp` of the global state, which is not part
of these sources. The spec calls the creation stamp a "globally unique,
monotonically increasing integer assigned at construction; never reused;
process-wide counter": the call returns the counter and advances it. -/
def genTimeStamp (w : World) : Nat × World :=
  (w.stamp, { w with stamp := w.stamp + 1 })

/-- Modelled from the spec: `IntruList::remove`, from the intrusive list header
that is not part of these sources. The spec describes it as removal of the
element through its own link node; a node that is not linked is left alone. On
the sequence of linked nodes this deletes the node. -/
def IntruList.remove (l : List Nat) (x : Nat) : List Nat :=
  l.erase x

/-- Modelled from the spec: `IntruList::append`, linking the node after the last
one. -/
def IntruList.append (l : List Nat) (x : Nat) : List Nat :=
  l ++ [x]

/-- Modelled from the spec: `IntruList::insertBefore(node, *iter)` where `iter`
is the node at the head of the not yet visited part `e :: rest`. -/
def IntruList.insertBefore (x : Nat) (e : Nat) (rest : List Nat) : List Nat :=
  x :: e :: rest

/-! ## Scene graph: operations -/

/-- The loop of `Scene::insert` over the part of `elements` that the iterator
has not visited yet; the visited nodes stay in front of the result.
`continue` and falling out of the outer `if` both advance the iterator. -/
def Scene.insertLoop (el : Nat → SceneElement) (x : Nat) : List Nat → List Nat
  | [] => IntruList.append [] x
  | e :: rest =>
    if (el x).z ≤ (el e).z then
      if (el x).z = (el e).z then
        if (el x).creationStamp > (el e).creationStamp then
          e :: Scene.insertLoop el x rest
        else
          IntruList.insertBefore x e rest
      else
        IntruList.insertBefore x e rest
    else
      e :: Scene.insertLoop el x rest

/-- The method `Scene::insert(element)` on scene `s`. -/
def Scene.insert (w : World) (s : Nat) (x : Nat) : World :=
  { w with scenes := Function.update w.scenes s (Scene.insertLoop w.elems x (w.scenes s)) }

/-- The method `Scene::reinsert(element)` on scene `s`: remove, then insert. -/
def Scene.reinsert (w : World) (s : Nat) (x : Nat) : World :=
  Scene.insert
    { w with scenes := Function.update w.scenes s (IntruList.remove (w.scenes s) x) } s x

/-- The loop of `Scene::composite`: the elements on which `draw` is called, in
call order. -/
def Scene.compositeLoop (el : Nat → SceneElement) : List Nat → List Nat
  | [] => []
  | e :: rest =>
    if (el e).visible then e :: Scene.compositeLoop el rest
    else Scene.compositeLoop el rest

/-- The method `Scene::composite()` on scene `s`: the state afterwards and the log of
`draw` calls. `draw` is pure virtual; here it only records its receiver. -/
def Scene.composite (w : World) (s : Nat) : World × List Nat :=
  (w, Scene.compositeLoop w.elems (w.scenes s))

/-- The method `SceneElement::unlink()`. -/
def SceneElement.unlink (w : World) (x : Nat) : World :=
  let s := (w.elems x).scene
  { w with scenes := Function.update w.scenes s (IntruList.remove (w.scenes s) x) }

/-- The constructor `SceneElement::SceneElement(scene, z)`; the new element gets
the id `w.next`. -/
def SceneElement.construct (w : World) (scene : Nat) (z : Int) : World :=
  let r := genTimeStamp w
  let w1 : World :=
    { r.2 with
      next := w.next + 1
      alive := Function.update w.alive w.next true
      elems := Function.update w.elems w.next ⟨r.1, z, true, scene⟩ }
  Scene.insert w1 scene w.next

/-- The destructor `SceneElement::~SceneElement()`. -/
def SceneElement.destroy (w : World) (x : Nat) : World :=
  let w1 := SceneElement.unlink w x
  { w1 with alive := Function.update w1.alive x false }

/-- The method `SceneElement::setScene(scene)`. The closing `onGeometryChange` call is
virtual and touches neither the lists nor the ordering fields. -/
def SceneElement.setScene (w : World) (x : Nat) (scene : Nat) : World :=
  let w1 := SceneElement.unlink w x
  let w2 : World :=
    { w1 with elems := Function.update w1.elems x { w1.elems x with scene := scene } }
  Scene.insert w2 scene x

/-- The method `SceneElement::setZ(value)`. -/
def SceneElement.setZ (w : World) (x : Nat) (value : Int) : World :=
  if (w.elems x).z = value then w
  else
    let w1 : World :=
      { w with elems := Function.update w.elems x { w.elems x with z := value } }
    Scene.reinsert w1 (w1.elems x).scene x

/-- The method `SceneElement::setVisible(value)`. -/
def SceneElement.setVisible (w : World) (x : Nat) (value : Bool) : World :=
  { w with elems := Function.update w.elems x { w.elems x with visible := value } }

/-- The calls a script can make on scene elements. -/
inductive Op where
  | construct (scene : Nat) (z : Int)
  | setZ (x : Nat) (value : Int)
  | setVisible (x : Nat) (value : Bool)
  | setScene (x : Nat) (scene : Nat)
  | destroy (x : Nat)
deriving DecidableEq, Repr

/-- One call. A method call on an element that is not alive (never constructed,
or already destroyed) is outside the life cycle and has no successor state. -/
def step (w : World) : Op → Option World
  | .construct scene z => some (SceneElement.construct w scene z)
  | .setZ x value => if w.alive x then some (SceneElement.setZ w x value) else none
  | .setVisible x value => if w.alive x then some (SceneElement.setVisible w x value) else none
  | .setScene x scene => if w.alive x then some (SceneElement.setScene w x scene) else none
  | .destroy x => if w.alive x then some (SceneElement.destroy w x) else none

/-- A sequence of calls, left to right. -/
def run (w : World) : List Op → Option World
  | [] => some w
  | op :: ops =>
    match step w op with
    | none => none
    | some w1 => run w1 ops

/-- Inserting the elements `xs` one after the other into scene `s`. -/
def insertAll (w : World) (s : Nat) (xs : List Nat) : World :=
  xs.foldl (fun acc x => Scene.insert acc s x) w

/-- The sequence that `insertAll` leaves in the scene, computed on the sequence
alone. -/
def insertLoopAll (el : Nat → SceneElement) (L : List Nat) (xs : List Nat) : List Nat :=
  xs.foldl (fun acc x => Scene.insertLoop el x acc) L

/-- A run that touches every call: three constructions in scene 0, a priority
change, a move to scene 1, a visibility change, a fourth construction, a
destruction and another priority change. -/
def sampleOps : List Op :=
  [Op.construct 0 5, Op.construct 0 5, Op.construct 0 3, Op.setZ 0 7, Op.setScene 2 1,
    Op.setVisible 1 false, Op.construct 1 3, Op.destroy 1, Op.setZ 0 5]

/-- The state at the end of `sampleOps`, started from the empty state. -/
def sampleWorld : World :=
  SceneElement.setZ (SceneElement.destroy (SceneElement.construct (SceneElement.setVisible
    (SceneElement.setScene (SceneElement.setZ (SceneElement.construct (SceneElement.construct
      (SceneElement.construct (World.init 0) 0 5) 0 5) 0 3) 0 7) 2 1) 1 false) 1 3) 1) 0 5

/-- Two elements A = 0 and B = 1 of priority 5 in scene 0, A constructed first. -/
def pairWorld : World where
  stamp := 2
  next := 2
  alive := fun x => decide (x < 2)
  elems := fun x => ⟨x, 5, true, 0⟩
  scenes := fun s => if s = 0 then [0, 1] else []

/-- Three elements with stamps 0, 1, 2 and priorities 5, 3, 5, in no scene yet. -/
def keysWorld : World where
  stamp := 3
  next := 3
  alive := fun x => decide (x < 3)
  elems := fun x => ⟨x, if x = 1 then 3 else 5, true, 0⟩
  scenes := fun _ => []

/-! ## Scene graph: ordering relations -/

/-- The test of `Scene::insert` that stops the scan in front of `e`, in the
words of the specification. -/
def stopsBefore (el : Nat → SceneElement) (x e : Nat) : Prop :=
  (el x).z < (el e).z ∨ ((el x).z = (el e).z ∧ (el x).creationStamp ≤ (el e).creationStamp)

instance (el : Nat → SceneElement) (x e : Nat) : Decidable (stopsBefore el x e) := by
  unfold stopsBefore; infer_instance

/-- Non-strict order on `(z, creationStamp)`. -/
def keyLe (el : Nat → SceneElement) (a b : Nat) : Prop :=
  (el a).z < (el b).z ∨ ((el a).z = (el b).z ∧ (el a).creationStamp ≤ (el b).creationStamp)

instance (el : Nat → SceneElement) (a b : Nat) : Decidable (keyLe el a b) := by
  unfold keyLe; infer_instance

/-- Strict order on `(z, creationStamp)`. -/
def keyLt (el : Nat → SceneElement) (a b : Nat) : Prop :=
  (el a).z < (el b).z ∨ ((el a).z = (el b).z ∧ (el a).creationStamp < (el b).creationStamp)

instance (el : Nat → SceneElement) (a b : Nat) : Decidable (keyLt el a b) := by
  unfold keyLt; infer_instance

/-- Two elements cannot each be strictly before the other. -/
instance keyLt_antisymm (el : Nat → SceneElement) : IsAntisymm Nat (keyLt el) where
  antisymm a b h1 h2 := by
    unfold keyLt at *
    omega

/-- The order the specification asks of a scene: `z` never decreases, and of
two elements with equal `z` the one with the smaller stamp is in front. -/
def orderedPair (el : Nat → SceneElement) (a b : Nat) : Prop :=
  (el a).z ≤ (el b).z ∧ ((el a).z = (el b).z → (el a).creationStamp < (el b).creationStamp)

instance (el : Nat → SceneElement) (a b : Nat) : Decidable (orderedPair el a b) := by
  unfold orderedPair; infer_instance

/-- Two elements carry different creation stamps. -/
def stampNe (el : Nat → SceneElement) (a b : Nat) : Prop :=
  (el a).creationStamp ≠ (el b).creationStamp

instance (el : Nat → SceneElement) (a b : Nat) : Decidable (stampNe el a b) := by
  unfold stampNe; infer_instance

/-- The invariant of the scene graph: a scene lists exactly the live elements
that name it as owner, every list is strictly ordered by `(z, creationStamp)`,
and the ids and stamps handed out so far lie below the two counters, with no
stamp given to two live elements. -/
structure World.Inv (w : World) : Prop where
  mem_iff : ∀ s x, x ∈ w.scenes s ↔ (w.alive x = true ∧ (w.elems x).scene = s)
  sorted : ∀ s, (w.scenes s).Pairwise (keyLt w.elems)
  lt_next : ∀ x, w.alive x = true → x < w.next
  lt_stamp : ∀ x, w.alive x = true → (w.elems x).creationStamp < w.stamp
  stamp_inj : ∀ x y, w.alive x = true → w.alive y = true →
    (w.elems x).creationStamp = (w.elems y).creationStamp → x = y

/-- The invariant between the removal of `x` from its list and its insertion:
everything holds for the elements other than `x`, and `x` is in no list. -/
structure World.Unlinked (w : World) (x : Nat) : Prop where
  mem_iff : ∀ s y, y ∈ w.scenes s ↔ (y ≠ x ∧ w.alive y = true ∧ (w.elems y).scene = s)
  sorted : ∀ s, (w.scenes s).Pairwise (keyLt w.elems)
  lt_next : ∀ y, y ≠ x → w.alive y = true → y < w.next
  lt_stamp : ∀ y, y ≠ x → w.alive y = true → (w.elems y).creationStamp < w.stamp
  stamp_inj : ∀ y y1, y ≠ x → y1 ≠ x → w.alive y = true → w.alive y1 = true →
    (w.elems y).creationStamp = (w.elems y1).creationStamp → y = y1

/-! ## Shared font state: data model -/

/-- The record `FontSet` of font.cpp: the asset path of the "Regular" style and
the path of any other style; an empty string means that no such asset is
registered. -/
structure FontSet where
  regular : String
  other : String
deriving DecidableEq, Repr

/-- A default-constructed `FontSet` holds two empty strings. -/
instance : Inhabited FontSet := ⟨⟨"", ""⟩⟩

/-- The type `FontKey`, a `std::pair<std::string, int>`. -/
abbrev FontKey := String × Int

/-- Modelled from the spec: the hash table `BoostHash<K, V>` of boost-hash.h,
which is not part of these sources; the spec calls each table a "mapping". A
table is the list of its entries, oldest first, with at most one entry per key
when it is built through `insert` and `index`. -/
abbrev BoostHash (K V : Type) := List (K × V)

/-- Modelled from the spec: the entry stored under a key, if any. -/
def BoostHash.find {K V : Type} [DecidableEq K] : BoostHash K V → K → Option V
  | [], _ => none
  | (k1, v) :: rest, k => if k = k1 then some v else BoostHash.find rest k

/-- Modelled from the spec: `BoostHash::contains(key)`. -/
def BoostHash.contains {K V : Type} [DecidableEq K] (h : BoostHash K V) (k : K) : Bool :=
  (BoostHash.find h k).isSome

/-- Modelled from the spec: `BoostHash::value(key)`, the stored value, or a
default-constructed one (`dflt`) when the key is absent. -/
def BoostHash.value {K V : Type} [DecidableEq K] (dflt : V) (h : BoostHash K V) (k : K) : V :=
  (BoostHash.find h k).getD dflt

/-- Modelled from the spec: `BoostHash::insert(key, value)` stores the value under
a key that is not in the table yet. Neither the spec, which calls the table a
"mapping", nor these sources say what it does with a key that is already stored;
this definition keeps the stored entry. `getFont` calls it only after the
lookup of the same key has missed. The constructor, where a key can come twice,
does not use this definition: it takes the insert as a parameter (`IsInsert`). -/
def BoostHash.insert {K V : Type} [DecidableEq K] (h : BoostHash K V) (k : K) (v : V) :
    BoostHash K V :=
  if BoostHash.contains h k then h else h ++ [(k, v)]

/-- Modelled from the spec: `BoostHash::insert(key, value)` in the other reading
of "mapping", an insert that replaces the value of a key that is already
stored. -/
def BoostHash.insertOverwrite {K V : Type} [DecidableEq K] :
    BoostHash K V → K → V → BoostHash K V
  | [], k, v => [(k, v)]
  | (k1, v1) :: rest, k, v =>
    if k = k1 then (k1, v) :: rest else (k1, v1) :: BoostHash.insertOverwrite rest k v

/-- What the spec's word "mapping" fixes about an insert, whatever it does with a
repeated key: the other keys keep their values, a new key gets the value, and a
key that is already stored has afterwards its old value or the new one. -/
structure IsInsert {K V : Type} [DecidableEq K]
    (ins : BoostHash K V → K → V → BoostHash K V) : Prop where
  other : ∀ h k v k1, k1 ≠ k → BoostHash.find (ins h k v) k1 = BoostHash.find h k1
  fresh : ∀ h k v, BoostHash.find h k = none → BoostHash.find (ins h k v) k = some v
  repeated : ∀ h k v old, BoostHash.find h k = some old →
    BoostHash.find (ins h k v) k = some old ∨ BoostHash.find (ins h k v) k = some v

/-- Modelled from the spec: `BoostHash::operator[](key)`: the stored value; when
the key is absent a default-constructed value (`dflt`) is stored under it first.
Returns the value and the table afterwards. -/
def BoostHash.index {K V : Type} [DecidableEq K] (dflt : V) (h : BoostHash K V) (k : K) :
    V × BoostHash K V :=
  match BoostHash.find h k with
  | some v => (v, h)
  | none => (dflt, h ++ [(k, dflt)])

/-- The record `SharedFontStatePrivate`: substitutions, font sets by family, and
the pool of opened fonts (a handle is a natural number, 0 the null pointer). -/
structure SharedFontStatePrivate where
  subs : BoostHash String String
  sets : BoostHash String FontSet
  pool : BoostHash FontKey Nat
deriving DecidableEq, Repr

/-- What `getFont` hands to `TTF_OpenFontRW`: the bundled font or an asset file. -/
inductive FontSource where
  | bundled
  | file (path : String)
deriving DecidableEq, Repr

/-- The services `getFont` uses from outside font.cpp during one call.

* `pointSize family size` is the value of `(int)std::round(size * size_multiplier)`
  for the resolved family; the double arithmetic is not interpreted here.
* `openFont ops point_size` is the pointer `TTF_OpenFontRW` returns, 0 when the
  font cannot be opened. -/
structure FontLib where
  pointSize : String → Int → Int
  openFont : FontSource → Int → Nat

/-- The kinds of `Exception` thrown in font.cpp. -/
inductive ExceptionType where
  | ArgumentError
  | SDLError
deriving DecidableEq, Repr

/-- Outcome of one `getFont` call: the returned handle or the exception thrown,
the `TTF_OpenFontRW` call made during it (if any), and the state afterwards. -/
structure GetFontResult where
  result : Except ExceptionType Nat
  opened : Option (FontSource × Int)
  state : SharedFontStatePrivate

/-! ## Shared font state: operations -/

/-- The block "Check for substitutions" that opens both `getFont` and
`fontPresent`: `if (p->subs.contains(family)) family = p->subs[family];`. -/
def SharedFontState.substitute (p : SharedFontStatePrivate) (family : String) :
    String × SharedFontStatePrivate :=
  if BoostHash.contains p.subs family then
    let r := BoostHash.index "" p.subs family
    (r.1, { p with subs := r.2 })
  else
    (family, p)

/-- The method `SharedFontState::fontPresent(family)`: the answer and the state afterwards
(`p->sets[family]` may store an empty `FontSet`). -/
def SharedFontState.fontPresent (p : SharedFontStatePrivate) (family : String) :
    Bool × SharedFontStatePrivate :=
  let r := SharedFontState.substitute p family
  let s := BoostHash.index default r.2.sets r.1
  (!(s.1.regular = "" && s.1.other = ""), { r.2 with sets := s.2 })

/-- The method `SharedFontState::getFont(family, size)`. The `Debug()` output is left out. -/
def SharedFontState.getFont (lib : FontLib) (p : SharedFontStatePrivate) (family : String)
    (size : Int) : GetFontResult :=
  let r := SharedFontState.substitute p family
  let s := BoostHash.index default r.2.sets r.1
  let req := s.1
  let p1 : SharedFontStatePrivate := { r.2 with sets := s.2 }
  let family1 := if req.regular = "" ∧ req.other = "" then "" else r.1
  let key : FontKey := (family1, size)
  let font := BoostHash.value 0 p1.pool key
  if font ≠ 0 then
    { result := .ok font, opened := none, state := p1 }
  else
    let ops :=
      if family1 = "" then FontSource.bundled
      else FontSource.file (if req.regular ≠ "" then req.regular else req.other)
    let point_size := lib.pointSize family1 size
    let font1 := lib.openFont ops point_size
    if font1 = 0 then
      { result := .error ExceptionType.SDLError, opened := some (ops, point_size), state := p1 }
    else
      { result := .ok font1, opened := some (ops, point_size),
        state := { p1 with pool := BoostHash.insert p1.pool key font1 } }

/-- The loop of `pickExistingFontName` over the names not yet tried: the value
left in `out` and the state afterwards. The `Debug()` output is left out. -/
def pickExistingFontNameLoop : List String → SharedFontStatePrivate →
    String × SharedFontStatePrivate
  | [], sfs => ("", sfs)
  | n :: rest, sfs =>
    let r := SharedFontState.fontPresent sfs n
    if r.1 then (n, r.2) else pickExistingFontNameLoop rest r.2

/-- The function `pickExistingFontName(names, out, sfs)`. -/
def pickExistingFontName (names : List String) (sfs : SharedFontStatePrivate) :
    String × SharedFontStatePrivate :=
  pickExistingFontNameLoop names sfs

/-! ## Shared font state: derived notions -/

/-- The family under which assets are looked up for a requested name: its
substitution target if it has one, otherwise the name itself. -/
def canonicalFamily (p : SharedFontStatePrivate) (family : String) : String :=
  match BoostHash.find p.subs family with
  | some target => target
  | none => family

/-- A family has a physical asset registered: its font set is stored and one of
the two paths is not empty. -/
def assetRegistered (p : SharedFontStatePrivate) (family : String) : Prop :=
  ∃ fs, BoostHash.find p.sets family = some fs ∧ (fs.regular ≠ "" ∨ fs.other ≠ "")

/-- The family of the pool key that `getFont` uses for a requested name: the
canonical family when it has an asset, the built-in font `""` otherwise. -/
def resolvedFamily (p : SharedFontStatePrivate) (family : String) : String :=
  let req := BoostHash.value default p.sets (canonicalFamily p family)
  if req.regular = "" ∧ req.other = "" then "" else canonicalFamily p family

/-- Two states answer every lookup in the substitution table and in the font
sets alike (an absent font set reads as the empty one). -/
def SameTables (p q : SharedFontStatePrivate) : Prop :=
  q.subs = p.subs ∧ ∀ k, BoostHash.value default q.sets k = BoostHash.value default p.sets k

/-- No key of the pool holds the null pointer, and no handle is stored under two
keys. -/
def PoolInv (p : SharedFontStatePrivate) : Prop :=
  (∀ k, BoostHash.find p.pool k ≠ some 0) ∧
    (∀ k k1 h, BoostHash.find p.pool k = some h → BoostHash.find p.pool k1 = some h → k = k1)

/-- Every pointer the library returns from a successful open is new: it is not
a handle of the pool. -/
def FreshOpens (lib : FontLib) (p : SharedFontStatePrivate) : Prop :=
  ∀ ops pt k, BoostHash.find p.pool k ≠ some (lib.openFont ops pt)

/-- The states the font cache can be in: `Later p q` says that `q` comes from `p`
by calls of `getFont` (each with a library whose opens are fresh) and of
`fontPresent`. -/
inductive Later : SharedFontStatePrivate → SharedFontStatePrivate → Prop
  | refl (p : SharedFontStatePrivate) : Later p p
  | getFont {p q : SharedFontStatePrivate} (lib : FontLib) (family : String) (size : Int) :
      Later p q → FreshOpens lib q → Later p (SharedFontState.getFont lib q family size).state
  | fontPresent {p q : SharedFontStatePrivate} (family : String) :
      Later p q → Later p (SharedFontState.fontPresent q family).2

/-- A state that comes from one with an empty pool, as the constructor of
`SharedFontState` leaves it. -/
def Reachable (p : SharedFontStatePrivate) : Prop :=
  ∃ p0, p0.pool = [] ∧ Later p0 p

/-- A font state with no substitutions and assets for the family "B" only. -/
def onlyBFonts : SharedFontStatePrivate where
  subs := []
  sets := [("B", ⟨"Fonts/B.ttf", ""⟩)]
  pool := []

/-- A font state with the substitution "Foo>Bar" and assets for "Bar" only. -/
def fooBarFonts : SharedFontStatePrivate where
  subs := [("Foo", "Bar")]
  sets := [("Bar", ⟨"", "Fonts/Bar-Bold.ttf"⟩)]
  pool := []

/-- A font state with the substitutions "Foo>Bar" and "Bar>Baz" and assets for
"Baz" only. -/
def chainFonts : SharedFontStatePrivate where
  subs := [("Foo", "Bar"), ("Bar", "Baz")]
  sets := [("Baz", ⟨"Fonts/Baz.ttf", ""⟩)]
  pool := []

/-- A font library that corrects every size to `pt` pixels and returns the
pointer `h` from every open. -/
def constLib (pt : Int) (h : Nat) : FontLib where
  pointSize := fun _ _ => pt
  openFont := fun _ _ => h

/-! ## Shared font state: construction -/

/-- The call `raw.find_first_of(c)` of `std::string`: the position of the first
`c`, or `none` for `npos`. -/
def find_first_of (raw : List Char) (c : Char) : Option Nat :=
  match raw with
  | [] => none
  | a :: rest => if a = c then some 0 else (find_first_of rest c).map (fun i => i + 1)

/-- The loop "Parse font substitutions" of the constructor of `SharedFontState`
over the strings of `conf.fontSubs` not yet visited, with the table built so far.
`ins` stands for `p->subs.insert`: the hash table header is not part of these
sources, and what its insert does with a repeated key is left open. -/
def SharedFontState.parseLoop (ins : BoostHash String String → String → String →
    BoostHash String String) : List String → BoostHash String String → BoostHash String String
  | [], subs => subs
  | raw :: rest, subs =>
    match find_first_of raw.data (Char.ofNat 62) with
    | none => SharedFontState.parseLoop ins rest subs
    | some sepPos =>
      let fromName := String.mk (raw.data.take sepPos)
      let toName := String.mk (raw.data.drop (sepPos + 1))
      SharedFontState.parseLoop ins rest (ins subs fromName toName)

/-- The constructor `SharedFontState::SharedFontState(conf)`: the substitution
table is parsed from `conf.fontSubs` with the insert `ins` of the hash table,
the other two tables start empty. -/
def SharedFontState.construct (ins : BoostHash String String → String → String →
    BoostHash String String) (fontSubs : List String) : SharedFontStatePrivate where
  subs := SharedFontState.parseLoop ins fontSubs []
  sets := []
  pool := []

/-- The specification's reading of one configuration string: `raw` is
`fromName`, then its first `>`, then `toName`. -/
def splitsAt (raw fromName toName : String) : Prop :=
  raw.data = fromName.data ++ Char.ofNat 62 :: toName.data ∧ Char.ofNat 62 ∉ fromName.data

/-- The pair that one configuration string puts into the table, if it has a `>`. -/
def subPair (raw : String) : Option (String × String) :=
  match find_first_of raw.data (Char.ofNat 62) with
  | none => none
  | some sepPos => some (String.mk (raw.data.take sepPos), String.mk (raw.data.drop (sepPos + 1)))

/-! ## Font objects: data model and operations -/

/-- A `double`, kept as the 64-bit pattern it occupies in memory; no arithmetic is
done on it. -/
abbrev Double := Nat

/-- The four `double` fields of `Color` that `operator==` and the serializer
read; the derived `norm` vector is single-precision arithmetic and is left out. -/
structure Color where
  red : Double
  green : Double
  blue : Double
  alpha : Double
deriving DecidableEq, Repr

/-- The static members of `FontPrivate`: the process-wide default attributes. -/
structure FontDefaults where
  defaultName : String
  defaultSize : Int
  defaultBold : Bool
  defaultItalic : Bool
  defaultOutline : Bool
  defaultShadow : Bool
  defaultColor : Color
  defaultOutColor : Color
deriving DecidableEq, Repr

/-- The record `FontPrivate`. `color` and `outColor` are the values behind the two
`Color` pointers; `sdlFont` is the cached handle, 0 for null. -/
structure FontPrivate where
  name : String
  size : Int
  bold : Bool
  italic : Bool
  outline : Bool
  shadow : Bool
  color : Color
  outColor : Color
  sdlFont : Nat
deriving DecidableEq, Repr

/-- The constructor `FontPrivate(int size)`; `name` is a default-constructed
string. -/
def FontPrivate.create (d : FontDefaults) (size : Int) : FontPrivate where
  name := ""
  size := size
  bold := d.defaultBold
  italic := d.defaultItalic
  outline := d.defaultOutline
  shadow := d.defaultShadow
  color := d.defaultColor
  outColor := d.defaultOutColor
  sdlFont := 0

/-- The method `Font::setName(names)`: the font afterwards and the font state
afterwards. -/
def Font.setName (sfs : SharedFontStatePrivate) (f : FontPrivate) (names : List String) :
    FontPrivate × SharedFontStatePrivate :=
  let r := pickExistingFontName names sfs
  ({ f with name := r.1, sdlFont := 0 }, r.2)

/-- The constructor `Font::Font(names, size)`; `names` is `none` for a null
pointer. -/
def Font.construct (d : FontDefaults) (sfs : SharedFontStatePrivate)
    (names : Option (List String)) (size : Int) : FontPrivate × SharedFontStatePrivate :=
  let f := FontPrivate.create d (if size ≠ 0 then size else d.defaultSize)
  match names with
  | some ns => Font.setName sfs f ns
  | none => ({ f with name := d.defaultName }, sfs)

/-- The method `Font::setSize(value)`: whether it returned or threw, and the font
afterwards. -/
def Font.setSize (f : FontPrivate) (value : Int) : Except ExceptionType Unit × FontPrivate :=
  if f.size = value then (.ok (), f)
  else if value < 6 ∨ value > 96 then (.error ExceptionType.ArgumentError, f)
  else (.ok (), { f with size := value, sdlFont := 0 })

/-- The method `Font::setBold(value)`, from `DEF_ATTR_SIMPLE`. -/
def Font.setBold (f : FontPrivate) (value : Bool) : FontPrivate :=
  { f with bold := value }

/-- The method `Font::setItalic(value)`, from `DEF_ATTR_SIMPLE`. -/
def Font.setItalic (f : FontPrivate) (value : Bool) : FontPrivate :=
  { f with italic := value }

/-- The method `Font::setShadow(value)`, from `DEF_ATTR_SIMPLE`. -/
def Font.setShadow (f : FontPrivate) (value : Bool) : FontPrivate :=
  { f with shadow := value }

/-- The method `Font::setOutline(value)`, from `DEF_ATTR_SIMPLE`. -/
def Font.setOutline (f : FontPrivate) (value : Bool) : FontPrivate :=
  { f with outline := value }

/-- The method `Font::setColor(value)`, from `DEF_ATTR_SIMPLE`: the value is
copied into the color the font points to. -/
def Font.setColor (f : FontPrivate) (value : Color) : FontPrivate :=
  { f with color := value }

/-- The method `Font::setOutColor(value)`, from `DEF_ATTR_SIMPLE`. -/
def Font.setOutColor (f : FontPrivate) (value : Color) : FontPrivate :=
  { f with outColor := value }

/-- The initial values of the static members of `FontPrivate` in font.cpp; the
colors (255, 255, 255, 255) and (0, 0, 0, 128) appear as the bit patterns of
those doubles. -/
def initialDefaults : FontDefaults where
  defaultName := "Arial"
  defaultSize := 24
  defaultBold := false
  defaultItalic := false
  defaultOutline := false
  defaultShadow := false
  defaultColor := ⟨0x406FE00000000000, 0x406FE00000000000, 0x406FE00000000000, 0x406FE00000000000⟩
  defaultOutColor := ⟨0, 0, 0, 0x4060000000000000⟩

/-! ## Value types of etc.cpp and their serialized form -/

/-- The four `double` fields of `Tone`; the derived `norm` vector is left out as
for `Color`. -/
structure Tone where
  red : Double
  green : Double
  blue : Double
  gray : Double
deriving DecidableEq, Repr

/-- The four `int` fields of `Rect`. -/
structure Rect where
  x : Int
  y : Int
  width : Int
  height : Int
deriving DecidableEq, Repr

/-- The bits of a `double` below its sign bit: exponent and fraction. -/
def Double.magnitude (v : Double) : Nat :=
  v % 0x8000000000000000

/-- The sign bit of a `double`. -/
def Double.negative (v : Double) : Bool :=
  decide (v / 0x8000000000000000 % 2 = 1)

/-- A `double` is NaN when its exponent bits are all ones and its fraction is not
zero, that is, when its magnitude lies above the pattern of infinity. -/
def Double.isNaN (v : Double) : Bool :=
  decide (0x7FF0000000000000 < Double.magnitude v)

/-- The operator `==` of C++ on two `double`s, on their bit patterns: NaN is
equal to nothing, not even to itself; the two zeros `0.0` and `-0.0` are equal;
otherwise two doubles are equal when they have the same pattern. -/
def Double.equals (a b : Double) : Bool :=
  !Double.isNaN a && !Double.isNaN b &&
    (decide (a = b) || (decide (Double.magnitude a = 0) && decide (Double.magnitude b = 0)))

/-- The operator `<=` of C++ on two `double`s, on their bit patterns: false when
one side is NaN; a negative double is below a positive one; among doubles that
are not negative the larger magnitude is the larger double, among negative ones
the smaller; the two zeros are equal. -/
def Double.le (a b : Double) : Bool :=
  !Double.isNaN a && !Double.isNaN b &&
    (if Double.negative a then
      (if Double.negative b then decide (Double.magnitude b ≤ Double.magnitude a) else true)
    else
      (if Double.negative b then
        decide (Double.magnitude a = 0) && decide (Double.magnitude b = 0)
      else decide (Double.magnitude a ≤ Double.magnitude b)))

/-- The comparison `Color::operator==`: the four fields compared with `==`. -/
def Color.equals (a o : Color) : Bool :=
  Double.equals a.red o.red && Double.equals a.green o.green &&
    Double.equals a.blue o.blue && Double.equals a.alpha o.alpha

/-- The comparison `Tone::operator==`: the four fields compared with `==`. -/
def Tone.equals (a o : Tone) : Bool :=
  Double.equals a.red o.red && Double.equals a.green o.green &&
    Double.equals a.blue o.blue && Double.equals a.gray o.gray

/-- The comparison `Rect::operator==`. -/
def Rect.equals (a o : Rect) : Bool :=
  a.x = o.x && a.y = o.y && a.width = o.width && a.height = o.height

/-- The `n` low bytes of `v`, least significant first. A buffer is a list of
bytes, each a number below 256. -/
def leBytes : Nat → Nat → List Nat
  | 0, _ => []
  | n + 1, v => v % 256 :: leBytes n (v / 256)

/-- The number whose bytes, least significant first, are `bs`. -/
def leValue : List Nat → Nat
  | [] => 0
  | b :: bs => b + 256 * leValue bs

/-- A value of the 32-bit `int` type. -/
def isInt32 (v : Int) : Prop :=
  -2147483648 ≤ v ∧ v ≤ 2147483647

instance (v : Int) : Decidable (isInt32 v) := by
  unfold isInt32; infer_instance

/-- Modelled from the spec: `write_int32` of serial-util.h, which is not part of
these sources. The spec lays a rectangle out as "four consecutive 4-byte
integers" in host byte order (little-endian): the four bytes of the two's
complement value are put at the write position, which advances by 4. `buf` is
what has been written so far. -/
def write_int32 (buf : List Nat) (value : Int) : List Nat :=
  buf ++ leBytes 4 (value % 4294967296).toNat

/-- Modelled from the spec: `read_int32(data, i)` of serial-util.h: the 32-bit
integer stored in the four bytes from position `i`, and the position after
them. Bytes beyond the end of `data` read as 0 (in C++ such a read is
undefined). -/
def read_int32 (data : List Nat) (i : Nat) : Int × Nat :=
  let u := leValue ((data.drop i).take 4)
  (if u < 2147483648 then (u : Int) else (u : Int) - 4294967296, i + 4)

/-- Modelled from the spec: `write_double` of serial-util.h: the eight bytes of
the double are put at the write position, which advances by 8 ("8-byte
floating-point fields", host byte order). -/
def write_double (buf : List Nat) (value : Double) : List Nat :=
  buf ++ leBytes 8 value

/-- Modelled from the spec: `read_double(data, i)` of serial-util.h: the double
stored in the eight bytes from position `i`, and the position after them. -/
def read_double (data : List Nat) (i : Nat) : Double × Nat :=
  (leValue ((data.drop i).take 8), i + 8)

/-- The method `Color::serialSize()`. -/
def Color.serialSize : Int := 4 * 8

/-- The method `Color::serialize(buffer)`: the bytes written to `buffer`. -/
def Color.serialize (c : Color) : List Nat :=
  let buf := write_double [] c.red
  let buf := write_double buf c.green
  let buf := write_double buf c.blue
  write_double buf c.alpha

/-- The function `Color::deserialize(data, len)`. -/
def Color.deserialize (data : List Nat) (len : Int) : Except ExceptionType Color :=
  if len ≠ 32 then .error ExceptionType.ArgumentError
  else
    let red := read_double data 0
    let green := read_double data red.2
    let blue := read_double data green.2
    let alpha := read_double data blue.2
    .ok { red := red.1, green := green.1, blue := blue.1, alpha := alpha.1 }

/-- The method `Tone::serialSize()`. -/
def Tone.serialSize : Int := 4 * 8

/-- The method `Tone::serialize(buffer)`: the bytes written to `buffer`. -/
def Tone.serialize (t : Tone) : List Nat :=
  let buf := write_double [] t.red
  let buf := write_double buf t.green
  let buf := write_double buf t.blue
  write_double buf t.gray

/-- The function `Tone::deserialize(data, len)`. -/
def Tone.deserialize (data : List Nat) (len : Int) : Except ExceptionType Tone :=
  if len ≠ 32 then .error ExceptionType.ArgumentError
  else
    let red := read_double data 0
    let green := read_double data red.2
    let blue := read_double data green.2
    let gray := read_double data blue.2
    .ok { red := red.1, green := green.1, blue := blue.1, gray := gray.1 }

/-- The method `Rect::serialSize()`. -/
def Rect.serialSize : Int := 4 * 4

/-- The method `Rect::serialize(buffer)`: the bytes written to `buffer`. -/
def Rect.serialize (r : Rect) : List Nat :=
  let buf := write_int32 [] r.x
  let buf := write_int32 buf r.y
  let buf := write_int32 buf r.width
  write_int32 buf r.height

/-- The function `Rect::deserialize(data, len)`. -/
def Rect.deserialize (data : List Nat) (len : Int) : Except ExceptionType Rect :=
  if len ≠ 16 then .error ExceptionType.ArgumentError
  else
    let x := read_int32 data 0
    let y := read_int32 data x.2
    let width := read_int32 data y.2
    let height := read_int32 data width.2
    .ok { x := x.1, y := y.1, width := width.1, height := height.1 }

/-- A bit pattern that fits the eight bytes of a `double`. -/
def isDouble (v : Double) : Prop :=
  v < 18446744073709551616

instance (v : Double) : Decidable (isDouble v) := by
  unfold isDouble; infer_instance

/-- An 8-byte `double` that lies between `lo` and `hi`: a value that
`bound<double>(value, lo, hi)` leaves as it is. -/
def Double.inRange (lo hi v : Double) : Prop :=
  isDouble v ∧ Double.le lo v = true ∧ Double.le v hi = true

instance (lo hi v : Double) : Decidable (Double.inRange lo hi v) := by
  unfold Double.inRange; infer_instance

/-- The legal range of the fields of a `Color`: each of them lies between 0
and 255 (pattern `0x406FE00000000000`), the bounds that the setters and
`toSDLColor` pass to `bound<double>`. -/
def Color.legal (c : Color) : Prop :=
  Double.inRange 0 0x406FE00000000000 c.red ∧ Double.inRange 0 0x406FE00000000000 c.green ∧
    Double.inRange 0 0x406FE00000000000 c.blue ∧ Double.inRange 0 0x406FE00000000000 c.alpha

instance (c : Color) : Decidable (Color.legal c) := by
  unfold Color.legal; infer_instance

/-- The legal range of the fields of a `Tone`: red, green and blue lie between
-255 (pattern `0xC06FE00000000000`) and 255, gray between 0 and 255, the bounds
that `Tone::updateInternal` passes to `bound<double>`. -/
def Tone.legal (t : Tone) : Prop :=
  Double.inRange 0xC06FE00000000000 0x406FE00000000000 t.red ∧
    Double.inRange 0xC06FE00000000000 0x406FE00000000000 t.green ∧
    Double.inRange 0xC06FE00000000000 0x406FE00000000000 t.blue ∧
    Double.inRange 0 0x406FE00000000000 t.gray

instance (t : Tone) : Decidable (Tone.legal t) := by
  unfold Tone.legal; infer_instance

/-- A font of size 100, as `Font::Font(names, size)` builds it from a null
name list and the size 100. -/
def bigFont : FontPrivate :=
  (Font.construct initialDefaults onlyBFonts none 100).1

/-- A font of the default size 24 that holds the open handle 7. -/
def cachedFont : FontPrivate :=
  { (Font.construct initialDefaults onlyBFonts none 0).1 with sdlFont := 7 }

/-- The asset `getFont` opens for a requested name on a pool miss: the bundled
font for the family `""`, otherwise the regular file of the resolved family, or
its other file when it has no regular one. -/
def assetSource (p : SharedFontStatePrivate) (family : String) : FontSource :=
  let req := BoostHash.value default p.sets (canonicalFamily p family)
  if resolvedFamily p family = "" then FontSource.bundled
  else FontSource.file (if req.regular ≠ "" then req.regular else req.other)

/-- The font state built from the configuration string ">Arial", which
substitutes the empty name by "Arial", with assets for "Arial" only. With a
single string the table does not depend on the insert. -/
def emptyKeyFonts : SharedFontStatePrivate :=
  { SharedFontState.construct BoostHash.insert [">Arial"] with
    sets := [("Arial", ⟨"Fonts/arial.ttf", ""⟩)] }

/-! ## Font objects: copies, assignment and the cached handle -/

/-- The conversion of `p->name.c_str()` to the `std::string` parameter of
`getFont`: the characters before the first NUL. -/
def c_str (s : String) : String :=
  String.mk (s.data.takeWhile (fun c => c ≠ Char.ofNat 0))

/-- The copy constructor `FontPrivate(const FontPrivate &other)`. -/
def FontPrivate.copy (other : FontPrivate) : FontPrivate where
  name := other.name
  size := other.size
  bold := other.bold
  italic := other.italic
  outline := other.outline
  shadow := other.shadow
  color := other.color
  outColor := other.outColor
  sdlFont := other.sdlFont

/-- The assignment `FontPrivate::operator=(o)`; the left side keeps nothing but
loses its cached handle. -/
def FontPrivate.assign (_f o : FontPrivate) : FontPrivate where
  name := o.name
  size := o.size
  bold := o.bold
  italic := o.italic
  outline := o.outline
  shadow := o.shadow
  color := o.color
  outColor := o.outColor
  sdlFont := 0

/-- Outcome of `Font::getSdlFont()`: the returned handle or the exception that
`getFont` threw, the font afterwards and the font state afterwards. -/
structure GetSdlFontResult where
  result : Except ExceptionType Nat
  font : FontPrivate
  state : SharedFontStatePrivate

/-- The method `Font::getSdlFont()`. The closing `TTF_SetFontStyle` call changes
the style stored in the handle, not which handle it is. -/
def Font.getSdlFont (lib : FontLib) (sfs : SharedFontStatePrivate) (f : FontPrivate) :
    GetSdlFontResult :=
  if f.sdlFont = 0 then
    let g := SharedFontState.getFont lib sfs (c_str f.name) f.size
    match g.result with
    | .ok h => { result := .ok h, font := { f with sdlFont := h }, state := g.state }
    | .error e => { result := .error e, font := f, state := g.state }
  else
    { result := .ok f.sdlFont, font := f, state := sfs }

/-- The font cache together with the `Font` objects alive; a font is named by its
position in the list. -/
structure FontWorld where
  sfs : SharedFontStatePrivate
  fonts : List FontPrivate

/-- The calls that touch fonts and the font cache. -/
inductive FontOp where
  | construct (d : FontDefaults) (names : Option (List String)) (size : Int)
  | copy (i : Nat)
  | assign (i j : Nat)
  | setName (i : Nat) (names : List String)
  | setSize (i : Nat) (value : Int)
  | setBold (i : Nat) (value : Bool)
  | setItalic (i : Nat) (value : Bool)
  | setOutline (i : Nat) (value : Bool)
  | setShadow (i : Nat) (value : Bool)
  | setColor (i : Nat) (value : Color)
  | setOutColor (i : Nat) (value : Color)
  | getSdlFont (lib : FontLib) (i : Nat)
  | getFont (lib : FontLib) (family : String) (size : Int)
  | fontPresent (family : String)

/-- Replace the font at position `i`; no successor state when there is no such
font. -/
def FontWorld.modify (w : FontWorld) (i : Nat) (g : FontPrivate → FontPrivate) :
    Option FontWorld :=
  match w.fonts[i]? with
  | some f => some { w with fonts := w.fonts.set i (g f) }
  | none => none

/-- One call. A call that throws (`setSize`, `getSdlFont`, `getFont`) still
leaves a state, the one the exception leaves behind. -/
def stepFont (w : FontWorld) : FontOp → Option FontWorld
  | .construct d names size =>
    let r := Font.construct d w.sfs names size
    some { sfs := r.2, fonts := w.fonts ++ [r.1] }
  | .copy i =>
    match w.fonts[i]? with
    | some f => some { w with fonts := w.fonts ++ [FontPrivate.copy f] }
    | none => none
  | .assign i j =>
    match w.fonts[j]? with
    | some o => w.modify i (fun f => FontPrivate.assign f o)
    | none => none
  | .setName i names =>
    match w.fonts[i]? with
    | some f =>
      let r := Font.setName w.sfs f names
      some { sfs := r.2, fonts := w.fonts.set i r.1 }
    | none => none
  | .setSize i value => w.modify i (fun f => (Font.setSize f value).2)
  | .setBold i value => w.modify i (fun f => Font.setBold f value)
  | .setItalic i value => w.modify i (fun f => Font.setItalic f value)
  | .setOutline i value => w.modify i (fun f => Font.setOutline f value)
  | .setShadow i value => w.modify i (fun f => Font.setShadow f value)
  | .setColor i value => w.modify i (fun f => Font.setColor f value)
  | .setOutColor i value => w.modify i (fun f => Font.setOutColor f value)
  | .getSdlFont lib i =>
    match w.fonts[i]? with
    | some f =>
      let r := Font.getSdlFont lib w.sfs f
      some { sfs := r.state, fonts := w.fonts.set i r.font }
    | none => none
  | .getFont lib family size =>
    some { w with sfs := (SharedFontState.getFont lib w.sfs family size).state }
  | .fontPresent family =>
    some { w with sfs := (SharedFontState.fontPresent w.sfs family).2 }

/-- A sequence of calls, left to right. -/
def runFonts (w : FontWorld) : List FontOp → Option FontWorld
  | [] => some w
  | op :: ops =>
    match stepFont w op with
    | none => none
    | some w1 => runFonts w1 ops

/-- No key of the pool holds the null pointer. -/
def NoNullPool (p : SharedFontStatePrivate) : Prop :=
  ∀ k, BoostHash.find p.pool k ≠ some 0

/-- The cached handle of a font is null or is the pool entry under the key of
the font's current name and size. -/
def Cached (p : SharedFontStatePrivate) (f : FontPrivate) : Prop :=
  f.sdlFont = 0 ∨
    BoostHash.find p.pool (resolvedFamily p (c_str f.name), f.size) = some f.sdlFont

/-- The state `q` answers the tables as `p` does and keeps every pool entry of `p`. -/
def Extends (p q : SharedFontStatePrivate) : Prop :=
  SameTables p q ∧ ∀ k h, BoostHash.find p.pool k = some h → BoostHash.find q.pool k = some h

/-- The invariant of fonts and cache. -/
def FontWorld.Inv (w : FontWorld) : Prop :=
  NoNullPool w.sfs ∧ ∀ f ∈ w.fonts, Cached w.sfs f

/-- A run on the fonts: a construction, a handle request, a copy, a style
change, a size change, an assignment and a second handle request. -/
def sampleFontOps : List FontOp :=
  [FontOp.construct initialDefaults (some ["Foo"]) 20, FontOp.getSdlFont (constLib 18 1) 0,
    FontOp.copy 0, FontOp.setBold 1 true, FontOp.setSize 0 30, FontOp.assign 0 1,
    FontOp.getSdlFont (constLib 18 2) 0]

/-- The state at the end of `sampleFontOps`, started from `fooBarFonts` without
fonts: both fonts are named "Foo", have size 20, are bold and cache the handle 1,
which the pool holds under ("Bar", 20). -/
def sampleFontWorld : FontWorld where
  sfs := { fooBarFonts with pool := [(("Bar", 20), 1)] }
  fonts :=
    [{ FontPrivate.create initialDefaults 20 with name := "Foo", bold := true, sdlFont := 1 },
     { FontPrivate.create initialDefaults 20 with name := "Foo", bold := true, sdlFont := 1 }]

/-! ## Helpers of util.h -/

/-- The value a 32-bit `int` holds after a computation whose exact result is `v`
(two's complement wrap-around). -/
def toInt32 (v : Int) : Int :=
  (v + 2147483648) % 4294967296 - 2147483648

/-- The loop `while (value < min) value += (max - min);` of `wrapRange`, run for
at most `fuel` tests of its condition; `none` when the fuel does not suffice. -/
def wrapRangeLoop : Nat → Int → Int → Int → Option Int
  | 0, _, _, _ => none
  | fuel + 1, value, min, max =>
    if value < min then wrapRangeLoop fuel (toInt32 (value + toInt32 (max - min))) min max
    else some value

/-- The function `wrapRange(value, min, max)`; `%` on `int` truncates toward
zero. -/
def wrapRange (fuel : Nat) (value min max : Int) : Option Int :=
  if value ≥ min ∧ value ≤ max then some value
  else
    match wrapRangeLoop fuel value min max with
    | none => none
    | some v => some (Int.tmod v (toInt32 (max - min)))

/-- The loop `while (i < start) i <<= 1;` of `findNextPow2`, run for at most
`fuel` tests of its condition; `none` when the fuel does not suffice. -/
def findNextPow2Loop : Nat → Int → Int → Option Int
  | 0, _, _ => none
  | fuel + 1, i, start =>
    if i < start then findNextPow2Loop fuel (toInt32 (i * 2)) start
    else some i

/-- The function `findNextPow2(start)`. -/
def findNextPow2 (fuel : Nat) (start : Int) : Option Int :=
  findNextPow2Loop fuel 1 start

/-! ## Scene graph: properties of the insertion scan -/

theorem insertLoop_split (el : Nat → SceneElement) (x : Nat) (L : List Nat) :
    ∃ pre post, L = pre ++ post ∧ Scene.insertLoop el x L = pre ++ x :: post ∧
      (∀ e ∈ pre, ¬ stopsBefore el x e) ∧ (∀ e, post.head? = some e → stopsBefore el x e) := by
  induction L with
  | nil => exact ⟨[], [], rfl, rfl, by simp, by simp⟩
  | cons e rest ih =>
    obtain ⟨pre, post, hL, hI, hpre, hpost⟩ := ih
    by_cases hstop : stopsBefore el x e
    · refine ⟨[], e :: rest, rfl, ?_, by simp, ?_⟩
      · unfold stopsBefore at hstop
        simp only [Scene.insertLoop, IntruList.insertBefore, List.nil_append]
        split_ifs <;> first | rfl | omega
      · intro e1 he1
        simp only [List.head?_cons, Option.some.injEq] at he1
        subst he1
        exact hstop
    · refine ⟨e :: pre, post, by rw [hL]; rfl, ?_, ?_, hpost⟩
      · unfold stopsBefore at hstop
        simp only [Scene.insertLoop, IntruList.insertBefore, List.cons_append]
        split_ifs <;> first | (rw [hI]) | omega
      · intro e1 he1
        rcases List.mem_cons.mp he1 with h | h
        · subst h; exact hstop
        · exact hpre e1 h

theorem insertLoop_perm (el : Nat → SceneElement) (x : Nat) (L : List Nat) :
    (Scene.insertLoop el x L).Perm (x :: L) := by
  obtain ⟨pre, post, hL, hI, -, -⟩ := insertLoop_split el x L
  rw [hI, hL]
  exact List.perm_middle

theorem mem_insertLoop (el : Nat → SceneElement) (x y : Nat) (L : List Nat) :
    y ∈ Scene.insertLoop el x L ↔ y = x ∨ y ∈ L := by
  rw [(insertLoop_perm el x L).mem_iff, List.mem_cons]

theorem keyLt_trans (el : Nat → SceneElement) {a b c : Nat}
    (h1 : keyLt el a b) (h2 : keyLt el b c) : keyLt el a c := by
  unfold keyLt at *
  omega

theorem keyLt_irrefl (el : Nat → SceneElement) (a : Nat) : ¬ keyLt el a a := by
  unfold keyLt
  omega

theorem keyLt_nodup (el : Nat → SceneElement) {L : List Nat}
    (h : L.Pairwise (keyLt el)) : L.Nodup := by
  unfold List.Nodup
  refine h.imp ?_
  intro a b hab heq
  subst heq
  exact keyLt_irrefl el a hab

/-- Inserting into a strictly ordered sequence, none of whose elements has both
the z and the stamp of the new element, gives a strictly ordered sequence. -/
theorem insertLoop_sorted (el : Nat → SceneElement) (x : Nat) (L : List Nat)
    (hs : L.Pairwise (keyLt el)) (hne : ∀ e ∈ L, (el e).z = (el x).z → stampNe el e x) :
    (Scene.insertLoop el x L).Pairwise (keyLt el) := by
  obtain ⟨pre, post, hL, hI, hpre, hpost⟩ := insertLoop_split el x L
  subst hL
  rw [hI]
  obtain ⟨h1, h2, h3⟩ := List.pairwise_append.mp hs
  have hx : ∀ b ∈ post, keyLt el x b := by
    cases post with
    | nil => simp
    | cons p post1 =>
      have hp : keyLt el x p := by
        have h := hpost p rfl
        have hn := hne p (by simp)
        unfold stopsBefore at h
        unfold stampNe at hn
        unfold keyLt
        omega
      intro b hb
      rcases List.mem_cons.mp hb with h | h
      · subst h; exact hp
      · exact keyLt_trans el hp ((List.pairwise_cons.mp h2).1 b h)
  refine List.pairwise_append.mpr ⟨h1, List.pairwise_cons.mpr ⟨hx, h2⟩, ?_⟩
  intro a ha b hb
  rcases List.mem_cons.mp hb with h | h
  · subst h
    have h := hpre a ha
    have hn := hne a (by simp [ha])
    unfold stopsBefore at h
    unfold stampNe at hn
    unfold keyLt
    omega
  · exact h3 a ha b h

/-- The keys of the elements of a list are all the ordering looks at. -/
theorem pairwise_keyLt_congr (el el1 : Nat → SceneElement) (L : List Nat)
    (h : ∀ e ∈ L, (el1 e).z = (el e).z ∧ (el1 e).creationStamp = (el e).creationStamp)
    (hs : L.Pairwise (keyLt el)) : L.Pairwise (keyLt el1) := by
  refine List.Pairwise.imp_of_mem ?_ hs
  intro a b ha hb hab
  unfold keyLt at *
  rw [(h a ha).1, (h b hb).1, (h a ha).2, (h b hb).2]
  exact hab

/-! ## Scene graph: the invariant is kept by every call -/

theorem init_inv (c : Nat) : (World.init c).Inv where
  mem_iff := by simp [World.init]
  sorted := by simp [World.init]
  lt_next := by simp [World.init]
  lt_stamp := by simp [World.init]
  stamp_inj := by simp [World.init]

/-- Taking `x` out of every list (it is in at most one) leaves the invariant for
the other elements. -/
theorem unlink_core (w w1 : World) (x : Nat) (hw : w.Inv)
    (halive : w1.alive = w.alive) (hnext : w1.next = w.next) (hstamp : w1.stamp = w.stamp)
    (hel : ∀ y, y ≠ x → w1.elems y = w.elems y)
    (hsc : ∀ s, w1.scenes s = (w.scenes s).erase x) : w1.Unlinked x := by
  have hmem : ∀ s y, y ∈ w1.scenes s ↔ (y ≠ x ∧ w1.alive y = true ∧ (w1.elems y).scene = s) := by
    intro s y
    rw [hsc, (keyLt_nodup w.elems (hw.sorted s)).mem_erase_iff, hw.mem_iff, halive]
    constructor
    · rintro ⟨h1, h2, h3⟩
      exact ⟨h1, h2, by rw [hel y h1]; exact h3⟩
    · rintro ⟨h1, h2, h3⟩
      exact ⟨h1, h2, by rw [hel y h1] at h3; exact h3⟩
  refine ⟨hmem, ?_, ?_, ?_, ?_⟩
  · intro s
    have h1 : (w1.scenes s).Pairwise (keyLt w.elems) := by
      rw [hsc]
      exact (hw.sorted s).sublist (List.erase_sublist x _)
    refine pairwise_keyLt_congr w.elems w1.elems _ ?_ h1
    intro e he
    rw [hel e ((hmem s e).mp he).1]
    exact ⟨rfl, rfl⟩
  · intro y _ hy
    rw [hnext]
    exact hw.lt_next y (halive ▸ hy)
  · intro y hne hy
    rw [hstamp, hel y hne]
    exact hw.lt_stamp y (halive ▸ hy)
  · intro y y1 hne hne1 hy hy1 heq
    rw [hel y hne, hel y1 hne1] at heq
    exact hw.stamp_inj y y1 (halive ▸ hy) (halive ▸ hy1) heq

/-- Giving `x` the fields `e1` and inserting it into the scene `e1` names
restores the invariant. -/
theorem link_core (w w1 : World) (x : Nat) (e1 : SceneElement) (hw : w.Unlinked x)
    (halive : w1.alive = Function.update w.alive x true)
    (hel : w1.elems = Function.update w.elems x e1)
    (hsc : ∀ s, w1.scenes s =
      if s = e1.scene then Scene.insertLoop w1.elems x (w.scenes s) else w.scenes s)
    (hnext : w.next ≤ w1.next) (hx : x < w1.next)
    (hstamp : w.stamp ≤ w1.stamp) (he : e1.creationStamp < w1.stamp)
    (hne : ∀ y, y ≠ x → w.alive y = true → (w.elems y).creationStamp ≠ e1.creationStamp) :
    w1.Inv := by
  have hoff : ∀ y, y ≠ x → w1.elems y = w.elems y := by
    intro y hy
    rw [hel, Function.update_noteq hy]
  have hat : w1.elems x = e1 := by rw [hel, Function.update_same]
  have hnotin : ∀ s, x ∉ w.scenes s := fun s hxs => ((hw.mem_iff s x).mp hxs).1 rfl
  have hold : ∀ s, (w.scenes s).Pairwise (keyLt w1.elems) := by
    intro s
    refine pairwise_keyLt_congr w.elems w1.elems _ ?_ (hw.sorted s)
    intro e hes
    rw [hoff e (fun h => hnotin s (h ▸ hes))]
    exact ⟨rfl, rfl⟩
  refine ⟨?_, ?_, ?_, ?_, ?_⟩
  · intro s y
    rw [hsc, halive]
    by_cases hs : s = e1.scene
    · rw [if_pos hs, mem_insertLoop, hw.mem_iff]
      by_cases hy : y = x
      · subst hy
        simp [hat, hs]
      · simp [hy, hoff y hy, Function.update_noteq hy]
    · rw [if_neg hs, hw.mem_iff]
      by_cases hy : y = x
      · subst hy
        simp only [ne_eq, not_true_eq_false, false_and, Function.update_same, hat, true_and,
          false_iff]
        exact fun h => hs h.symm
      · simp [hy, hoff y hy, Function.update_noteq hy]
  · intro s
    rw [hsc]
    by_cases hs : s = e1.scene
    · rw [if_pos hs]
      refine insertLoop_sorted w1.elems x _ (hold s) ?_
      intro e hes _
      have hex : e ≠ x := fun h => hnotin s (h ▸ hes)
      unfold stampNe
      rw [hoff e hex, hat]
      exact hne e hex ((hw.mem_iff s e).mp hes).2.1
    · rw [if_neg hs]
      exact hold s
  · intro y hy
    by_cases hyx : y = x
    · rw [hyx]; exact hx
    · rw [halive, Function.update_noteq hyx] at hy
      exact lt_of_lt_of_le (hw.lt_next y hyx hy) hnext
  · intro y hy
    by_cases hyx : y = x
    · rw [hyx, hat]; exact he
    · rw [halive, Function.update_noteq hyx] at hy
      rw [hoff y hyx]
      exact lt_of_lt_of_le (hw.lt_stamp y hyx hy) hstamp
  · intro y y1 hy hy1 heq
    by_cases hyx : y = x <;> by_cases hy1x : y1 = x
    · rw [hyx, hy1x]
    · rw [halive, Function.update_noteq hy1x] at hy1
      rw [hyx, hat, hoff y1 hy1x] at heq
      exact absurd heq.symm (hne y1 hy1x hy1)
    · rw [halive, Function.update_noteq hyx] at hy
      rw [hy1x, hat, hoff y hyx] at heq
      exact absurd heq (hne y hyx hy)
    · rw [halive, Function.update_noteq hyx] at hy
      rw [halive, Function.update_noteq hy1x] at hy1
      rw [hoff y hyx, hoff y1 hy1x] at heq
      exact hw.stamp_inj y y1 hyx hy1x hy hy1 heq

/-- Marking the unlinked element `x` as destroyed restores the invariant. -/
theorem dead_core (w w1 : World) (x : Nat) (hw : w.Unlinked x)
    (halive : w1.alive = Function.update w.alive x false)
    (hel : w1.elems = w.elems) (hsc : w1.scenes = w.scenes)
    (hnext : w1.next = w.next) (hstamp : w1.stamp = w.stamp) : w1.Inv := by
  have hal : ∀ y, w1.alive y = true → y ≠ x ∧ w.alive y = true := by
    intro y hy
    rw [halive] at hy
    by_cases hyx : y = x
    · subst hyx; simp at hy
    · rw [Function.update_noteq hyx] at hy
      exact ⟨hyx, hy⟩
  refine ⟨?_, ?_, ?_, ?_, ?_⟩
  · intro s y
    rw [hsc, hel, hw.mem_iff, halive]
    by_cases hyx : y = x
    · subst hyx; simp
    · simp [hyx, Function.update_noteq hyx]
  · intro s
    rw [hsc, hel]
    exact hw.sorted s
  · intro y hy
    rw [hnext]
    exact hw.lt_next y (hal y hy).1 (hal y hy).2
  · intro y hy
    rw [hstamp, hel]
    exact hw.lt_stamp y (hal y hy).1 (hal y hy).2
  · intro y y1 hy hy1 heq
    rw [hel] at heq
    exact hw.stamp_inj y y1 (hal y hy).1 (hal y1 hy1).1 (hal y hy).2 (hal y1 hy1).2 heq

/-- Removing `x` from the list of its owner is removing it from every list. -/
theorem erase_owner (w : World) (hw : w.Inv) (x s : Nat) :
    Function.update w.scenes (w.elems x).scene
      (IntruList.remove (w.scenes (w.elems x).scene) x) s = (w.scenes s).erase x := by
  by_cases hs : s = (w.elems x).scene
  · rw [hs, Function.update_same]
    rfl
  · rw [Function.update_noteq hs]
    refine (List.erase_of_not_mem ?_).symm
    intro hx
    exact hs ((hw.mem_iff s x).mp hx).2.symm

theorem unlink_unlinked (w : World) (hw : w.Inv) (x : Nat) :
    (SceneElement.unlink w x).Unlinked x :=
  unlink_core w _ x hw rfl rfl rfl (fun _ _ => rfl) (fun s => erase_owner w hw x s)

theorem construct_inv (w : World) (hw : w.Inv) (scene : Nat) (z : Int) :
    (SceneElement.construct w scene z).Inv := by
  have hdead : w.alive w.next ≠ true := fun h => lt_irrefl _ (hw.lt_next _ h)
  have hU : w.Unlinked w.next := by
    refine unlink_core w w w.next hw rfl rfl rfl (fun _ _ => rfl) ?_
    intro s
    refine (List.erase_of_not_mem ?_).symm
    intro hx
    exact hdead ((hw.mem_iff s _).mp hx).1
  refine link_core w _ w.next ⟨w.stamp, z, true, scene⟩ hU rfl rfl ?_ ?_ ?_ ?_ ?_ ?_
  · intro s
    by_cases hs : s = scene
    · subst hs
      simp [SceneElement.construct, Scene.insert, genTimeStamp]
    · simp [SceneElement.construct, Scene.insert, genTimeStamp, Function.update_noteq hs, hs]
  · exact Nat.le_succ _
  · exact Nat.lt_succ_self _
  · exact Nat.le_succ _
  · exact Nat.lt_succ_self _
  · intro y _ hy
    exact ne_of_lt (hw.lt_stamp y hy)

theorem setScene_inv (w : World) (hw : w.Inv) (x : Nat) (hx : w.alive x = true) (scene : Nat) :
    (SceneElement.setScene w x scene).Inv := by
  refine link_core (SceneElement.unlink w x) _ x { w.elems x with scene := scene }
    (unlink_unlinked w hw x) ?_ rfl ?_ (le_refl _) (hw.lt_next x hx) (le_refl _)
    (hw.lt_stamp x hx) ?_
  · funext y
    by_cases hy : y = x
    · subst hy
      simp [SceneElement.setScene, Scene.insert, SceneElement.unlink, hx]
    · simp [SceneElement.setScene, Scene.insert, SceneElement.unlink, Function.update_noteq hy]
  · intro s
    by_cases hs : s = scene
    · subst hs
      simp [SceneElement.setScene, Scene.insert, SceneElement.unlink]
    · simp [SceneElement.setScene, Scene.insert, SceneElement.unlink, Function.update_noteq hs, hs]
  · intro y hy hya heq
    exact hy (hw.stamp_inj y x hya hx heq)

theorem setZ_inv (w : World) (hw : w.Inv) (x : Nat) (hx : w.alive x = true) (value : Int) :
    (SceneElement.setZ w x value).Inv := by
  unfold SceneElement.setZ
  split_ifs with hz
  · exact hw
  · have hU : World.Unlinked
        { w with scenes := Function.update w.scenes (w.elems x).scene
                  (IntruList.remove (w.scenes (w.elems x).scene) x) } x :=
      unlink_core w _ x hw rfl rfl rfl (fun _ _ => rfl) (fun s => erase_owner w hw x s)
    refine link_core _ _ x { w.elems x with z := value } hU ?_ rfl ?_ (le_refl _)
      (hw.lt_next x hx) (le_refl _) (hw.lt_stamp x hx) ?_
    · funext y
      by_cases hy : y = x
      · subst hy
        simp [Scene.reinsert, Scene.insert, hx]
      · simp [Scene.reinsert, Scene.insert, Function.update_noteq hy]
    · intro s
      by_cases hs : s = (w.elems x).scene
      · subst hs
        simp [Scene.reinsert, Scene.insert]
      · simp [Scene.reinsert, Scene.insert, Function.update_noteq hs, hs]
    · intro y hy hya heq
      exact hy (hw.stamp_inj y x hya hx heq)

theorem destroy_inv (w : World) (hw : w.Inv) (x : Nat) : (SceneElement.destroy w x).Inv :=
  dead_core (SceneElement.unlink w x) _ x (unlink_unlinked w hw x) rfl rfl rfl rfl rfl

theorem setVisible_inv (w : World) (hw : w.Inv) (x : Nat) (value : Bool) :
    (SceneElement.setVisible w x value).Inv := by
  have hk : ∀ y, ((SceneElement.setVisible w x value).elems y).z = (w.elems y).z ∧
      ((SceneElement.setVisible w x value).elems y).creationStamp = (w.elems y).creationStamp ∧
      ((SceneElement.setVisible w x value).elems y).scene = (w.elems y).scene := by
    intro y
    by_cases hy : y = x
    · subst hy; simp [SceneElement.setVisible]
    · simp [SceneElement.setVisible, Function.update_noteq hy]
  refine ⟨?_, ?_, hw.lt_next, ?_, ?_⟩
  · intro s y
    rw [(hk y).2.2]
    exact hw.mem_iff s y
  · intro s
    exact pairwise_keyLt_congr w.elems _ _ (fun e _ => ⟨(hk e).1, (hk e).2.1⟩) (hw.sorted s)
  · intro y hy
    rw [(hk y).2.1]
    exact hw.lt_stamp y hy
  · intro y y1 hy hy1 heq
    rw [(hk y).2.1, (hk y1).2.1] at heq
    exact hw.stamp_inj y y1 hy hy1 heq

theorem step_inv (w w1 : World) (op : Op) (hw : w.Inv) (h : step w op = some w1) : w1.Inv := by
  cases op with
  | construct scene z =>
    simp only [step, Option.some.injEq] at h
    subst h
    exact construct_inv w hw scene z
  | setZ x value =>
    simp only [step] at h
    split_ifs at h with hx
    simp only [Option.some.injEq] at h
    subst h
    exact setZ_inv w hw x hx value
  | setVisible x value =>
    simp only [step] at h
    split_ifs at h with hx
    simp only [Option.some.injEq] at h
    subst h
    exact setVisible_inv w hw x value
  | setScene x scene =>
    simp only [step] at h
    split_ifs at h with hx
    simp only [Option.some.injEq] at h
    subst h
    exact setScene_inv w hw x hx scene
  | destroy x =>
    simp only [step] at h
    split_ifs at h with hx
    simp only [Option.some.injEq] at h
    subst h
    exact destroy_inv w hw x

theorem run_inv (ops : List Op) : ∀ (w w1 : World), w.Inv → run w ops = some w1 → w1.Inv := by
  induction ops with
  | nil =>
    intro w w1 hw h
    simp only [run, Option.some.injEq] at h
    subst h
    exact hw
  | cons op ops ih =>
    intro w w1 hw h
    simp only [run] at h
    cases hstep : step w op with
    | none => rw [hstep] at h; simp at h
    | some w2 =>
      rw [hstep] at h
      exact ih w2 w1 (step_inv w w2 op hw hstep) h

/-! ## Scene graph: main results -/

theorem compositeLoop_eq_filter (el : Nat → SceneElement) (L : List Nat) :
    Scene.compositeLoop el L = L.filter (fun e => (el e).visible) := by
  induction L with
  | nil => rfl
  | cons e rest ih =>
    by_cases hv : (el e).visible = true
    · simp [Scene.compositeLoop, hv, ih]
    · simp [Scene.compositeLoop, hv, ih]

theorem keyLt_orderedPair (el : Nat → SceneElement) {a b : Nat} (h : keyLt el a b) :
    orderedPair el a b := by
  unfold keyLt at h
  unfold orderedPair
  omega

/-- C1: in every state reached from empty scenes by construction, setZ, setVisible,
setScene and destruction, the element sequence of every scene is sorted: z never
decreases from front to back, and of two elements with equal z the one with the
smaller creation stamp comes first. The sequence of draw calls made by
`Scene::composite` is ordered the same way. -/
theorem reachable_scene_sorted (c : Nat) (ops : List Op) (w : World)
    (h : run (World.init c) ops = some w) (s : Nat) :
    (w.scenes s).Pairwise (orderedPair w.elems) ∧
      (Scene.composite w s).2.Pairwise (orderedPair w.elems) := by
  have hw : w.Inv := run_inv ops _ w (init_inv c) h
  have h1 : (w.scenes s).Pairwise (orderedPair w.elems) :=
    (hw.sorted s).imp (fun hab => keyLt_orderedPair w.elems hab)
  refine ⟨h1, ?_⟩
  simp only [Scene.composite]
  rw [compositeLoop_eq_filter]
  exact h1.sublist (List.filter_sublist _)

/-- C2: `Scene::insert` splits the sequence `L` of the scene into a front part, on
no element of which the scan stops, and a rest that is empty or starts with an
element the scan stops before; the result is the front part, then `x`, then the
rest. No other scene and no element field changes. -/
theorem insert_position (w : World) (s x : Nat) :
    ∃ pre post, w.scenes s = pre ++ post ∧
      (Scene.insert w s x).scenes s = pre ++ x :: post ∧
      (∀ e ∈ pre, ¬ stopsBefore w.elems x e) ∧
      (∀ e, post.head? = some e → stopsBefore w.elems x e) ∧
      (∀ t, t ≠ s → (Scene.insert w s x).scenes t = w.scenes t) ∧
      (Scene.insert w s x).elems = w.elems := by
  obtain ⟨pre, post, hL, hI, hpre, hpost⟩ := insertLoop_split w.elems x (w.scenes s)
  refine ⟨pre, post, hL, ?_, hpre, hpost, ?_, rfl⟩
  · simp only [Scene.insert, Function.update_same]
    exact hI
  · intro t ht
    simp only [Scene.insert, Function.update_noteq ht]

/-- C5: `Scene::composite` calls `draw` on the elements of the sequence whose
visible flag is set, in sequence order and on no others, and leaves the state
(the sequence included) as it was. -/
theorem composite_draws_visible (w : World) (s : Nat) :
    (Scene.composite w s).2 = (w.scenes s).filter (fun e => (w.elems e).visible) ∧
      (Scene.composite w s).1 = w := by
  refine ⟨?_, rfl⟩
  simp only [Scene.composite]
  exact compositeLoop_eq_filter w.elems (w.scenes s)

/-- C6: in every state reached from empty scenes by construction, setZ, setVisible,
setScene and destruction, a live element occurs exactly once in the sequence of
its owner scene and not at all in any other sequence, and an element that is not
alive occurs in no sequence. -/
theorem reachable_membership (c : Nat) (ops : List Op) (w : World)
    (h : run (World.init c) ops = some w) (x s : Nat) :
    (w.scenes s).count x = if w.alive x = true ∧ (w.elems x).scene = s then 1 else 0 := by
  have hw : w.Inv := run_inv ops _ w (init_inv c) h
  have hnd : (w.scenes s).Nodup := keyLt_nodup w.elems (hw.sorted s)
  split_ifs with hx
  · exact List.count_eq_one_of_mem hnd ((hw.mem_iff s x).mpr hx)
  · exact List.count_eq_zero_of_not_mem (fun hmem => hx ((hw.mem_iff s x).mp hmem))

/-- C7: `SceneElement::setVisible(b)` sets the visible flag of its element to `b`
and changes nothing else: every sequence, the counters, the liveness of every
element, the z, creation stamp and owner of every element, and all fields of
every other element stay as they were. -/
theorem setVisible_frame (w : World) (x : Nat) (b : Bool) :
    (SceneElement.setVisible w x b).scenes = w.scenes ∧
      (SceneElement.setVisible w x b).alive = w.alive ∧
      (SceneElement.setVisible w x b).stamp = w.stamp ∧
      (SceneElement.setVisible w x b).next = w.next ∧
      ((SceneElement.setVisible w x b).elems x).visible = b ∧
      (∀ y, ((SceneElement.setVisible w x b).elems y).z = (w.elems y).z ∧
        ((SceneElement.setVisible w x b).elems y).creationStamp = (w.elems y).creationStamp ∧
        ((SceneElement.setVisible w x b).elems y).scene = (w.elems y).scene) ∧
      (∀ y, y ≠ x → (SceneElement.setVisible w x b).elems y = w.elems y) := by
  refine ⟨rfl, rfl, rfl, rfl, ?_, ?_, ?_⟩
  · simp [SceneElement.setVisible]
  · intro y
    by_cases hy : y = x
    · subst hy; simp [SceneElement.setVisible]
    · simp [SceneElement.setVisible, Function.update_noteq hy]
  · intro y hy
    simp [SceneElement.setVisible, Function.update_noteq hy]

/-! ## Scene graph: reinsertion and insertion order -/

theorem keyLe_stampNe_keyLt (el : Nat → SceneElement) (L : List Nat)
    (hs : L.Pairwise (keyLe el)) (hd : L.Pairwise (stampNe el)) : L.Pairwise (keyLt el) := by
  refine (hs.and hd).imp ?_
  intro a b hab
  obtain ⟨h1, h2⟩ := hab
  unfold keyLe at h1
  unfold stampNe at h2
  unfold keyLt
  omega

theorem stampNe_symm (el : Nat → SceneElement) : Symmetric (stampNe el) :=
  fun _ _ h => Ne.symm h

/-- Two different members of a list occur in it in one order or the other. -/
theorem sublist_pair_of_mem (L : List Nat) (a b : Nat) (ha : a ∈ L) (hb : b ∈ L)
    (hab : a ≠ b) : List.Sublist [a, b] L ∨ List.Sublist [b, a] L := by
  induction L with
  | nil => simp at ha
  | cons c t ih =>
    rcases List.mem_cons.mp ha with h1 | h1 <;> rcases List.mem_cons.mp hb with h2 | h2
    · exact absurd (h1.trans h2.symm) hab
    · left
      rw [h1]
      exact List.Sublist.cons₂ c (List.singleton_sublist.mpr h2)
    · right
      rw [h2]
      exact List.Sublist.cons₂ c (List.singleton_sublist.mpr h1)
    · rcases ih h1 h2 with h | h
      · exact Or.inl (h.cons c)
      · exact Or.inr (h.cons c)

/-- In a strictly ordered sequence the smaller of two members is in front. -/
theorem sublist_pair_of_keyLt (el : Nat → SceneElement) (L : List Nat) (a b : Nat)
    (hs : L.Pairwise (keyLt el)) (ha : a ∈ L) (hb : b ∈ L) (hab : keyLt el a b) :
    List.Sublist [a, b] L := by
  have hne : a ≠ b := fun h => keyLt_irrefl el a (by rw [← h] at hab; exact hab)
  rcases sublist_pair_of_mem L a b ha hb hne with h | h
  · exact h
  · have hba : keyLt el b a := List.pairwise_iff_forall_sublist.mp hs h
    unfold keyLt at hab hba
    omega

/-- Taking `x` out of a strictly ordered sequence and inserting it again gives
the sequence back; the removal undoes an insertion made under any field values. -/
theorem reinsert_list (el el1 : Nat → SceneElement) (L : List Nat) (x : Nat)
    (hs : L.Pairwise (keyLt el)) (hx : x ∈ L) :
    (Scene.insertLoop el1 x (L.erase x)).erase x = L.erase x ∧
      Scene.insertLoop el x (L.erase x) = L := by
  have hnd : L.Nodup := keyLt_nodup el hs
  have hnot : x ∉ L.erase x := fun h => (hnd.mem_erase_iff.mp h).1 rfl
  constructor
  · obtain ⟨pre, post, hL, hI, -, -⟩ := insertLoop_split el1 x (L.erase x)
    rw [hI, hL]
    have hpre : x ∉ pre := fun h => hnot (by rw [hL]; exact List.mem_append_left _ h)
    rw [List.erase_append_right _ hpre, List.erase_cons_head]
  · have hsub : (L.erase x).Pairwise (keyLt el) := hs.sublist (List.erase_sublist x L)
    have hne : ∀ e ∈ L.erase x, (el e).z = (el x).z → stampNe el e x := by
      intro e he hz
      have hmem := hnd.mem_erase_iff.mp he
      have hlt : keyLt el e x ∨ keyLt el x e := by
        rcases sublist_pair_of_mem L e x hmem.2 hx hmem.1 with h | h
        · exact Or.inl (List.pairwise_iff_forall_sublist.mp hs h)
        · exact Or.inr (List.pairwise_iff_forall_sublist.mp hs h)
      unfold keyLt at hlt
      unfold stampNe
      omega
    exact List.eq_of_perm_of_sorted
      ((insertLoop_perm el x (L.erase x)).trans (List.perm_cons_erase hx).symm)
      (insertLoop_sorted el x (L.erase x) hsub hne) hs

theorem setZ_stamp (w : World) (x : Nat) (v : Int) (y : Nat) :
    ((SceneElement.setZ w x v).elems y).creationStamp = (w.elems y).creationStamp ∧
      ((SceneElement.setZ w x v).elems y).scene = (w.elems y).scene := by
  unfold SceneElement.setZ
  split_ifs with hz
  · exact ⟨rfl, rfl⟩
  · by_cases hy : y = x
    · subst hy; simp [Scene.reinsert, Scene.insert]
    · simp [Scene.reinsert, Scene.insert, Function.update_noteq hy]

/-- C3: in a scene whose sequence is sorted and whose elements carry pairwise
different creation stamps, `B.setZ(v)` followed by `B.setZ(z0)`, with `z0` the
priority `B` had, gives back the state it started from, so the sequence is as it
was; the creation stamp of `B` is the same in between and afterwards; and an
element `A` of the scene with the priority `z0` and a smaller stamp is in front
of `B` before the two calls and after them. -/
theorem setZ_round_trip (w : World) (B : Nat) (v : Int)
    (hs : (w.scenes (w.elems B).scene).Pairwise (keyLe w.elems))
    (hd : (w.scenes (w.elems B).scene).Pairwise (stampNe w.elems))
    (hB : B ∈ w.scenes (w.elems B).scene) :
    SceneElement.setZ (SceneElement.setZ w B v) B (w.elems B).z = w ∧
      ((SceneElement.setZ w B v).elems B).creationStamp = (w.elems B).creationStamp ∧
      ((SceneElement.setZ (SceneElement.setZ w B v) B (w.elems B).z).elems B).creationStamp
        = (w.elems B).creationStamp ∧
      ∀ A, A ∈ w.scenes (w.elems B).scene → (w.elems A).z = (w.elems B).z →
        (w.elems A).creationStamp < (w.elems B).creationStamp →
        List.Sublist [A, B] (w.scenes (w.elems B).scene) ∧
        List.Sublist [A, B]
          ((SceneElement.setZ (SceneElement.setZ w B v) B (w.elems B).z).scenes
            (w.elems B).scene) := by
  have hlt : (w.scenes (w.elems B).scene).Pairwise (keyLt w.elems) :=
    keyLe_stampNe_keyLt w.elems _ hs hd
  have hback : SceneElement.setZ (SceneElement.setZ w B v) B (w.elems B).z = w := by
    by_cases hv : (w.elems B).z = v
    · simp [SceneElement.setZ, hv]
    · have hv1 : ¬ v = (w.elems B).z := fun h => hv h.symm
      obtain ⟨h1, h2⟩ := reinsert_list w.elems
        (Function.update w.elems B { w.elems B with z := v }) _ B hlt hB
      cases w with
      | mk stamp next alive elems scenes =>
        simp only at h1 h2 hv hv1 ⊢
        simp only [SceneElement.setZ, hv, hv1, if_false, Scene.reinsert, Scene.insert,
          Function.update_same, Function.update_idem, IntruList.remove, h1, h2,
          World.mk.injEq, true_and]
        constructor
        · funext y
          by_cases hy : y = B
          · subst hy; simp
          · simp [Function.update_noteq hy]
        · funext t
          by_cases ht : t = (elems B).scene
          · subst ht; simp [h2]
          · simp [Function.update_noteq ht]
  refine ⟨hback, (setZ_stamp w B v B).1, by rw [hback], ?_⟩
  intro A hA hz hst
  have hAB : List.Sublist [A, B] (w.scenes (w.elems B).scene) :=
    sublist_pair_of_keyLt w.elems _ A B hlt hA hB (Or.inr ⟨hz, hst⟩)
  refine ⟨hAB, ?_⟩
  rw [hback]
  exact hAB

theorem insertAll_scenes (xs : List Nat) : ∀ (w : World) (s : Nat),
    insertAll w s xs =
      { w with scenes := Function.update w.scenes s (insertLoopAll w.elems (w.scenes s) xs) } := by
  induction xs with
  | nil =>
    intro w s
    simp [insertAll, insertLoopAll]
  | cons x xs ih =>
    intro w s
    have h := ih (Scene.insert w s x) s
    simp only [insertAll, insertLoopAll, List.foldl_cons] at h ⊢
    rw [h]
    simp [Scene.insert]

theorem insertLoopAll_perm (el : Nat → SceneElement) (xs : List Nat) : ∀ L : List Nat,
    (insertLoopAll el L xs).Perm (xs ++ L) := by
  induction xs with
  | nil => intro L; exact List.Perm.refl _
  | cons x xs ih =>
    intro L
    simp only [insertLoopAll, List.foldl_cons, List.cons_append]
    refine (ih _).trans ?_
    refine ((insertLoop_perm el x L).append_left xs).trans ?_
    exact List.perm_middle

theorem insertLoopAll_sorted (el : Nat → SceneElement) (xs : List Nat) : ∀ L : List Nat,
    L.Pairwise (keyLt el) → (L ++ xs).Pairwise (stampNe el) →
    (insertLoopAll el L xs).Pairwise (keyLt el) := by
  induction xs with
  | nil => intro L hs _; exact hs
  | cons x xs ih =>
    intro L hs hd
    simp only [insertLoopAll, List.foldl_cons]
    refine ih _ ?_ ?_
    · refine insertLoop_sorted el x L hs ?_
      intro e he _
      exact (List.pairwise_append.mp hd).2.2 e he x (by simp)
    · have hp : (Scene.insertLoop el x L ++ xs).Perm (L ++ x :: xs) :=
        ((insertLoop_perm el x L).append_right xs).trans List.perm_middle.symm
      exact (List.Perm.pairwise_iff (fun h => Ne.symm h) hp).mpr hd

/-- C4: when the elements `xs` carry pairwise different creation stamps, inserting
them one at a time into an empty scene gives the same state for every order of
the insert calls: the result for `xs` and for any rearrangement `ys` of `xs` is
the same, namely the one arrangement of `xs` that is ordered by z and, for equal
z, by creation stamp. -/
theorem insert_order_independent (w : World) (s : Nat) (xs ys : List Nat)
    (hempty : w.scenes s = []) (hperm : xs.Perm ys)
    (hd : xs.Pairwise (stampNe w.elems)) :
    insertAll w s xs = insertAll w s ys ∧
      ((insertAll w s xs).scenes s).Perm xs ∧
      ((insertAll w s xs).scenes s).Pairwise (orderedPair w.elems) := by
  have hdy : ys.Pairwise (stampNe w.elems) :=
    (List.Perm.pairwise_iff (fun h => Ne.symm h) hperm).mp hd
  have hsx := insertLoopAll_sorted w.elems xs [] List.Pairwise.nil (by simpa using hd)
  have hsy := insertLoopAll_sorted w.elems ys [] List.Pairwise.nil (by simpa using hdy)
  have hpx := insertLoopAll_perm w.elems xs []
  have hpy := insertLoopAll_perm w.elems ys []
  rw [List.append_nil] at hpx hpy
  have heq : insertLoopAll w.elems [] xs = insertLoopAll w.elems [] ys :=
    List.eq_of_perm_of_sorted (hpx.trans (hperm.trans hpy.symm)) hsx hsy
  rw [insertAll_scenes xs w s, insertAll_scenes ys w s, hempty, heq]
  refine ⟨rfl, ?_, ?_⟩
  · simp only [Function.update_same]
    rw [← heq]
    exact hpx
  · simp only [Function.update_same]
    rw [← heq]
    exact hsx.imp (fun hab => keyLt_orderedPair w.elems hab)

/-! ## Scene graph: the results at concrete states -/

theorem reachable_scene_sorted_witness :
    run (World.init 0) sampleOps = some sampleWorld ∧
      ((sampleWorld.scenes 1).Pairwise (orderedPair sampleWorld.elems) ∧
        (Scene.composite sampleWorld 1).2.Pairwise (orderedPair sampleWorld.elems)) :=
  ⟨rfl, reachable_scene_sorted 0 sampleOps sampleWorld rfl 1⟩

theorem reachable_membership_witness :
    run (World.init 0) sampleOps = some sampleWorld ∧
      (sampleWorld.scenes 1).count 2 =
        if sampleWorld.alive 2 = true ∧ (sampleWorld.elems 2).scene = 1 then 1 else 0 :=
  ⟨rfl, reachable_membership 0 sampleOps sampleWorld rfl 2 1⟩

theorem setZ_round_trip_witness :
    ((pairWorld.scenes (pairWorld.elems 1).scene).Pairwise (keyLe pairWorld.elems) ∧
      (pairWorld.scenes (pairWorld.elems 1).scene).Pairwise (stampNe pairWorld.elems) ∧
      1 ∈ pairWorld.scenes (pairWorld.elems 1).scene) ∧
      SceneElement.setZ (SceneElement.setZ pairWorld 1 9) 1 5 = pairWorld :=
  ⟨⟨by decide, by decide, by decide⟩,
    (setZ_round_trip pairWorld 1 9 (by decide) (by decide) (by decide)).1⟩

theorem insert_order_independent_witness :
    (keysWorld.scenes 0 = [] ∧ List.Perm [0, 1, 2] [2, 1, 0] ∧
      List.Pairwise (stampNe keysWorld.elems) [0, 1, 2]) ∧
      insertAll keysWorld 0 [0, 1, 2] = insertAll keysWorld 0 [2, 1, 0] :=
  ⟨⟨rfl, by decide, by decide⟩,
    (insert_order_independent keysWorld 0 [0, 1, 2] [2, 1, 0] rfl (by decide) (by decide)).1⟩

/-! ## Shared font state: the tables -/

theorem find_append_single {K V : Type} [DecidableEq K] (h : BoostHash K V) (k : K) (v : V)
    (k1 : K) :
    BoostHash.find (h ++ [(k, v)]) k1 =
      match BoostHash.find h k1 with
      | some x => some x
      | none => if k1 = k then some v else none := by
  induction h with
  | nil => simp [BoostHash.find]
  | cons a t ih =>
    obtain ⟨ka, va⟩ := a
    by_cases hk : k1 = ka
    · simp [BoostHash.find, hk]
    · simp only [List.cons_append, BoostHash.find, hk, if_false]
      exact ih

theorem index_fst {K V : Type} [DecidableEq K] (d : V) (h : BoostHash K V) (k : K) :
    (BoostHash.index d h k).1 = BoostHash.value d h k := by
  unfold BoostHash.index BoostHash.value
  cases BoostHash.find h k <;> rfl

theorem value_index {K V : Type} [DecidableEq K] (d : V) (h : BoostHash K V) (k k1 : K) :
    BoostHash.value d (BoostHash.index d h k).2 k1 = BoostHash.value d h k1 := by
  unfold BoostHash.index
  cases hk : BoostHash.find h k with
  | some v => rfl
  | none =>
    simp only [BoostHash.value, find_append_single]
    cases hk1 : BoostHash.find h k1 with
    | some v1 => rfl
    | none =>
      by_cases heq : k1 = k
      · simp [heq]
      · simp [heq]

theorem substitute_eq (p : SharedFontStatePrivate) (family : String) :
    SharedFontState.substitute p family = (canonicalFamily p family, p) := by
  unfold SharedFontState.substitute canonicalFamily BoostHash.contains BoostHash.index
  cases BoostHash.find p.subs family <;> simp

theorem assetRegistered_iff (p : SharedFontStatePrivate) (c : String) :
    assetRegistered p c ↔
      ¬ ((BoostHash.value default p.sets c).regular = "" ∧
          (BoostHash.value default p.sets c).other = "") := by
  unfold assetRegistered BoostHash.value
  cases BoostHash.find p.sets c with
  | none =>
    simp only [Option.getD_none]
    constructor
    · rintro ⟨fs, hfs, -⟩
      cases hfs
    · intro h
      exact absurd ⟨rfl, rfl⟩ h
  | some fs =>
    simp only [Option.getD_some, Option.some.injEq, exists_eq_left']
    tauto

theorem fontPresent_fst (p : SharedFontStatePrivate) (family : String) :
    (SharedFontState.fontPresent p family).1 =
      !(decide ((BoostHash.value default p.sets (canonicalFamily p family)).regular = "") &&
        decide ((BoostHash.value default p.sets (canonicalFamily p family)).other = "")) := by
  simp only [SharedFontState.fontPresent, substitute_eq, index_fst]

theorem fontPresent_snd (p : SharedFontStatePrivate) (family : String) :
    (SharedFontState.fontPresent p family).2 =
      { p with sets := (BoostHash.index default p.sets (canonicalFamily p family)).2 } := by
  simp only [SharedFontState.fontPresent, substitute_eq]

theorem sameTables_refl (p : SharedFontStatePrivate) : SameTables p p :=
  ⟨rfl, fun _ => rfl⟩

theorem sameTables_trans {p q r : SharedFontStatePrivate} (h1 : SameTables p q)
    (h2 : SameTables q r) : SameTables p r :=
  ⟨h2.1.trans h1.1, fun k => (h2.2 k).trans (h1.2 k)⟩

theorem sameTables_fontPresent (p : SharedFontStatePrivate) (family : String) :
    SameTables p (SharedFontState.fontPresent p family).2 := by
  rw [fontPresent_snd]
  exact ⟨rfl, fun k => value_index default p.sets _ k⟩

theorem canonicalFamily_congr {p q : SharedFontStatePrivate} (h : SameTables p q)
    (family : String) : canonicalFamily q family = canonicalFamily p family := by
  unfold canonicalFamily
  rw [h.1]

theorem resolvedFamily_congr {p q : SharedFontStatePrivate} (h : SameTables p q)
    (family : String) : resolvedFamily q family = resolvedFamily p family := by
  unfold resolvedFamily
  simp only [canonicalFamily_congr h, h.2]

theorem fontPresent_congr {p q : SharedFontStatePrivate} (h : SameTables p q)
    (family : String) :
    (SharedFontState.fontPresent q family).1 = (SharedFontState.fontPresent p family).1 := by
  rw [fontPresent_fst, fontPresent_fst, canonicalFamily_congr h, h.2]

/-! ## Shared font state: name selection -/

theorem pickLoop_first_present (names : List String) :
    ∀ (p q : SharedFontStatePrivate), SameTables p q →
      (pickExistingFontNameLoop names q).1 =
        (names.find? (fun n => (SharedFontState.fontPresent p n).1)).getD "" := by
  induction names with
  | nil => intro p q _; rfl
  | cons n rest ih =>
    intro p q hpq
    have hn := fontPresent_congr hpq n
    by_cases hpres : (SharedFontState.fontPresent p n).1 = true
    · simp [pickExistingFontNameLoop, List.find?_cons, hn, hpres]
    · have hq := sameTables_trans hpq (sameTables_fontPresent q n)
      simp only [pickExistingFontNameLoop, List.find?_cons, hn, hpres]
      exact ih p _ hq

/-- C8: `pickExistingFontName` leaves in `out` the first name of the list, in
list order, for which `fontPresent` answers true, and the empty string when
there is no such name (the empty list included). With assets for "B" only, the
list "A", "B", "C" gives "B". -/
theorem pickExistingFontName_first_present (names : List String)
    (sfs : SharedFontStatePrivate) :
    (pickExistingFontName names sfs).1 =
        (names.find? (fun n => (SharedFontState.fontPresent sfs n).1)).getD "" ∧
      (pickExistingFontName [] sfs).1 = "" ∧
      (pickExistingFontName ["A", "B", "C"] onlyBFonts).1 = "B" := by
  refine ⟨?_, rfl, by decide⟩
  unfold pickExistingFontName
  exact pickLoop_first_present names sfs sfs (sameTables_refl sfs)

/-- C9: `fontPresent(n)` answers true exactly when a font set with a non-empty
regular or other path is stored for the family `c`, where `c` is the
substitution target of `n` if `n` has one and `n` itself otherwise; the target
is not substituted again. With "Foo>Bar" and assets for "Bar" only, "Foo" is
present; with "Foo>Bar", "Bar>Baz" and assets for "Baz" only, "Foo" is not. -/
theorem fontPresent_iff_registered (p : SharedFontStatePrivate) (n : String) :
    ((SharedFontState.fontPresent p n).1 = true ↔ assetRegistered p (canonicalFamily p n)) ∧
      (SharedFontState.fontPresent fooBarFonts "Foo").1 = true ∧
      (SharedFontState.fontPresent chainFonts "Foo").1 = false := by
  refine ⟨?_, by decide, by decide⟩
  rw [assetRegistered_iff, fontPresent_fst]
  simp only [Bool.not_eq_true', Bool.and_eq_false_iff, decide_eq_false_iff_not, not_and]
  tauto

/-! ## Shared font state: the pool -/

/-- The asset `getFont` opens for a requested name on a pool miss. -/
theorem getFont_unfold (lib : FontLib) (p : SharedFontStatePrivate) (n : String) (size : Int) :
    SharedFontState.getFont lib p n size =
      if BoostHash.value 0 p.pool (resolvedFamily p n, size) ≠ 0 then
        { result := .ok (BoostHash.value 0 p.pool (resolvedFamily p n, size)), opened := none,
          state := { p with sets := (BoostHash.index default p.sets (canonicalFamily p n)).2 } }
      else if lib.openFont
          (if resolvedFamily p n = "" then FontSource.bundled
            else FontSource.file
              (if (BoostHash.value default p.sets (canonicalFamily p n)).regular ≠ "" then
                (BoostHash.value default p.sets (canonicalFamily p n)).regular
              else (BoostHash.value default p.sets (canonicalFamily p n)).other))
          (lib.pointSize (resolvedFamily p n) size) = 0 then
        { result := .error ExceptionType.SDLError,
          opened := some
            (if resolvedFamily p n = "" then FontSource.bundled
              else FontSource.file
                (if (BoostHash.value default p.sets (canonicalFamily p n)).regular ≠ "" then
                  (BoostHash.value default p.sets (canonicalFamily p n)).regular
                else (BoostHash.value default p.sets (canonicalFamily p n)).other),
              lib.pointSize (resolvedFamily p n) size),
          state := { p with sets := (BoostHash.index default p.sets (canonicalFamily p n)).2 } }
      else
        { result := .ok (lib.openFont
            (if resolvedFamily p n = "" then FontSource.bundled
              else FontSource.file
                (if (BoostHash.value default p.sets (canonicalFamily p n)).regular ≠ "" then
                  (BoostHash.value default p.sets (canonicalFamily p n)).regular
                else (BoostHash.value default p.sets (canonicalFamily p n)).other))
            (lib.pointSize (resolvedFamily p n) size)),
          opened := some
            (if resolvedFamily p n = "" then FontSource.bundled
              else FontSource.file
                (if (BoostHash.value default p.sets (canonicalFamily p n)).regular ≠ "" then
                  (BoostHash.value default p.sets (canonicalFamily p n)).regular
                else (BoostHash.value default p.sets (canonicalFamily p n)).other),
              lib.pointSize (resolvedFamily p n) size),
          state :=
            { subs := p.subs
              sets := (BoostHash.index default p.sets (canonicalFamily p n)).2
              pool := BoostHash.insert p.pool (resolvedFamily p n, size)
                (lib.openFont
                  (if resolvedFamily p n = "" then FontSource.bundled
                    else FontSource.file
                      (if (BoostHash.value default p.sets (canonicalFamily p n)).regular ≠ "" then
                        (BoostHash.value default p.sets (canonicalFamily p n)).regular
                      else (BoostHash.value default p.sets (canonicalFamily p n)).other))
                  (lib.pointSize (resolvedFamily p n) size)) } } := by
  simp only [SharedFontState.getFont, substitute_eq, index_fst, resolvedFamily]

/-- The three ways a `getFont` call can end: a pool hit, a failed open, and a
successful open whose handle is stored under the key. -/
theorem getFont_cases (lib : FontLib) (p : SharedFontStatePrivate) (n : String) (size : Int) :
    (BoostHash.value 0 p.pool (resolvedFamily p n, size) ≠ 0 ∧
      SharedFontState.getFont lib p n size =
        { result := .ok (BoostHash.value 0 p.pool (resolvedFamily p n, size)), opened := none,
          state := { p with sets := (BoostHash.index default p.sets (canonicalFamily p n)).2 } }) ∨
    (BoostHash.value 0 p.pool (resolvedFamily p n, size) = 0 ∧
      ∃ ops pt, lib.openFont ops pt = 0 ∧
        SharedFontState.getFont lib p n size =
          { result := .error ExceptionType.SDLError, opened := some (ops, pt),
            state := { p with sets := (BoostHash.index default p.sets (canonicalFamily p n)).2 } }) ∨
    (BoostHash.value 0 p.pool (resolvedFamily p n, size) = 0 ∧
      ∃ ops pt, lib.openFont ops pt ≠ 0 ∧
        SharedFontState.getFont lib p n size =
          { result := .ok (lib.openFont ops pt), opened := some (ops, pt),
            state :=
              { subs := p.subs
                sets := (BoostHash.index default p.sets (canonicalFamily p n)).2
                pool := BoostHash.insert p.pool (resolvedFamily p n, size)
                  (lib.openFont ops pt) } }) := by
  rw [getFont_unfold]
  by_cases h1 : BoostHash.value 0 p.pool (resolvedFamily p n, size) ≠ 0
  · exact Or.inl ⟨h1, by rw [if_pos h1]⟩
  · right
    by_cases h2 : lib.openFont
        (if resolvedFamily p n = "" then FontSource.bundled
          else FontSource.file
            (if (BoostHash.value default p.sets (canonicalFamily p n)).regular ≠ "" then
              (BoostHash.value default p.sets (canonicalFamily p n)).regular
            else (BoostHash.value default p.sets (canonicalFamily p n)).other))
        (lib.pointSize (resolvedFamily p n) size) = 0
    · exact Or.inl ⟨not_not.mp h1, _, _, h2, by rw [if_neg h1, if_pos h2]⟩
    · exact Or.inr ⟨not_not.mp h1, _, _, h2, by rw [if_neg h1, if_neg h2]⟩

theorem sameTables_getFont (lib : FontLib) (p : SharedFontStatePrivate) (n : String)
    (size : Int) : SameTables p (SharedFontState.getFont lib p n size).state := by
  rcases getFont_cases lib p n size with ⟨-, h⟩ | ⟨-, ops, pt, -, h⟩ | ⟨-, ops, pt, -, h⟩ <;>
    rw [h] <;> exact ⟨rfl, fun k => value_index default p.sets _ k⟩

theorem find_insert_of_some {K V : Type} [DecidableEq K] (h : BoostHash K V) (k : K) (v : V)
    (k1 : K) (v1 : V) (hf : BoostHash.find h k1 = some v1) :
    BoostHash.find (BoostHash.insert h k v) k1 = some v1 := by
  unfold BoostHash.insert
  split_ifs
  · exact hf
  · rw [find_append_single, hf]

theorem find_insert_of_none {K V : Type} [DecidableEq K] (h : BoostHash K V) (k : K) (v : V)
    (k1 : K) (hk : BoostHash.find h k = none) :
    BoostHash.find (BoostHash.insert h k v) k1 =
      match BoostHash.find h k1 with
      | some x => some x
      | none => if k1 = k then some v else none := by
  unfold BoostHash.insert BoostHash.contains
  rw [hk]
  simp only [Option.isSome_none, Bool.false_eq_true, if_false]
  exact find_append_single h k v k1

theorem find_none_of_value_zero (p : SharedFontStatePrivate) (hp : PoolInv p) (k : FontKey)
    (h : BoostHash.value 0 p.pool k = 0) : BoostHash.find p.pool k = none := by
  unfold BoostHash.value at h
  cases hf : BoostHash.find p.pool k with
  | none => rfl
  | some v =>
    rw [hf] at h
    simp only [Option.getD_some] at h
    rw [h] at hf
    exact absurd hf (hp.1 k)

/-- A pool entry stays where it is through a `getFont` call. -/
theorem getFont_keeps (lib : FontLib) (p : SharedFontStatePrivate) (n : String) (size : Int)
    (k : FontKey) (h : Nat) (hf : BoostHash.find p.pool k = some h) :
    BoostHash.find (SharedFontState.getFont lib p n size).state.pool k = some h := by
  rcases getFont_cases lib p n size with ⟨-, hg⟩ | ⟨-, ops, pt, -, hg⟩ | ⟨-, ops, pt, -, hg⟩ <;>
    rw [hg]
  · exact hf
  · exact hf
  · exact find_insert_of_some _ _ _ _ _ hf

theorem getFont_poolInv (lib : FontLib) (p : SharedFontStatePrivate) (n : String) (size : Int)
    (hp : PoolInv p) (hfresh : FreshOpens lib p) :
    PoolInv (SharedFontState.getFont lib p n size).state := by
  rcases getFont_cases lib p n size with ⟨-, hg⟩ | ⟨-, ops, pt, -, hg⟩ | ⟨hz, ops, pt, hne, hg⟩ <;>
    rw [hg]
  · exact hp
  · exact hp
  · have hnone := find_none_of_value_zero p hp _ hz
    constructor
    · intro k
      simp only
      rw [find_insert_of_none _ _ _ _ hnone]
      cases hk : BoostHash.find p.pool k with
      | some x =>
        simp only
        rw [← hk]
        exact hp.1 k
      | none =>
        simp only
        split_ifs
        · intro h0
          exact hne (Option.some.inj h0)
        · simp
    · intro k k1 h hk hk1
      simp only at hk hk1
      rw [find_insert_of_none _ _ _ _ hnone] at hk hk1
      cases hfk : BoostHash.find p.pool k with
      | some x =>
        rw [hfk] at hk
        simp only [Option.some.injEq] at hk
        cases hfk1 : BoostHash.find p.pool k1 with
        | some x1 =>
          rw [hfk1] at hk1
          simp only [Option.some.injEq] at hk1
          exact hp.2 k k1 h (hk ▸ hfk) (hk1 ▸ hfk1)
        | none =>
          rw [hfk1] at hk1
          simp only at hk1
          split_ifs at hk1 with hkey
          simp only [Option.some.injEq] at hk1
          exact absurd (by rw [hfk, hk, hk1]) (hfresh ops pt k)
      | none =>
        rw [hfk] at hk
        simp only at hk
        split_ifs at hk with hkey
        simp only [Option.some.injEq] at hk
        cases hfk1 : BoostHash.find p.pool k1 with
        | some x1 =>
          rw [hfk1] at hk1
          simp only [Option.some.injEq] at hk1
          exact absurd (by rw [hfk1, hk1, hk]) (hfresh ops pt k1)
        | none =>
          rw [hfk1] at hk1
          simp only at hk1
          split_ifs at hk1 with hkey1
          rw [hkey, hkey1]

/-- A successful `getFont` call leaves its handle in the pool under the key of
the resolved family and the nominal size. -/
theorem getFont_ok_find (lib : FontLib) (p : SharedFontStatePrivate) (n : String) (size : Int)
    (hp : PoolInv p) (h : Nat) (hok : (SharedFontState.getFont lib p n size).result = .ok h) :
    BoostHash.find (SharedFontState.getFont lib p n size).state.pool (resolvedFamily p n, size)
      = some h ∧ h ≠ 0 := by
  rcases getFont_cases lib p n size with ⟨hz, hg⟩ | ⟨-, ops, pt, -, hg⟩ | ⟨hz, ops, pt, hne, hg⟩ <;>
    rw [hg] at hok ⊢
  · simp only [Except.ok.injEq] at hok
    subst hok
    refine ⟨?_, hz⟩
    simp only
    unfold BoostHash.value at hz ⊢
    cases hf : BoostHash.find p.pool (resolvedFamily p n, size) with
    | none => rw [hf] at hz; simp at hz
    | some v => simp
  · simp at hok
  · simp only [Except.ok.injEq] at hok
    subst hok
    refine ⟨?_, hne⟩
    simp only
    rw [find_insert_of_none _ _ _ _ (find_none_of_value_zero p hp _ hz)]
    rw [find_none_of_value_zero p hp _ hz]
    simp

theorem later_sameTables {p q : SharedFontStatePrivate} (h : Later p q) : SameTables p q := by
  induction h with
  | refl => exact sameTables_refl _
  | getFont lib family size _ _ ih => exact sameTables_trans ih (sameTables_getFont lib _ family size)
  | fontPresent family _ ih => exact sameTables_trans ih (sameTables_fontPresent _ family)

theorem later_poolInv {p q : SharedFontStatePrivate} (h : Later p q) (hp : PoolInv p) :
    PoolInv q := by
  induction h with
  | refl => exact hp
  | getFont lib family size _ hfresh ih => exact getFont_poolInv lib _ family size ih hfresh
  | fontPresent family _ ih =>
    rw [fontPresent_snd]
    exact ih

theorem later_keeps {p q : SharedFontStatePrivate} (h : Later p q) (k : FontKey) (v : Nat)
    (hf : BoostHash.find p.pool k = some v) : BoostHash.find q.pool k = some v := by
  induction h with
  | refl => exact hf
  | getFont lib family size _ _ ih => exact getFont_keeps lib _ family size k v ih
  | fontPresent family _ ih =>
    rw [fontPresent_snd]
    exact ih

theorem reachable_poolInv {p : SharedFontStatePrivate} (h : Reachable p) : PoolInv p := by
  obtain ⟨p0, hempty, hlater⟩ := h
  refine later_poolInv hlater ?_
  constructor
  · intro k
    rw [hempty]
    simp [BoostHash.find]
  · intro k k1 v hk
    rw [hempty] at hk
    simp [BoostHash.find] at hk

/-! ## Shared font state: cache identity -/

/-- C10: in a state the font cache can reach, let a request for `n1` at nominal
size `size` return the handle `h`. In every later state a request for a name
`n2` that resolves to the same family, at the same nominal size, returns `h`,
opens nothing and leaves the pool as it is, whatever the library would do. A
later request for a name resolving to that family at a different nominal size,
if it returns, returns a handle different from `h` (successful opens yielding
fresh pointers); the corrected pixel sizes play no part, so this holds also when
they coincide. -/
theorem getFont_cache_identity (p : SharedFontStatePrivate) (hp : Reachable p)
    (lib1 : FontLib) (hf1 : FreshOpens lib1 p) (n1 n2 : String) (size : Int) (h : Nat)
    (hres : resolvedFamily p n1 = resolvedFamily p n2)
    (hok : (SharedFontState.getFont lib1 p n1 size).result = .ok h)
    (q : SharedFontStatePrivate)
    (hq : Later (SharedFontState.getFont lib1 p n1 size).state q) :
    (∀ lib2 : FontLib,
      (SharedFontState.getFont lib2 q n2 size).result = .ok h ∧
      (SharedFontState.getFont lib2 q n2 size).opened = none ∧
      (SharedFontState.getFont lib2 q n2 size).state.pool = q.pool) ∧
    (∀ (lib3 : FontLib) (n3 : String) (size3 : Int) (h3 : Nat),
      FreshOpens lib3 q → resolvedFamily p n3 = resolvedFamily p n1 → size3 ≠ size →
      (SharedFontState.getFont lib3 q n3 size3).result = .ok h3 → h3 ≠ h) := by
  have hpinv : PoolInv p := reachable_poolInv hp
  have hs1 : PoolInv (SharedFontState.getFont lib1 p n1 size).state :=
    getFont_poolInv lib1 p n1 size hpinv hf1
  have hqinv : PoolInv q := later_poolInv hq hs1
  have htab : SameTables p q :=
    sameTables_trans (sameTables_getFont lib1 p n1 size) (later_sameTables hq)
  obtain ⟨hfind1, hne⟩ := getFont_ok_find lib1 p n1 size hpinv h hok
  have hfindq : BoostHash.find q.pool (resolvedFamily p n1, size) = some h :=
    later_keeps hq _ _ hfind1
  constructor
  · intro lib2
    have hkey : resolvedFamily q n2 = resolvedFamily p n1 := by
      rw [resolvedFamily_congr htab, hres]
    have hval : BoostHash.value 0 q.pool (resolvedFamily q n2, size) = h := by
      unfold BoostHash.value
      rw [hkey, hfindq]
      rfl
    rcases getFont_cases lib2 q n2 size with ⟨-, hg⟩ | ⟨hz, -⟩ | ⟨hz, -⟩
    · rw [hg, hval]
      exact ⟨rfl, rfl, rfl⟩
    · exact absurd (hval.symm.trans hz) hne
    · exact absurd (hval.symm.trans hz) hne
  · intro lib3 n3 size3 h3 hf3 hres3 hsize hok3 heq
    have hkey3 : resolvedFamily q n3 = resolvedFamily p n1 := by
      rw [resolvedFamily_congr htab, hres3]
    obtain ⟨hfind3, -⟩ := getFont_ok_find lib3 q n3 size3 hqinv h3 hok3
    have hkeep := getFont_keeps lib3 q n3 size3 _ _ hfindq
    have hinv3 := getFont_poolInv lib3 q n3 size3 hqinv hf3
    rw [hkey3, heq] at hfind3
    have hk := hinv3.2 _ _ h hfind3 hkeep
    exact hsize (congrArg Prod.snd hk)

theorem getFont_cache_identity_witness :
    (Reachable fooBarFonts ∧ FreshOpens (constLib 9 1) fooBarFonts ∧
      resolvedFamily fooBarFonts "Foo" = resolvedFamily fooBarFonts "Bar" ∧
      (SharedFontState.getFont (constLib 9 1) fooBarFonts "Foo" 10).result = .ok 1) ∧
    ∀ lib2 : FontLib,
      (SharedFontState.getFont lib2
        (SharedFontState.getFont (constLib 9 1) fooBarFonts "Foo" 10).state "Bar" 10).result
          = .ok 1 ∧
      (SharedFontState.getFont lib2
        (SharedFontState.getFont (constLib 9 1) fooBarFonts "Foo" 10).state "Bar" 10).opened
          = none ∧
      (SharedFontState.getFont lib2
        (SharedFontState.getFont (constLib 9 1) fooBarFonts "Foo" 10).state "Bar" 10).state.pool
          = (SharedFontState.getFont (constLib 9 1) fooBarFonts "Foo" 10).state.pool :=
  ⟨⟨⟨fooBarFonts, rfl, Later.refl _⟩, fun _ _ _ => by simp [fooBarFonts, BoostHash.find],
      by decide, rfl⟩,
    (getFont_cache_identity fooBarFonts ⟨fooBarFonts, rfl, Later.refl _⟩ (constLib 9 1)
      (fun _ _ _ => by simp [fooBarFonts, BoostHash.find]) "Foo" "Bar" 10 1
      (by decide) rfl _ (Later.refl _)).1⟩

/-- After a request for "Foo" at nominal size 10, a request at nominal size 11
opens the same asset at the same corrected pixel size 9 and still returns a
handle of its own. -/
theorem getFont_other_size_example :
    (SharedFontState.getFont (constLib 9 1) fooBarFonts "Foo" 10).opened
        = some (FontSource.file "Fonts/Bar-Bold.ttf", 9) ∧
      (SharedFontState.getFont (constLib 9 2)
        (SharedFontState.getFont (constLib 9 1) fooBarFonts "Foo" 10).state "Foo" 11).opened
          = some (FontSource.file "Fonts/Bar-Bold.ttf", 9) ∧
      (SharedFontState.getFont (constLib 9 2)
        (SharedFontState.getFont (constLib 9 1) fooBarFonts "Foo" 10).state "Foo" 11).result
          = .ok 2 :=
  ⟨rfl, rfl, rfl⟩

/-! ## Serialized form of rectangles, colors and tones -/

theorem leBytes_length (n v : Nat) : (leBytes n v).length = n := by
  induction n generalizing v with
  | zero => rfl
  | succ n ih => simp [leBytes, ih]

theorem leValue_leBytes (n v : Nat) : leValue (leBytes n v) = v % 256 ^ n := by
  induction n generalizing v with
  | zero => simp [leBytes, leValue, Nat.mod_one]
  | succ n ih =>
    simp only [leBytes, leValue, ih]
    rw [pow_succ, Nat.mul_comm (256 ^ n) 256, Nat.mod_mul]

/-- Reading four bytes where a 32-bit integer was written gives it back. -/
theorem read_write_int32 (pre post : List Nat) (v : Int) (hv : isInt32 v) :
    read_int32 (write_int32 pre v ++ post) pre.length = (v, pre.length + 4) := by
  unfold isInt32 at hv
  have hlen : (leBytes 4 (v % 4294967296).toNat).length = 4 := leBytes_length _ _
  have htake : ((write_int32 pre v ++ post).drop pre.length).take 4
      = leBytes 4 (v % 4294967296).toNat := by
    unfold write_int32
    rw [List.append_assoc, List.drop_left, List.take_left' hlen]
  unfold read_int32
  simp only [htake, leValue_leBytes]
  have h : (256 : Nat) ^ 4 = 4294967296 := by norm_num
  rw [h]
  refine Prod.ext ?_ rfl
  simp only
  split_ifs <;> omega

/-- Reading eight bytes where a double was written gives it back. -/
theorem read_write_double (pre post : List Nat) (v : Double) (hv : v < 2 ^ 64) :
    read_double (write_double pre v ++ post) pre.length = (v, pre.length + 8) := by
  have hlen : (leBytes 8 v).length = 8 := leBytes_length _ _
  have htake : ((write_double pre v ++ post).drop pre.length).take 8 = leBytes 8 v := by
    unfold write_double
    rw [List.append_assoc, List.drop_left, List.take_left' hlen]
  unfold read_double
  simp only [htake, leValue_leBytes]
  have h : (256 : Nat) ^ 8 = 2 ^ 64 := by norm_num
  rw [h, Nat.mod_eq_of_lt hv]

theorem write_int32_length (buf : List Nat) (v : Int) :
    (write_int32 buf v).length = buf.length + 4 := by
  simp [write_int32, leBytes_length]

theorem write_double_length (buf : List Nat) (v : Double) :
    (write_double buf v).length = buf.length + 8 := by
  simp [write_double, leBytes_length]

/-- The four reads that `Rect::deserialize` makes on the output of
`Rect::serialize`. -/
theorem rect_reads (r : Rect) (hx : isInt32 r.x) (hy : isInt32 r.y) (hw : isInt32 r.width)
    (hh : isInt32 r.height) :
    read_int32 (Rect.serialize r) 0 = (r.x, 4) ∧
      read_int32 (Rect.serialize r) 4 = (r.y, 8) ∧
      read_int32 (Rect.serialize r) 8 = (r.width, 12) ∧
      read_int32 (Rect.serialize r) 12 = (r.height, 16) := by
  refine ⟨?_, ?_, ?_, ?_⟩
  · have h := read_write_int32 []
      (leBytes 4 (r.y % 4294967296).toNat ++ (leBytes 4 (r.width % 4294967296).toNat ++
        leBytes 4 (r.height % 4294967296).toNat)) r.x hx
    simpa [Rect.serialize, write_int32, List.append_assoc] using h
  · have h := read_write_int32 (write_int32 [] r.x)
      (leBytes 4 (r.width % 4294967296).toNat ++ leBytes 4 (r.height % 4294967296).toNat) r.y hy
    rw [write_int32_length] at h
    simpa [Rect.serialize, write_int32, List.append_assoc] using h
  · have h := read_write_int32 (write_int32 (write_int32 [] r.x) r.y)
      (leBytes 4 (r.height % 4294967296).toNat) r.width hw
    rw [write_int32_length, write_int32_length] at h
    simpa [Rect.serialize, write_int32, List.append_assoc] using h
  · have h := read_write_int32 (write_int32 (write_int32 (write_int32 [] r.x) r.y) r.width)
      [] r.height hh
    rw [write_int32_length, write_int32_length, write_int32_length] at h
    simpa [Rect.serialize, write_int32, List.append_assoc] using h

/-- C16: for a `Rect` with 32-bit fields, `Rect::serialize` writes
`serialSize() = 16` bytes, namely the four bytes of x, then of y, of width and of
height; the integer read back at the offsets 0, 4, 8, 12 is x, y, width, height;
and `Rect::deserialize` on those 16 bytes returns a `Rect` that `operator==`
finds equal to the original. -/
theorem rect_serialize_roundtrip (r : Rect) (hx : isInt32 r.x) (hy : isInt32 r.y)
    (hw : isInt32 r.width) (hh : isInt32 r.height) :
    Rect.serialSize = 16 ∧
      ((Rect.serialize r).length : Int) = Rect.serialSize ∧
      Rect.serialize r = write_int32 [] r.x ++ write_int32 [] r.y ++ write_int32 [] r.width
        ++ write_int32 [] r.height ∧
      (write_int32 [] r.x).length = 4 ∧ (write_int32 [] r.y).length = 4 ∧
      (write_int32 [] r.width).length = 4 ∧ (write_int32 [] r.height).length = 4 ∧
      (read_int32 (Rect.serialize r) 0).1 = r.x ∧ (read_int32 (Rect.serialize r) 4).1 = r.y ∧
      (read_int32 (Rect.serialize r) 8).1 = r.width ∧
      (read_int32 (Rect.serialize r) 12).1 = r.height ∧
      ∃ r1, Rect.deserialize (Rect.serialize r) Rect.serialSize = .ok r1 ∧
        Rect.equals r1 r = true := by
  obtain ⟨h0, h4, h8, h12⟩ := rect_reads r hx hy hw hh
  refine ⟨rfl, ?_, ?_, by simp [write_int32_length], by simp [write_int32_length],
    by simp [write_int32_length], by simp [write_int32_length], by rw [h0], by rw [h4],
    by rw [h8], by rw [h12], r, ?_, ?_⟩
  · simp [Rect.serialize, write_int32_length, Rect.serialSize]
  · simp [Rect.serialize, write_int32, List.append_assoc]
  · simp only [Rect.deserialize, Rect.serialSize]
    norm_num
    simp only [h0, h4, h8, h12]
  · simp [Rect.equals]

theorem rect_serialize_roundtrip_witness :
    (isInt32 (-7) ∧ isInt32 300 ∧ isInt32 2147483647 ∧ isInt32 (-2147483648)) ∧
      Rect.serialize ⟨-7, 300, 2147483647, -2147483648⟩ =
        [249, 255, 255, 255, 44, 1, 0, 0, 255, 255, 255, 127, 0, 0, 0, 128] ∧
      ∃ r1, Rect.deserialize (Rect.serialize ⟨-7, 300, 2147483647, -2147483648⟩) Rect.serialSize
          = .ok r1 ∧ Rect.equals r1 ⟨-7, 300, 2147483647, -2147483648⟩ = true :=
  ⟨⟨by decide, by decide, by decide, by decide⟩, by decide,
    (rect_serialize_roundtrip ⟨-7, 300, 2147483647, -2147483648⟩ (by decide) (by decide)
      (by decide) (by decide)).2.2.2.2.2.2.2.2.2.2.2⟩

/-- The four reads that `Color::deserialize` and `Tone::deserialize` make on
four doubles written one after the other. -/
theorem double_reads (a b c d : Double) (ha : isDouble a) (hb : isDouble b)
    (hc : isDouble c) (hd : isDouble d) :
    read_double (write_double (write_double (write_double (write_double [] a) b) c) d) 0
        = (a, 8) ∧
      read_double (write_double (write_double (write_double (write_double [] a) b) c) d) 8
        = (b, 16) ∧
      read_double (write_double (write_double (write_double (write_double [] a) b) c) d) 16
        = (c, 24) ∧
      read_double (write_double (write_double (write_double (write_double [] a) b) c) d) 24
        = (d, 32) := by
  unfold isDouble at ha hb hc hd
  have h64 : (2 : Nat) ^ 64 = 18446744073709551616 := by norm_num
  refine ⟨?_, ?_, ?_, ?_⟩
  · have h := read_write_double [] (leBytes 8 b ++ (leBytes 8 c ++ leBytes 8 d)) a
      (by rw [h64]; exact ha)
    simpa [write_double, List.append_assoc] using h
  · have h := read_write_double (write_double [] a) (leBytes 8 c ++ leBytes 8 d) b
      (by rw [h64]; exact hb)
    rw [write_double_length] at h
    simpa [write_double, List.append_assoc] using h
  · have h := read_write_double (write_double (write_double [] a) b) (leBytes 8 d) c
      (by rw [h64]; exact hc)
    rw [write_double_length, write_double_length] at h
    simpa [write_double, List.append_assoc] using h
  · have h := read_write_double (write_double (write_double (write_double [] a) b) c) [] d
      (by rw [h64]; exact hd)
    rw [write_double_length, write_double_length, write_double_length] at h
    simpa [write_double, List.append_assoc] using h

/-- A double in a range is an 8-byte value and is not NaN. -/
theorem inRange_number (lo hi v : Double) (h : Double.inRange lo hi v) :
    isDouble v ∧ Double.isNaN v = false := by
  obtain ⟨h1, h2, -⟩ := h
  refine ⟨h1, ?_⟩
  unfold Double.le at h2
  simp only [Bool.and_eq_true, Bool.not_eq_true'] at h2
  exact h2.1.2

/-- A double that is not NaN is equal to itself under `==`. -/
theorem double_equals_self (v : Double) (h : Double.isNaN v = false) :
    Double.equals v v = true := by
  simp [Double.equals, h]

/-- The operator `==` on doubles is not the equality of bit patterns: the quiet
NaN `0x7FF8000000000000` is not equal to itself, and `0.0` is equal to `-0.0`. -/
theorem double_equals_examples :
    Double.equals 0x7FF8000000000000 0x7FF8000000000000 = false ∧
      Double.equals 0 0x8000000000000000 = true ∧
      Double.equals 0x406FE00000000000 0x406FE00000000000 = true ∧
      Double.equals 0x406FE00000000000 0x4060000000000000 = false := by
  refine ⟨by decide, by decide, by decide, by decide⟩

/-- The legal ranges are needed for the round trip: a `Color` whose red field
is NaN is read back with the same bytes, and `operator==` finds the result
different from the original. -/
theorem color_nan_not_equal :
    Color.deserialize (Color.serialize ⟨0x7FF8000000000000, 0, 0, 0⟩) Color.serialSize
        = .ok ⟨0x7FF8000000000000, 0, 0, 0⟩ ∧
      Color.equals ⟨0x7FF8000000000000, 0, 0, 0⟩ ⟨0x7FF8000000000000, 0, 0, 0⟩ = false := by
  refine ⟨rfl, by decide⟩

/-- C17: for a `Color` and a `Tone` whose fields are in their legal ranges (0
to 255; -255 to 255 for the red, green and blue of a `Tone`), `serialize`
writes 32 bytes: the eight bytes of red, then of green, of blue and of alpha
(gray for a `Tone`); and `deserialize` on those 32 bytes returns a value that
`operator==`, which compares the fields as doubles, finds equal to the
original, with the same four fields. -/
theorem color_tone_serialize_roundtrip (c : Color) (t : Tone)
    (hc : Color.legal c) (ht : Tone.legal t) :
    (Color.serialSize = 32 ∧ ((Color.serialize c).length : Int) = Color.serialSize ∧
      Color.serialize c = write_double [] c.red ++ write_double [] c.green ++
        write_double [] c.blue ++ write_double [] c.alpha ∧
      (∀ v, (write_double [] v).length = 8) ∧
      ∃ r, Color.deserialize (Color.serialize c) Color.serialSize = .ok r ∧
        Color.equals r c = true ∧
        r.red = c.red ∧ r.green = c.green ∧ r.blue = c.blue ∧ r.alpha = c.alpha) ∧
    (Tone.serialSize = 32 ∧ ((Tone.serialize t).length : Int) = Tone.serialSize ∧
      Tone.serialize t = write_double [] t.red ++ write_double [] t.green ++
        write_double [] t.blue ++ write_double [] t.gray ∧
      ∃ r, Tone.deserialize (Tone.serialize t) Tone.serialSize = .ok r ∧
        Tone.equals r t = true ∧
        r.red = t.red ∧ r.green = t.green ∧ r.blue = t.blue ∧ r.gray = t.gray) := by
  obtain ⟨cr, cg, cb, ca⟩ := hc
  obtain ⟨tr, tg, tb, ty⟩ := ht
  have cr1 := inRange_number _ _ _ cr
  have cg1 := inRange_number _ _ _ cg
  have cb1 := inRange_number _ _ _ cb
  have ca1 := inRange_number _ _ _ ca
  have tr1 := inRange_number _ _ _ tr
  have tg1 := inRange_number _ _ _ tg
  have tb1 := inRange_number _ _ _ tb
  have ty1 := inRange_number _ _ _ ty
  obtain ⟨c0, c8, c16, c24⟩ := double_reads c.red c.green c.blue c.alpha cr1.1 cg1.1 cb1.1
    ca1.1
  obtain ⟨t0, t8, t16, t24⟩ := double_reads t.red t.green t.blue t.gray tr1.1 tg1.1 tb1.1
    ty1.1
  refine ⟨⟨rfl, ?_, ?_, ?_, c, ?_, ?_, rfl, rfl, rfl, rfl⟩,
    ⟨rfl, ?_, ?_, t, ?_, ?_, rfl, rfl, rfl, rfl⟩⟩
  · simp [Color.serialize, write_double_length, Color.serialSize]
  · simp [Color.serialize, write_double, List.append_assoc]
  · intro v
    simp [write_double_length]
  · simp only [Color.deserialize, Color.serialSize, Color.serialize]
    norm_num
    simp only [c0, c8, c16, c24]
  · simp only [Color.equals, double_equals_self _ cr1.2, double_equals_self _ cg1.2,
      double_equals_self _ cb1.2, double_equals_self _ ca1.2, Bool.and_self]
  · simp [Tone.serialize, write_double_length, Tone.serialSize]
  · simp [Tone.serialize, write_double, List.append_assoc]
  · simp only [Tone.deserialize, Tone.serialSize, Tone.serialize]
    norm_num
    simp only [t0, t8, t16, t24]
  · simp only [Tone.equals, double_equals_self _ tr1.2, double_equals_self _ tg1.2,
      double_equals_self _ tb1.2, double_equals_self _ ty1.2, Bool.and_self]

theorem color_tone_serialize_roundtrip_witness :
    (Color.legal ⟨0x406FE00000000000, 0, 0x4060000000000000, 0x8000000000000000⟩ ∧
      Tone.legal ⟨0xC06FE00000000000, 0, 0x406FE00000000000, 0⟩) ∧
      (∃ r, Color.deserialize
          (Color.serialize ⟨0x406FE00000000000, 0, 0x4060000000000000, 0x8000000000000000⟩)
          Color.serialSize = .ok r ∧
        Color.equals r ⟨0x406FE00000000000, 0, 0x4060000000000000, 0x8000000000000000⟩
          = true ∧
        r.red = 0x406FE00000000000 ∧ r.green = 0 ∧ r.blue = 0x4060000000000000 ∧
        r.alpha = 0x8000000000000000) ∧
      (∃ r, Tone.deserialize (Tone.serialize ⟨0xC06FE00000000000, 0, 0x406FE00000000000, 0⟩)
          Tone.serialSize = .ok r ∧
        Tone.equals r ⟨0xC06FE00000000000, 0, 0x406FE00000000000, 0⟩ = true ∧
        r.red = 0xC06FE00000000000 ∧ r.green = 0 ∧ r.blue = 0x406FE00000000000 ∧
        r.gray = 0) :=
  ⟨⟨by decide, by decide⟩,
    (color_tone_serialize_roundtrip
      ⟨0x406FE00000000000, 0, 0x4060000000000000, 0x8000000000000000⟩
      ⟨0xC06FE00000000000, 0, 0x406FE00000000000, 0⟩ (by decide) (by decide)).1.2.2.2.2,
    (color_tone_serialize_roundtrip
      ⟨0x406FE00000000000, 0, 0x4060000000000000, 0x8000000000000000⟩
      ⟨0xC06FE00000000000, 0, 0x406FE00000000000, 0⟩ (by decide) (by decide)).2.2.2.2⟩

/-- C18: `Color::deserialize` and `Tone::deserialize` throw the argument error
exactly when `len` is not 32 and return a value exactly when it is 32;
`Rect::deserialize` throws the argument error exactly when `len` is not 16 and
returns a value exactly when it is 16. A call that throws returns no value. -/
theorem deserialize_length_check (data : List Nat) (len : Int) :
    ((Color.deserialize data len = .error ExceptionType.ArgumentError ↔ len ≠ 32) ∧
      ((∃ c, Color.deserialize data len = .ok c) ↔ len = 32)) ∧
    ((Tone.deserialize data len = .error ExceptionType.ArgumentError ↔ len ≠ 32) ∧
      ((∃ t, Tone.deserialize data len = .ok t) ↔ len = 32)) ∧
    ((Rect.deserialize data len = .error ExceptionType.ArgumentError ↔ len ≠ 16) ∧
      ((∃ r, Rect.deserialize data len = .ok r) ↔ len = 16)) := by
  refine ⟨⟨?_, ?_⟩, ⟨?_, ?_⟩, ⟨?_, ?_⟩⟩ <;>
    by_cases h : len = 32 <;> by_cases h1 : len = 16 <;>
    simp [Color.deserialize, Tone.deserialize, Rect.deserialize, h, h1]

/-! ## Font objects: size, invalidation of the handle, stored name -/

/-- C12, as the code has it: `Font::setSize(value)` throws the argument error
exactly when `value` differs from the current size and lies outside 6..96; in
every other case it returns. -/
theorem setSize_fails_iff (f : FontPrivate) (value : Int) :
    ((Font.setSize f value).1 = .error ExceptionType.ArgumentError ↔
        (value ≠ f.size ∧ (value < 6 ∨ value > 96))) ∧
      ((Font.setSize f value).1 = .ok () ↔ (value = f.size ∨ (6 ≤ value ∧ value ≤ 96))) := by
  unfold Font.setSize
  by_cases h1 : f.size = value
  · simp [h1]
  · have h2 : ¬ value = f.size := fun h => h1 h.symm
    by_cases h3 : value < 6 ∨ value > 96
    · simp only [h1, h2, h3, if_true, if_false]
      constructor
      · simp [h2, h3]
      · simp only [false_or]
        constructor
        · intro h; cases h
        · intro h; omega
    · simp only [h1, h2, h3, if_false]
      constructor
      · simp
      · simp only [false_or, true_iff]
        omega

/-- C12, counterexample: a font built with size 100 accepts `setSize(100)`,
although 100 lies outside 6..96. -/
theorem setSize_same_value_out_of_range :
    bigFont.size = 100 ∧
      ¬ ((Font.setSize bigFont 100).1 = .error ExceptionType.ArgumentError ↔
          ((100 : Int) < 6 ∨ (100 : Int) > 96)) := by
  refine ⟨rfl, ?_⟩
  intro h
  have h1 : (Font.setSize bigFont 100).1 = .error ExceptionType.ArgumentError :=
    h.mpr (Or.inr (by decide))
  have h2 : (Font.setSize bigFont 100).1 = .ok () := rfl
  rw [h2] at h1
  cases h1

/-- C13: when `Font::setSize(value)` throws, the font is left exactly as it was
(size, family, flags, colors and cached handle); and `setSize` with the current
size returns without error and leaves the font as it was, the cached handle
included. -/
theorem setSize_frame (f : FontPrivate) (value : Int) :
    (∀ e, (Font.setSize f value).1 = .error e → (Font.setSize f value).2 = f) ∧
      Font.setSize f f.size = (.ok (), f) ∧
      (Font.setSize f f.size).2.sdlFont = f.sdlFont := by
  refine ⟨?_, ?_, ?_⟩
  · intro e he
    unfold Font.setSize at he ⊢
    split_ifs at he ⊢ with h1 h2
    rfl
  · simp [Font.setSize]
  · simp [Font.setSize]

theorem setSize_frame_witness :
    (Font.setSize cachedFont 100).1 = .error ExceptionType.ArgumentError ∧
      (Font.setSize cachedFont 100).2 = cachedFont ∧
      (Font.setSize cachedFont 24).2.sdlFont = 7 :=
  ⟨rfl, (setSize_frame cachedFont 100).1 ExceptionType.ArgumentError rfl,
    (setSize_frame cachedFont 100).2.2⟩

/-- C14: after `Font::setName` the cached handle is null; after a `Font::setSize`
that returns, called with a value different from the current size, the cached
handle is null; and setBold, setItalic, setOutline, setShadow, setColor and
setOutColor leave the cached handle, the family and the size as they were. -/
theorem handle_invalidation (sfs : SharedFontStatePrivate) (f : FontPrivate)
    (names : List String) (v : Int) (b : Bool) (c : Color) :
    (Font.setName sfs f names).1.sdlFont = 0 ∧
      (v ≠ f.size → (Font.setSize f v).1 = .ok () → (Font.setSize f v).2.sdlFont = 0) ∧
      ((Font.setBold f b).sdlFont = f.sdlFont ∧ (Font.setBold f b).name = f.name ∧
        (Font.setBold f b).size = f.size) ∧
      ((Font.setItalic f b).sdlFont = f.sdlFont ∧ (Font.setItalic f b).name = f.name ∧
        (Font.setItalic f b).size = f.size) ∧
      ((Font.setOutline f b).sdlFont = f.sdlFont ∧ (Font.setOutline f b).name = f.name ∧
        (Font.setOutline f b).size = f.size) ∧
      ((Font.setShadow f b).sdlFont = f.sdlFont ∧ (Font.setShadow f b).name = f.name ∧
        (Font.setShadow f b).size = f.size) ∧
      ((Font.setColor f c).sdlFont = f.sdlFont ∧ (Font.setColor f c).name = f.name ∧
        (Font.setColor f c).size = f.size) ∧
      ((Font.setOutColor f c).sdlFont = f.sdlFont ∧ (Font.setOutColor f c).name = f.name ∧
        (Font.setOutColor f c).size = f.size) := by
  refine ⟨rfl, ?_, ⟨rfl, rfl, rfl⟩, ⟨rfl, rfl, rfl⟩, ⟨rfl, rfl, rfl⟩, ⟨rfl, rfl, rfl⟩,
    ⟨rfl, rfl, rfl⟩, ⟨rfl, rfl, rfl⟩⟩
  intro hv hok
  have hv1 : ¬ f.size = v := fun h => hv h.symm
  unfold Font.setSize at hok ⊢
  split_ifs at hok ⊢ with h2
  rfl

theorem handle_invalidation_witness :
    ((30 : Int) ≠ cachedFont.size ∧ (Font.setSize cachedFont 30).1 = .ok ()) ∧
      cachedFont.sdlFont = 7 ∧ (Font.setSize cachedFont 30).2.sdlFont = 0 ∧
      (Font.setName onlyBFonts cachedFont ["A", "B"]).1.sdlFont = 0 :=
  ⟨⟨by decide, rfl⟩, rfl,
    (handle_invalidation onlyBFonts cachedFont ["A", "B"] 30 true ⟨0, 0, 0, 0⟩).2.1
      (by decide) rfl,
    (handle_invalidation onlyBFonts cachedFont ["A", "B"] 30 true ⟨0, 0, 0, 0⟩).1⟩

theorem sameTables_pickLoop (names : List String) : ∀ p : SharedFontStatePrivate,
    SameTables p (pickExistingFontNameLoop names p).2 := by
  induction names with
  | nil => intro p; exact sameTables_refl p
  | cons n rest ih =>
    intro p
    simp only [pickExistingFontNameLoop]
    split_ifs
    · exact sameTables_fontPresent p n
    · exact sameTables_trans (sameTables_fontPresent p n) (ih _)

theorem resolvedFamily_of_present (p : SharedFontStatePrivate) (n : String)
    (h : (SharedFontState.fontPresent p n).1 = true) :
    resolvedFamily p n = canonicalFamily p n := by
  rw [fontPresent_fst] at h
  unfold resolvedFamily
  simp only [Bool.not_eq_true', Bool.and_eq_false_iff, decide_eq_false_iff_not] at h
  have hne : ¬ ((BoostHash.value default p.sets (canonicalFamily p n)).regular = "" ∧
      (BoostHash.value default p.sets (canonicalFamily p n)).other = "") := by
    tauto
  simp only [hne, if_false]

/-- C19, as the code has it: a font built from a candidate list, or given one by
`setName`, stores the first present candidate as it is written in the list (the
empty string when none is present); the substitution is applied when `getFont`
resolves the stored name, and the family of its pool key is then the
substitution target of that candidate if it has one, the candidate otherwise. -/
theorem stored_name_first_present (d : FontDefaults) (sfs : SharedFontStatePrivate)
    (f : FontPrivate) (names : List String) (size : Int) :
    (Font.construct d sfs (some names) size).1.name =
        (names.find? (fun n => (SharedFontState.fontPresent sfs n).1)).getD "" ∧
      (Font.setName sfs f names).1.name =
        (names.find? (fun n => (SharedFontState.fontPresent sfs n).1)).getD "" ∧
      (∀ n, names.find? (fun n => (SharedFontState.fontPresent sfs n).1) = some n →
        (Font.setName sfs f names).1.name = n ∧
        resolvedFamily (Font.setName sfs f names).2 (Font.setName sfs f names).1.name
          = canonicalFamily sfs n) := by
  have hpick : (pickExistingFontName names sfs).1 =
      (names.find? (fun n => (SharedFontState.fontPresent sfs n).1)).getD "" := by
    unfold pickExistingFontName
    exact pickLoop_first_present names sfs sfs (sameTables_refl sfs)
  refine ⟨?_, ?_, ?_⟩
  · simp only [Font.construct, Font.setName]
    exact hpick
  · simp only [Font.setName]
    exact hpick
  · intro n hn
    have hname : (Font.setName sfs f names).1.name = n := by
      simp only [Font.setName]
      rw [hpick, hn]
      rfl
    refine ⟨hname, ?_⟩
    rw [hname]
    have htab : SameTables sfs (Font.setName sfs f names).2 := by
      simp only [Font.setName, pickExistingFontName]
      exact sameTables_pickLoop names sfs
    rw [resolvedFamily_congr htab]
    have hpres : (SharedFontState.fontPresent sfs n).1 = true := by
      have h := List.find?_eq_some.mp hn
      exact h.1
    exact resolvedFamily_of_present sfs n hpres

theorem stored_name_first_present_witness :
    List.find? (fun n => (SharedFontState.fontPresent fooBarFonts n).1) ["Foo"] = some "Foo" ∧
      (Font.setName fooBarFonts bigFont ["Foo"]).1.name = "Foo" ∧
      resolvedFamily (Font.setName fooBarFonts bigFont ["Foo"]).2
        (Font.setName fooBarFonts bigFont ["Foo"]).1.name = canonicalFamily fooBarFonts "Foo" :=
  ⟨by decide,
    (stored_name_first_present initialDefaults fooBarFonts bigFont ["Foo"] 24).2.2 "Foo"
      (by decide)⟩

/-- C19, counterexample: with the substitution "Foo>Bar" and assets for "Bar"
only, the candidate "Foo" is present and its substitution target is "Bar", yet a
font built from the list "Foo" stores the name "Foo". -/
theorem stored_name_not_substituted :
    (SharedFontState.fontPresent fooBarFonts "Foo").1 = true ∧
      canonicalFamily fooBarFonts "Foo" = "Bar" ∧
      (Font.construct initialDefaults fooBarFonts (some ["Foo"]) 24).1.name = "Foo" ∧
      (Font.construct initialDefaults fooBarFonts (some ["Foo"]) 24).1.name
        ≠ canonicalFamily fooBarFonts "Foo" := by
  refine ⟨by decide, by decide, by decide, by decide⟩

/-! ## Shared font state: pool key and growth of the pool -/

/-- What `getFont` does when the pool holds nothing under the key. -/
theorem getFont_miss (lib : FontLib) (p : SharedFontStatePrivate) (n : String) (size : Int)
    (hz : BoostHash.value 0 p.pool (resolvedFamily p n, size) = 0) :
    SharedFontState.getFont lib p n size =
      if lib.openFont (assetSource p n) (lib.pointSize (resolvedFamily p n) size) = 0 then
        { result := .error ExceptionType.SDLError,
          opened := some (assetSource p n, lib.pointSize (resolvedFamily p n) size),
          state := { p with sets := (BoostHash.index default p.sets (canonicalFamily p n)).2 } }
      else
        { result := .ok (lib.openFont (assetSource p n) (lib.pointSize (resolvedFamily p n) size)),
          opened := some (assetSource p n, lib.pointSize (resolvedFamily p n) size),
          state :=
            { subs := p.subs
              sets := (BoostHash.index default p.sets (canonicalFamily p n)).2
              pool := BoostHash.insert p.pool (resolvedFamily p n, size)
                (lib.openFont (assetSource p n) (lib.pointSize (resolvedFamily p n) size)) } } := by
  rw [getFont_unfold, if_neg (not_not.mpr hz)]
  rfl

/-- What `getFont` does when the pool holds a handle under the key. -/
theorem getFont_hit (lib : FontLib) (p : SharedFontStatePrivate) (n : String) (size : Int)
    (hz : BoostHash.value 0 p.pool (resolvedFamily p n, size) ≠ 0) :
    SharedFontState.getFont lib p n size =
      { result := .ok (BoostHash.value 0 p.pool (resolvedFamily p n, size)), opened := none,
        state := { p with sets := (BoostHash.index default p.sets (canonicalFamily p n)).2 } } := by
  rw [getFont_unfold, if_pos hz]

theorem value_zero_iff (p : SharedFontStatePrivate) (hp : PoolInv p) (k : FontKey) :
    BoostHash.value 0 p.pool k = 0 ↔ BoostHash.find p.pool k = none := by
  constructor
  · exact find_none_of_value_zero p hp k
  · intro h
    unfold BoostHash.value
    rw [h]
    rfl

theorem insert_of_find_none {K V : Type} [DecidableEq K] (h : BoostHash K V) (k : K) (v : V)
    (hk : BoostHash.find h k = none) : BoostHash.insert h k v = h ++ [(k, v)] := by
  unfold BoostHash.insert BoostHash.contains
  rw [hk]
  rfl

/-- C11: `getFont` works with the pool key `(r, s)`. Here `c` is the substitution
target of the requested name if it has one and the name itself otherwise (one
lookup), and `r` is `c` when an asset is registered for `c` and `""` otherwise.
A handle stored under `(r, s)` is returned without any open; when nothing is
stored there, a successful call opens the asset at the corrected size
`pointSize r s` and stores the returned handle under `(r, s)`, with the nominal
size `s`; no other key changes. When no asset is registered the call opens the
bundled font, and it throws only if that open fails. -/
theorem getFont_pool_key (p : SharedFontStatePrivate) (hp : Reachable p) (lib : FontLib)
    (n : String) (s : Int) :
    canonicalFamily p n = (BoostHash.find p.subs n).getD n ∧
    (assetRegistered p (canonicalFamily p n) → resolvedFamily p n = canonicalFamily p n) ∧
    (¬ assetRegistered p (canonicalFamily p n) → resolvedFamily p n = "") ∧
    (∀ h, BoostHash.find p.pool (resolvedFamily p n, s) = some h →
      (SharedFontState.getFont lib p n s).result = .ok h ∧
      (SharedFontState.getFont lib p n s).opened = none) ∧
    (BoostHash.find p.pool (resolvedFamily p n, s) = none →
      (SharedFontState.getFont lib p n s).opened
        = some (assetSource p n, lib.pointSize (resolvedFamily p n) s) ∧
      ∀ h, (SharedFontState.getFont lib p n s).result = .ok h →
        BoostHash.find (SharedFontState.getFont lib p n s).state.pool (resolvedFamily p n, s)
          = some h) ∧
    (∀ k, k ≠ (resolvedFamily p n, s) →
      BoostHash.find (SharedFontState.getFont lib p n s).state.pool k = BoostHash.find p.pool k) ∧
    (¬ assetRegistered p (canonicalFamily p n) →
      assetSource p n = FontSource.bundled ∧
      ((∃ e, (SharedFontState.getFont lib p n s).result = .error e) ↔
        (BoostHash.find p.pool ("", s) = none ∧
          lib.openFont FontSource.bundled (lib.pointSize "" s) = 0))) := by
  have hinv : PoolInv p := reachable_poolInv hp
  have hreg : assetRegistered p (canonicalFamily p n) → resolvedFamily p n = canonicalFamily p n := by
    intro h
    rw [assetRegistered_iff] at h
    unfold resolvedFamily
    simp only [h, if_false]
  have hnreg : ¬ assetRegistered p (canonicalFamily p n) → resolvedFamily p n = "" := by
    intro h
    rw [assetRegistered_iff, not_not] at h
    unfold resolvedFamily
    simp only [h, and_self, if_true]
  refine ⟨?_, hreg, hnreg, ?_, ?_, ?_, ?_⟩
  · unfold canonicalFamily
    cases BoostHash.find p.subs n <;> rfl
  · intro h hfind
    have hval : BoostHash.value 0 p.pool (resolvedFamily p n, s) = h := by
      unfold BoostHash.value
      rw [hfind]
      rfl
    have hne : BoostHash.value 0 p.pool (resolvedFamily p n, s) ≠ 0 := by
      rw [hval]
      intro h0
      rw [h0] at hfind
      exact hinv.1 _ hfind
    rw [getFont_hit lib p n s hne, hval]
    exact ⟨rfl, rfl⟩
  · intro hnone
    have hz := (value_zero_iff p hinv _).mpr hnone
    constructor
    · rw [getFont_miss lib p n s hz]
      split_ifs <;> rfl
    · intro h hok
      exact (getFont_ok_find lib p n s hinv h hok).1
  · intro k hk
    by_cases hz : BoostHash.value 0 p.pool (resolvedFamily p n, s) = 0
    · have hnone := (value_zero_iff p hinv _).mp hz
      rw [getFont_miss lib p n s hz]
      split_ifs
      · rfl
      · simp only
        rw [find_insert_of_none _ _ _ _ hnone]
        cases hfk : BoostHash.find p.pool k with
        | some x => rfl
        | none => simp [hk]
    · rw [getFont_hit lib p n s hz]
  · intro hmiss
    have hr := hnreg hmiss
    have hsrc : assetSource p n = FontSource.bundled := by
      unfold assetSource
      simp only [hr, if_true]
    refine ⟨hsrc, ?_⟩
    rw [← hr]
    by_cases hz : BoostHash.value 0 p.pool (resolvedFamily p n, s) = 0
    · have hnone := (value_zero_iff p hinv _).mp hz
      rw [getFont_miss lib p n s hz, hsrc]
      split_ifs with hopen
      · simp [hnone, hopen]
      · simp [hopen]
    · have hsome : BoostHash.find p.pool (resolvedFamily p n, s) ≠ none :=
        fun h => hz ((value_zero_iff p hinv _).mpr h)
      rw [getFont_hit lib p n s hz]
      simp [hsome]

theorem getFont_pool_key_witness :
    Reachable fooBarFonts ∧
      BoostHash.find fooBarFonts.pool (resolvedFamily fooBarFonts "Foo", 10) = none ∧
      (SharedFontState.getFont (constLib 9 1) fooBarFonts "Foo" 10).result = .ok 1 ∧
      BoostHash.find (SharedFontState.getFont (constLib 9 1) fooBarFonts "Foo" 10).state.pool
        (resolvedFamily fooBarFonts "Foo", 10) = some 1 ∧
      resolvedFamily fooBarFonts "Foo" = "Bar" ∧
      (SharedFontState.getFont (constLib 9 1) fooBarFonts "Foo" 10).state.pool
        = [(("Bar", 10), 1)] ∧
      resolvedFamily chainFonts "Foo" = "" :=
  ⟨⟨fooBarFonts, rfl, Later.refl _⟩, by decide, rfl,
    ((getFont_pool_key fooBarFonts ⟨fooBarFonts, rfl, Later.refl _⟩ (constLib 9 1) "Foo"
      10).2.2.2.2.1 (by decide)).2 1 rfl,
    by decide, by decide, by decide⟩

/-- C20: the pool only grows. Through a call of `getFont` or of `fontPresent`
every key of the pool keeps its handle; `fontPresent` leaves the pool as it is;
`getFont` leaves it as it is when it opens nothing (a pool hit) and when it
throws, and adds exactly the entry of the key `(r, s)` with the returned handle
when it opens a font and returns; so it adds at most one entry. -/
theorem pool_append_only (p : SharedFontStatePrivate) (hp : Reachable p) (lib : FontLib)
    (n : String) (s : Int) :
    (∀ k h, BoostHash.find p.pool k = some h →
      BoostHash.find (SharedFontState.getFont lib p n s).state.pool k = some h ∧
      BoostHash.find (SharedFontState.fontPresent p n).2.pool k = some h) ∧
    (SharedFontState.fontPresent p n).2.pool = p.pool ∧
    ((SharedFontState.getFont lib p n s).opened = none →
      (SharedFontState.getFont lib p n s).state.pool = p.pool) ∧
    (∀ e, (SharedFontState.getFont lib p n s).result = .error e →
      (SharedFontState.getFont lib p n s).state.pool = p.pool) ∧
    (∀ h, (SharedFontState.getFont lib p n s).opened ≠ none →
      (SharedFontState.getFont lib p n s).result = .ok h →
      BoostHash.find p.pool (resolvedFamily p n, s) = none ∧
      (SharedFontState.getFont lib p n s).state.pool
        = p.pool ++ [((resolvedFamily p n, s), h)]) ∧
    ((SharedFontState.getFont lib p n s).state.pool = p.pool ∨
      ∃ h, (SharedFontState.getFont lib p n s).state.pool
        = p.pool ++ [((resolvedFamily p n, s), h)]) := by
  have hinv : PoolInv p := reachable_poolInv hp
  have hfp : (SharedFontState.fontPresent p n).2.pool = p.pool := by
    rw [fontPresent_snd]
  refine ⟨?_, hfp, ?_, ?_, ?_, ?_⟩
  · intro k h hk
    exact ⟨getFont_keeps lib p n s k h hk, by rw [hfp]; exact hk⟩
  · intro hopen
    by_cases hz : BoostHash.value 0 p.pool (resolvedFamily p n, s) = 0
    · rw [getFont_miss lib p n s hz] at hopen
      split_ifs at hopen
    · rw [getFont_hit lib p n s hz]
  · intro e he
    by_cases hz : BoostHash.value 0 p.pool (resolvedFamily p n, s) = 0
    · rw [getFont_miss lib p n s hz] at he ⊢
      split_ifs at he ⊢ with hopen
      rfl
    · rw [getFont_hit lib p n s hz]
  · intro h hopen hok
    by_cases hz : BoostHash.value 0 p.pool (resolvedFamily p n, s) = 0
    · have hnone := (value_zero_iff p hinv _).mp hz
      refine ⟨hnone, ?_⟩
      rw [getFont_miss lib p n s hz] at hok ⊢
      split_ifs at hok ⊢ with hopen1
      simp only [Except.ok.injEq] at hok
      simp only
      rw [insert_of_find_none _ _ _ hnone, hok]
    · rw [getFont_hit lib p n s hz] at hopen
      exact absurd rfl hopen
  · by_cases hz : BoostHash.value 0 p.pool (resolvedFamily p n, s) = 0
    · have hnone := (value_zero_iff p hinv _).mp hz
      rw [getFont_miss lib p n s hz]
      split_ifs with hopen1
      · exact Or.inl rfl
      · right
        exact ⟨_, insert_of_find_none _ _ _ hnone⟩
    · rw [getFont_hit lib p n s hz]
      exact Or.inl rfl

theorem pool_append_only_witness :
    Reachable (SharedFontState.getFont (constLib 9 1) fooBarFonts "Foo" 10).state ∧
      (SharedFontState.getFont (constLib 9 2)
        (SharedFontState.getFont (constLib 9 1) fooBarFonts "Foo" 10).state "Bar" 11).state.pool
        = [(("Bar", 10), 1), (("Bar", 11), 2)] ∧
      ((SharedFontState.getFont (constLib 9 2)
          (SharedFontState.getFont (constLib 9 1) fooBarFonts "Foo" 10).state "Bar" 11).state.pool
          = (SharedFontState.getFont (constLib 9 1) fooBarFonts "Foo" 10).state.pool ∨
        ∃ h, (SharedFontState.getFont (constLib 9 2)
          (SharedFontState.getFont (constLib 9 1) fooBarFonts "Foo" 10).state "Bar" 11).state.pool
          = (SharedFontState.getFont (constLib 9 1) fooBarFonts "Foo" 10).state.pool ++
            [((resolvedFamily (SharedFontState.getFont (constLib 9 1) fooBarFonts "Foo" 10).state
              "Bar", 11), h)]) :=
  ⟨⟨fooBarFonts, rfl, Later.getFont (constLib 9 1) "Foo" 10 (Later.refl _)
      (fun _ _ _ => by simp [fooBarFonts, BoostHash.find])⟩,
    by decide,
    (pool_append_only (SharedFontState.getFont (constLib 9 1) fooBarFonts "Foo" 10).state
      ⟨fooBarFonts, rfl, Later.getFont (constLib 9 1) "Foo" 10 (Later.refl _)
        (fun _ _ _ => by simp [fooBarFonts, BoostHash.find])⟩
      (constLib 9 2) "Bar" 11).2.2.2.2.2⟩

/-! ## Shared font state: the substitution table of the constructor -/

theorem find_first_of_none_iff (l : List Char) (c : Char) :
    find_first_of l c = none ↔ c ∉ l := by
  induction l with
  | nil => simp [find_first_of]
  | cons a t ih =>
    by_cases h : a = c
    · simp [find_first_of, h]
    · have h1 : ¬ c = a := fun e => h e.symm
      simp [find_first_of, h, h1, ih]

theorem find_first_of_some (l : List Char) (c : Char) : ∀ i, find_first_of l c = some i →
    l = l.take i ++ c :: l.drop (i + 1) ∧ c ∉ l.take i := by
  induction l with
  | nil => intro i h; simp [find_first_of] at h
  | cons a t ih =>
    intro i h
    by_cases hac : a = c
    · simp only [find_first_of, hac, if_true, Option.some.injEq] at h
      subst h
      simp [hac]
    · simp only [find_first_of, hac, if_false, Option.map_eq_some'] at h
      obtain ⟨j, hj, hji⟩ := h
      subst hji
      obtain ⟨h1, h2⟩ := ih j hj
      have hca : ¬ c = a := fun e => hac e.symm
      constructor
      · simp only [List.take_succ_cons, List.drop_succ_cons, List.cons_append]
        rw [← h1]
      · simp only [List.take_succ_cons, List.mem_cons, not_or]
        exact ⟨hca, h2⟩

theorem find_first_of_append (a b : List Char) (c : Char) (h : c ∉ a) :
    find_first_of (a ++ c :: b) c = some a.length := by
  induction a with
  | nil => simp [find_first_of]
  | cons x t ih =>
    have hx : ¬ x = c := fun e => h (by simp [e])
    have ht : c ∉ t := fun e => h (List.mem_cons_of_mem _ e)
    simp [find_first_of, hx, ih ht]

theorem drop_succ_append (a b : List Char) (c : Char) :
    (a ++ c :: b).drop (a.length + 1) = b := by
  induction a with
  | nil => rfl
  | cons x t _ => simp

theorem subPair_some_iff (raw a b : String) : subPair raw = some (a, b) ↔ splitsAt raw a b := by
  unfold subPair splitsAt
  constructor
  · intro h
    cases hf : find_first_of raw.data (Char.ofNat 62) with
    | none => rw [hf] at h; cases h
    | some i =>
      rw [hf] at h
      simp only [Option.some.injEq, Prod.mk.injEq] at h
      obtain ⟨h1, h2⟩ := find_first_of_some _ _ i hf
      rw [← h.1, ← h.2]
      exact ⟨h1, h2⟩
  · rintro ⟨h1, h2⟩
    rw [h1, find_first_of_append _ _ _ h2]
    simp only [List.take_left, drop_succ_append]

theorem subPair_none_iff (raw : String) : subPair raw = none ↔ Char.ofNat 62 ∉ raw.data := by
  unfold subPair
  rw [← find_first_of_none_iff]
  cases find_first_of raw.data (Char.ofNat 62) <;> simp

theorem parseLoop_cons (ins : BoostHash String String → String → String →
    BoostHash String String) (raw : String) (rest : List String)
    (subs : BoostHash String String) :
    SharedFontState.parseLoop ins (raw :: rest) subs =
      match subPair raw with
      | none => SharedFontState.parseLoop ins rest subs
      | some pr => SharedFontState.parseLoop ins rest (ins subs pr.1 pr.2) := by
  unfold subPair
  simp only [SharedFontState.parseLoop]
  cases find_first_of raw.data (Char.ofNat 62) <;> rfl

theorem parseLoop_append (ins : BoostHash String String → String → String →
    BoostHash String String) (a b : List String) : ∀ subs : BoostHash String String,
    SharedFontState.parseLoop ins (a ++ b) subs
      = SharedFontState.parseLoop ins b (SharedFontState.parseLoop ins a subs) := by
  induction a with
  | nil => intro subs; rfl
  | cons raw rest ih =>
    intro subs
    rw [List.cons_append, parseLoop_cons, parseLoop_cons]
    cases subPair raw with
    | none => exact ih subs
    | some pr => exact ih _

/-- Every entry of the parsed table was in the table before or is the pair of
one of the strings. -/
theorem parseLoop_source (ins : BoostHash String String → String → String →
    BoostHash String String) (hins : IsInsert ins) (conf : List String) :
    ∀ (subs : BoostHash String String) (k v : String),
      BoostHash.find (SharedFontState.parseLoop ins conf subs) k = some v →
      BoostHash.find subs k = some v ∨ ∃ raw, raw ∈ conf ∧ splitsAt raw k v := by
  induction conf with
  | nil =>
    intro subs k v h
    exact Or.inl h
  | cons raw rest ih =>
    intro subs k v h
    rw [parseLoop_cons] at h
    cases hsp : subPair raw with
    | none =>
      rw [hsp] at h
      rcases ih subs k v h with h1 | ⟨r, hr, hs⟩
      · exact Or.inl h1
      · exact Or.inr ⟨r, List.mem_cons_of_mem _ hr, hs⟩
    | some pr =>
      obtain ⟨a, b⟩ := pr
      rw [hsp] at h
      have hab : splitsAt raw a b := (subPair_some_iff raw a b).mp hsp
      rcases ih _ k v h with h1 | ⟨r, hr, hs⟩
      · simp only at h1
        by_cases hk : k = a
        · subst hk
          cases hold : BoostHash.find subs k with
          | none =>
            rw [hins.fresh subs k b hold] at h1
            simp only [Option.some.injEq] at h1
            subst h1
            exact Or.inr ⟨raw, List.mem_cons_self _ _, hab⟩
          | some old =>
            rcases hins.repeated subs k b old hold with h2 | h2
            · rw [h2] at h1
              exact Or.inl h1
            · rw [h2] at h1
              simp only [Option.some.injEq] at h1
              subst h1
              exact Or.inr ⟨raw, List.mem_cons_self _ _, hab⟩
        · rw [hins.other subs a b k hk] at h1
          exact Or.inl h1
      · exact Or.inr ⟨r, List.mem_cons_of_mem _ hr, hs⟩

/-- A key that is in the table, or is the left side of one of the strings, is in
the parsed table. -/
theorem parseLoop_present (ins : BoostHash String String → String → String →
    BoostHash String String) (hins : IsInsert ins) (conf : List String) :
    ∀ (subs : BoostHash String String) (k : String),
      ((BoostHash.find subs k).isSome = true ∨ ∃ raw v, raw ∈ conf ∧ splitsAt raw k v) →
      (BoostHash.find (SharedFontState.parseLoop ins conf subs) k).isSome = true := by
  have hstep : ∀ (subs : BoostHash String String) (a b k : String),
      (BoostHash.find subs k).isSome = true ∨ k = a →
      (BoostHash.find (ins subs a b) k).isSome = true := by
    intro subs a b k h
    by_cases hk : k = a
    · subst hk
      cases hold : BoostHash.find subs k with
      | none => rw [hins.fresh subs k b hold]; rfl
      | some old =>
        rcases hins.repeated subs k b old hold with h2 | h2 <;> rw [h2] <;> rfl
    · rw [hins.other subs a b k hk]
      rcases h with h | h
      · exact h
      · exact absurd h hk
  induction conf with
  | nil =>
    intro subs k h
    rcases h with h | ⟨raw, v, hr, -⟩
    · exact h
    · simp at hr
  | cons raw rest ih =>
    intro subs k h
    rw [parseLoop_cons]
    cases hsp : subPair raw with
    | none =>
      simp only
      refine ih subs k ?_
      rcases h with h | ⟨r, v, hr, hs⟩
      · exact Or.inl h
      · rcases List.mem_cons.mp hr with e | e
        · rw [e, ← subPair_some_iff, hsp] at hs
          cases hs
        · exact Or.inr ⟨r, v, e, hs⟩
    | some pr =>
      obtain ⟨a, b⟩ := pr
      simp only
      refine ih _ k ?_
      rcases h with h | ⟨r, v, hr, hs⟩
      · exact Or.inl (hstep subs a b k (Or.inl h))
      · rcases List.mem_cons.mp hr with e | e
        · rw [e, ← subPair_some_iff, hsp] at hs
          simp only [Option.some.injEq, Prod.mk.injEq] at hs
          exact Or.inl (hstep subs a b k (Or.inr hs.1.symm))
        · exact Or.inr ⟨r, v, e, hs⟩

theorem isInsert_keep : IsInsert (BoostHash.insert : BoostHash String String → String →
    String → BoostHash String String) where
  other := by
    intro h k v k1 hk
    unfold BoostHash.insert
    split_ifs
    · rfl
    · rw [find_append_single]
      cases BoostHash.find h k1 <;> simp [hk]
  fresh := by
    intro h k v hnone
    rw [find_insert_of_none h k v k hnone, hnone]
    simp
  repeated := by
    intro h k v old hold
    exact Or.inl (find_insert_of_some h k v k old hold)

theorem find_insertOverwrite (h : BoostHash String String) (k v k1 : String) :
    BoostHash.find (BoostHash.insertOverwrite h k v) k1 =
      if k1 = k then some v else BoostHash.find h k1 := by
  induction h with
  | nil => simp [BoostHash.insertOverwrite, BoostHash.find]
  | cons e t ih =>
    obtain ⟨ke, ve⟩ := e
    by_cases hke : k = ke
    · subst hke
      by_cases h1 : k1 = k
      · simp [BoostHash.insertOverwrite, BoostHash.find, h1]
      · simp [BoostHash.insertOverwrite, BoostHash.find, h1]
    · by_cases h1 : k1 = ke
      · subst h1
        have hne : ¬ k1 = k := fun e => hke e.symm
        simp [BoostHash.insertOverwrite, BoostHash.find, hke, hne]
      · simp only [BoostHash.insertOverwrite, hke, if_false, BoostHash.find, h1]
        exact ih

theorem isInsert_overwrite : IsInsert (BoostHash.insertOverwrite : BoostHash String String →
    String → String → BoostHash String String) where
  other := by
    intro h k v k1 hk
    rw [find_insertOverwrite, if_neg hk]
  fresh := by
    intro h k v _
    rw [find_insertOverwrite, if_pos rfl]
  repeated := by
    intro h k v old _
    right
    rw [find_insertOverwrite, if_pos rfl]

/-- C15, as the code has it: whatever the insert of the hash table does with a
repeated key, the constructor of `SharedFontState` builds the substitution table
from the configuration strings as follows. A value stored under `k` is the right
side of a string of the list that reads `k`, then its first `>`, then that
value; the keys of the table are exactly the left sides of the strings with a
`>`; a string with a `>` has its pair in the table when no string of the list
has the same left side with another right side; and a string without `>` can be
dropped from the list without changing the table. The list "A>B>C", "plain",
"Foo>Bar" gives the table A to "B>C", Foo to "Bar" under both inserts. -/
theorem construct_substitutions (ins : BoostHash String String → String → String →
    BoostHash String String) (hins : IsInsert ins) (conf : List String) :
    (∀ k v, BoostHash.find (SharedFontState.construct ins conf).subs k = some v →
      ∃ raw, raw ∈ conf ∧ splitsAt raw k v) ∧
    (∀ k, BoostHash.contains (SharedFontState.construct ins conf).subs k = true ↔
      ∃ raw v, raw ∈ conf ∧ splitsAt raw k v) ∧
    (∀ raw k v, raw ∈ conf → splitsAt raw k v →
      (∀ r v1, r ∈ conf → splitsAt r k v1 → v1 = v) →
      BoostHash.find (SharedFontState.construct ins conf).subs k = some v) ∧
    (∀ pre raw post, conf = pre ++ raw :: post → Char.ofNat 62 ∉ raw.data →
      SharedFontState.construct ins conf = SharedFontState.construct ins (pre ++ post)) ∧
    (SharedFontState.construct BoostHash.insert ["A>B>C", "plain", "Foo>Bar"]).subs
      = [("A", "B>C"), ("Foo", "Bar")] ∧
    (SharedFontState.construct BoostHash.insertOverwrite ["A>B>C", "plain", "Foo>Bar"]).subs
      = [("A", "B>C"), ("Foo", "Bar")] := by
  have hsrc : ∀ k v, BoostHash.find (SharedFontState.construct ins conf).subs k = some v →
      ∃ raw, raw ∈ conf ∧ splitsAt raw k v := by
    intro k v h
    rcases parseLoop_source ins hins conf [] k v h with h1 | h1
    · simp [BoostHash.find] at h1
    · exact h1
  have hpres : ∀ k, (∃ raw v, raw ∈ conf ∧ splitsAt raw k v) →
      (BoostHash.find (SharedFontState.construct ins conf).subs k).isSome = true :=
    fun k h => parseLoop_present ins hins conf [] k (Or.inr h)
  refine ⟨hsrc, ?_, ?_, ?_, by decide, by decide⟩
  · intro k
    unfold BoostHash.contains
    constructor
    · intro h
      obtain ⟨v, hv⟩ := Option.isSome_iff_exists.mp h
      obtain ⟨raw, hr, hs⟩ := hsrc k v hv
      exact ⟨raw, v, hr, hs⟩
    · exact hpres k
  · intro raw k v hr hs huniq
    obtain ⟨v1, hv1⟩ := Option.isSome_iff_exists.mp (hpres k ⟨raw, v, hr, hs⟩)
    obtain ⟨r, hrm, hrs⟩ := hsrc k v1 hv1
    rw [hv1, huniq r v1 hrm hrs]
  · intro pre raw post hconf hno
    have hsp := (subPair_none_iff raw).mpr hno
    simp only [SharedFontState.construct, hconf]
    rw [parseLoop_append, parseLoop_cons, hsp, parseLoop_append]

/-- In the example list only the string "Foo>Bar" has the left side "Foo". -/
theorem example_right_sides (r v1 : String) (hr : r ∈ ["A>B>C", "plain", "Foo>Bar"])
    (hs : splitsAt r "Foo" v1) : v1 = "Bar" := by
  rw [← subPair_some_iff] at hs
  simp only [List.mem_cons, List.mem_singleton, List.not_mem_nil, or_false] at hr
  have e1 : subPair "A>B>C" = some ("A", "B>C") := by decide
  have e2 : subPair "plain" = none := by decide
  have e3 : subPair "Foo>Bar" = some ("Foo", "Bar") := by decide
  rcases hr with rfl | rfl | rfl
  · rw [e1] at hs
    simp only [Option.some.injEq, Prod.mk.injEq] at hs
    exact absurd hs.1 (by decide)
  · rw [e2] at hs
    cases hs
  · rw [e3] at hs
    simp only [Option.some.injEq, Prod.mk.injEq] at hs
    exact hs.2.symm

theorem construct_substitutions_witness :
    IsInsert (BoostHash.insertOverwrite : BoostHash String String → String → String →
      BoostHash String String) ∧
    ("Foo>Bar" ∈ ["A>B>C", "plain", "Foo>Bar"] ∧ splitsAt "Foo>Bar" "Foo" "Bar") ∧
    BoostHash.find
      (SharedFontState.construct BoostHash.insertOverwrite ["A>B>C", "plain", "Foo>Bar"]).subs
      "Foo" = some "Bar" ∧
    (["A>B>C", "plain", "Foo>Bar"] = ["A>B>C"] ++ "plain" :: ["Foo>Bar"] ∧
      Char.ofNat 62 ∉ "plain".data) ∧
    SharedFontState.construct BoostHash.insertOverwrite ["A>B>C", "plain", "Foo>Bar"]
      = SharedFontState.construct BoostHash.insertOverwrite (["A>B>C"] ++ ["Foo>Bar"]) :=
  ⟨isInsert_overwrite, ⟨by decide, ⟨by decide, by decide⟩⟩,
    (construct_substitutions BoostHash.insertOverwrite isInsert_overwrite
      ["A>B>C", "plain", "Foo>Bar"]).2.2.1 "Foo>Bar" "Foo" "Bar" (by decide)
      ⟨by decide, by decide⟩ example_right_sides,
    ⟨rfl, by decide⟩,
    (construct_substitutions BoostHash.insertOverwrite isInsert_overwrite
      ["A>B>C", "plain", "Foo>Bar"]).2.2.2.1 ["A>B>C"] "plain" ["Foo>Bar"] rfl (by decide)⟩

/-- For the list "A>B", "A>C" every insert leaves "B" or "C" under "A". -/
theorem repeated_left_side_value (ins : BoostHash String String → String → String →
    BoostHash String String) (hins : IsInsert ins) :
    BoostHash.find (SharedFontState.construct ins ["A>B", "A>C"]).subs "A" = some "B" ∨
      BoostHash.find (SharedFontState.construct ins ["A>B", "A>C"]).subs "A" = some "C" := by
  have hp := parseLoop_present ins hins ["A>B", "A>C"] [] "A"
    (Or.inr ⟨"A>B", "B", by decide, ⟨by decide, by decide⟩⟩)
  obtain ⟨v, hv⟩ := Option.isSome_iff_exists.mp hp
  have e1 : subPair "A>B" = some ("A", "B") := by decide
  have e2 : subPair "A>C" = some ("A", "C") := by decide
  rcases parseLoop_source ins hins _ [] "A" v hv with h1 | ⟨r, hr, hs⟩
  · simp [BoostHash.find] at h1
  · rw [← subPair_some_iff] at hs
    simp only [List.mem_cons, List.mem_singleton, List.not_mem_nil, or_false] at hr
    rcases hr with rfl | rfl
    · rw [e1] at hs
      simp only [Option.some.injEq, Prod.mk.injEq, true_and] at hs
      left
      rw [hs]
      exact hv
    · rw [e2] at hs
      simp only [Option.some.injEq, Prod.mk.injEq, true_and] at hs
      right
      rw [hs]
      exact hv

/-- C15, counterexample: in the list "A>B", "A>C" both strings have a `>` and
read "A", then `>`, then "B" and "C". Whatever the insert of the hash table does
with a repeated key, the table has one value under "A", "B" or "C", so the pair
of one of the two strings is not in it: with an insert that keeps the stored
entry the table maps "A" to "B" and the pair of the second string is missing,
with an insert that replaces it the table maps "A" to "C" and the pair of the
first string is missing. -/
theorem construct_repeated_left_side :
    (splitsAt "A>B" "A" "B" ∧ splitsAt "A>C" "A" "C") ∧
      (∀ ins : BoostHash String String → String → String → BoostHash String String,
        ¬ (BoostHash.find (SharedFontState.construct ins ["A>B", "A>C"]).subs "A" = some "B" ∧
          BoostHash.find (SharedFontState.construct ins ["A>B", "A>C"]).subs "A"
            = some "C")) ∧
      (∀ ins : BoostHash String String → String → String → BoostHash String String,
        IsInsert ins →
        (BoostHash.find (SharedFontState.construct ins ["A>B", "A>C"]).subs "A" = some "B" ∨
          BoostHash.find (SharedFontState.construct ins ["A>B", "A>C"]).subs "A"
            = some "C")) ∧
      (BoostHash.find (SharedFontState.construct BoostHash.insert ["A>B", "A>C"]).subs "A"
          = some "B" ∧
        BoostHash.find (SharedFontState.construct BoostHash.insert ["A>B", "A>C"]).subs "A"
          ≠ some "C") ∧
      (BoostHash.find (SharedFontState.construct BoostHash.insertOverwrite ["A>B", "A>C"]).subs
          "A" = some "C" ∧
        BoostHash.find (SharedFontState.construct BoostHash.insertOverwrite ["A>B", "A>C"]).subs
          "A" ≠ some "B") := by
  refine ⟨⟨⟨by decide, by decide⟩, ⟨by decide, by decide⟩⟩, ?_, repeated_left_side_value,
    ⟨by decide, by decide⟩, ⟨by decide, by decide⟩⟩
  intro ins h
  have h2 := h.1.symm.trans h.2
  simp only [Option.some.injEq] at h2
  exact absurd h2 (by decide)

/-! ## Helpers of util.h: wrapRange and findNextPow2 -/

theorem toInt32_of_isInt32 (v : Int) (h : isInt32 v) : toInt32 v = v := by
  unfold isInt32 at h
  unfold toInt32
  omega

/-- With `min < max` the loop of `wrapRange` ends: `(min - value).toNat + 1` tests
suffice, and it ends on a value from `min` up to, but not including, `max` when
it starts below `min`. -/
theorem wrapRangeLoop_terminates (min max : Int) (hmax : isInt32 max)
    (hd : isInt32 (max - min)) (hlt : min < max) :
    ∀ (fuel : Nat) (value : Int), isInt32 value → (min - value).toNat < fuel →
      ∃ v, wrapRangeLoop fuel value min max = some v ∧ min ≤ v ∧
        (value < min → v < max) ∧ (min ≤ value → v = value) := by
  intro fuel
  induction fuel with
  | zero => intro value _ h; omega
  | succ fuel ih =>
    intro value hv hfuel
    unfold isInt32 at hmax hd hv
    by_cases hvm : value < min
    · have hstep : toInt32 (value + toInt32 (max - min)) = value + (max - min) := by
        rw [toInt32_of_isInt32 (max - min) hd]
        exact toInt32_of_isInt32 _ (by unfold isInt32; omega)
      have hnext : isInt32 (value + (max - min)) := by unfold isInt32; omega
      obtain ⟨v, h1, h2, h3, h4⟩ := ih (value + (max - min)) hnext (by omega)
      refine ⟨v, ?_, h2, ?_, ?_⟩
      · simp only [wrapRangeLoop, hvm, if_true, hstep]
        exact h1
      · intro _
        by_cases hge : min ≤ value + (max - min)
        · rw [h4 hge]; omega
        · exact h3 (by omega)
      · intro h; omega
    · refine ⟨value, ?_, by omega, ?_, ?_⟩
      · simp only [wrapRangeLoop, hvm, if_false]
      · intro h; omega
      · intro _; rfl

/-- The part of the range property that `wrapRange` has: with `min < max` it
returns, and it returns `value` itself whenever `min <= value <= max`. -/
theorem wrapRange_terminates (value min max : Int) (hv : isInt32 value)
    (hmax : isInt32 max) (hd : isInt32 (max - min)) (hlt : min < max) :
    (∃ r, ∀ fuel, (min - value).toNat < fuel → wrapRange fuel value min max = some r) ∧
      (min ≤ value → value ≤ max → ∀ fuel, wrapRange fuel value min max = some value) := by
  constructor
  · by_cases hin : value ≥ min ∧ value ≤ max
    · exact ⟨value, fun fuel _ => by simp only [wrapRange, hin, and_self, if_true]⟩
    · obtain ⟨v0, hv0, -⟩ := wrapRangeLoop_terminates min max hmax hd hlt
        ((min - value).toNat + 1) value hv (Nat.lt_succ_self _)
      refine ⟨Int.tmod v0 (toInt32 (max - min)), ?_⟩
      intro fuel hfuel
      obtain ⟨v, h1, h2, h3, h4⟩ := wrapRangeLoop_terminates min max hmax hd hlt fuel value
        hv hfuel
      obtain ⟨w, g1, g2, g3, g4⟩ := wrapRangeLoop_terminates min max hmax hd hlt
        ((min - value).toNat + 1) value hv (Nat.lt_succ_self _)
      have hsame : ∀ (f1 : Nat) (x : Int) (a : Int), wrapRangeLoop f1 x min max = some a →
          ∀ f2 b, wrapRangeLoop f2 x min max = some b → a = b := by
        intro f1
        induction f1 with
        | zero => intro x a h; simp [wrapRangeLoop] at h
        | succ f1 ih1 =>
          intro x a ha f2 b hb
          cases f2 with
          | zero => simp [wrapRangeLoop] at hb
          | succ f2 =>
            by_cases hx : x < min
            · simp only [wrapRangeLoop, hx, if_true] at ha hb
              exact ih1 _ a ha f2 b hb
            · simp only [wrapRangeLoop, hx, if_false, Option.some.injEq] at ha hb
              rw [← ha, ← hb]
      have hvv : v = v0 := hsame fuel value v h1 _ v0 hv0
      simp only [wrapRange, hin, if_false, h1, hvv]
  · intro h1 h2 fuel
    simp only [wrapRange, ge_iff_le, h1, h2, and_self, if_true]

/-- C24, the failing input: `wrapRange(10, 5, 8)` returns 1, which lies below
`min = 5`; so does `wrapRange(4, 5, 8)`; and `wrapRange(-10, -5, -2)` returns -1,
which lies above `max = -2`. -/
theorem wrapRange_leaves_range (fuel : Nat) :
    wrapRange (fuel + 1) 10 5 8 = some 1 ∧ ¬ ((5 : Int) ≤ 1 ∧ (1 : Int) ≤ 8) ∧
      wrapRange (fuel + 2) 4 5 8 = some 1 ∧
      wrapRange (fuel + 3) (-10) (-5) (-2) = some (-1) ∧
      ¬ ((-5 : Int) ≤ -1 ∧ (-1 : Int) ≤ -2) := by
  refine ⟨?_, by decide, ?_, ?_, by decide⟩
  · simp only [wrapRange, wrapRangeLoop, toInt32]
    rfl
  · simp only [wrapRange, wrapRangeLoop, toInt32]
    rfl
  · simp only [wrapRange, wrapRangeLoop, toInt32]
    rfl

/-- The loop of `findNextPow2`, started at the power `2 ^ k` with `k <= 30`, all
smaller powers from the start value of the loop on being below `start`: it ends
on a power of two that is the first one not below `start`. -/
theorem findNextPow2Loop_spec (start : Int) (hs : start ≤ 2 ^ 30) :
    ∀ (m k fuel : Nat), k + m = 30 → 31 ≤ fuel + k → (k = 0 ∨ (2 : Int) ^ (k - 1) < start) →
      ∃ j : Nat, k ≤ j ∧ j ≤ 30 ∧ findNextPow2Loop fuel (2 ^ k) start = some (2 ^ j) ∧
        start ≤ 2 ^ j ∧ (j = 0 ∨ (2 : Int) ^ (j - 1) < start) ∧ (start ≤ 2 ^ k → j = k) := by
  intro m
  induction m with
  | zero =>
    intro k fuel hk hfuel hprev
    have hk30 : k = 30 := by omega
    subst hk30
    obtain ⟨f, rfl⟩ : ∃ f, fuel = f + 1 := ⟨fuel - 1, by omega⟩
    have hnot : ¬ ((2 : Int) ^ 30 < start) := by omega
    exact ⟨30, le_refl _, le_refl _, by simp only [findNextPow2Loop, hnot, if_false], hs, hprev,
      fun _ => rfl⟩
  | succ m ih =>
    intro k fuel hk hfuel hprev
    obtain ⟨f, rfl⟩ : ∃ f, fuel = f + 1 := ⟨fuel - 1, by omega⟩
    by_cases hlt : (2 : Int) ^ k < start
    · have hpow : (2 : Int) ^ (k + 1) = 2 ^ k * 2 := pow_succ 2 k
      have hle : (2 : Int) ^ (k + 1) ≤ 2 ^ 30 :=
        pow_le_pow_right₀ (by norm_num) (by omega)
      have hpos : (0 : Int) < 2 ^ k := by positivity
      have hwrap : toInt32 ((2 : Int) ^ k * 2) = 2 ^ (k + 1) := by
        rw [← hpow]
        unfold toInt32
        have h30 : (2 : Int) ^ 30 = 1073741824 := by norm_num
        omega
      obtain ⟨j, h1, h2, h3, h4, h5, -⟩ := ih (k + 1) f (by omega) (by omega)
        (Or.inr (by simpa using hlt))
      refine ⟨j, by omega, h2, ?_, h4, h5, ?_⟩
      · simp only [findNextPow2Loop, hlt, if_true, hwrap]
        exact h3
      · intro hc; omega
    · refine ⟨k, le_refl _, by omega, ?_, by omega, hprev, fun _ => rfl⟩
      simp only [findNextPow2Loop, hlt, if_false]

/-- More fuel does not change what the loop of `findNextPow2` returns. -/
theorem findNextPow2Loop_mono (start : Int) (n : Nat) : ∀ (fuel : Nat) (i r : Int),
    findNextPow2Loop fuel i start = some r → findNextPow2Loop (fuel + n) i start = some r := by
  intro fuel
  induction fuel with
  | zero => intro i r h; simp [findNextPow2Loop] at h
  | succ f ih =>
    intro i r h
    rw [Nat.add_right_comm]
    by_cases hlt : i < start
    · simp only [findNextPow2Loop, hlt, if_true] at h ⊢
      exact ih _ r h
    · simp only [findNextPow2Loop, hlt, if_false] at h ⊢
      exact h

/-- C25: for every `start <= 2^30`, `findNextPow2(start)` returns (31 tests of the
loop condition suffice), and what it returns is the least power of two that is
not below `start`: the result `r` is a power of two, `r >= start`, `r / 2 < start`
when `r > 1`, no smaller power of two reaches `start`, and `r = 1` for every
`start <= 1`. -/
theorem findNextPow2_least (start : Int) (hs : start ≤ 2 ^ 30) :
    ∃ r : Int, (∀ fuel, findNextPow2 (fuel + 31) start = some r) ∧
      (∃ j : Nat, r = 2 ^ j) ∧ start ≤ r ∧ (1 < r → r / 2 < start) ∧
      (∀ i : Nat, start ≤ 2 ^ i → r ≤ 2 ^ i) ∧ (start ≤ 1 → r = 1) := by
  obtain ⟨j, -, -, hloop, hge, hprev, hone⟩ :=
    findNextPow2Loop_spec start hs 30 0 31 (by omega) (by omega) (Or.inl rfl)
  refine ⟨2 ^ j, ?_, ⟨j, rfl⟩, hge, ?_, ?_, ?_⟩
  · intro fuel
    have h := findNextPow2Loop_mono start fuel 31 (2 ^ 0) (2 ^ j) hloop
    rw [Nat.add_comm] at h
    simpa [findNextPow2] using h
  · intro h1
    rcases hprev with h0 | hlt
    · subst h0; simp at h1
    · obtain ⟨i, rfl⟩ : ∃ i, j = i + 1 := ⟨j - 1, by
        rcases Nat.eq_zero_or_pos j with h | h
        · subst h; simp at h1
        · omega⟩
      have hp : (2 : Int) ^ (i + 1) = 2 ^ i * 2 := pow_succ 2 i
      simp only [Nat.add_sub_cancel] at hlt
      omega
  · intro i hi
    rcases hprev with h0 | hlt
    · subst h0
      simp only [pow_zero]
      exact one_le_pow₀ (by norm_num)
    · by_contra hcon
      push_neg at hcon
      have hij : i < j := by
        by_contra hge2
        push_neg at hge2
        have : (2 : Int) ^ j ≤ 2 ^ i := pow_le_pow_right₀ (by norm_num) hge2
        omega
      have hle : (2 : Int) ^ i ≤ 2 ^ (j - 1) := pow_le_pow_right₀ (by norm_num) (by omega)
      omega
  · intro h1
    have := hone (by simpa using h1)
    rw [this]
    simp

/-! ## Shared font state: resolution of the chosen name -/

theorem present_iff_registered (p : SharedFontStatePrivate) (n : String) :
    (SharedFontState.fontPresent p n).1 = true ↔ assetRegistered p (canonicalFamily p n) := by
  rw [assetRegistered_iff, fontPresent_fst]
  simp only [Bool.not_eq_true', Bool.and_eq_false_iff, decide_eq_false_iff_not, not_and]
  tauto

theorem resolvedFamily_of_registered (p : SharedFontStatePrivate) (n : String)
    (h : assetRegistered p (canonicalFamily p n)) :
    resolvedFamily p n = canonicalFamily p n := by
  rw [assetRegistered_iff] at h
  unfold resolvedFamily
  simp only [h, if_false]

theorem resolvedFamily_of_not_registered (p : SharedFontStatePrivate) (n : String)
    (h : ¬ assetRegistered p (canonicalFamily p n)) : resolvedFamily p n = "" := by
  rw [assetRegistered_iff, not_not] at h
  unfold resolvedFamily
  simp only [h, and_self, if_true]

theorem assetSource_of_empty (p : SharedFontStatePrivate) (n : String)
    (h : resolvedFamily p n = "") : assetSource p n = FontSource.bundled := by
  unfold assetSource
  simp only [h, if_true]

theorem assetSource_congr {p q : SharedFontStatePrivate} (h : SameTables p q) (n : String) :
    assetSource q n = assetSource p n := by
  unfold assetSource
  simp only [resolvedFamily_congr h, canonicalFamily_congr h, h.2]

/-- The asset of a registered family with a non-empty name is one of its files. -/
theorem assetSource_of_registered (p : SharedFontStatePrivate) (n : String)
    (h : assetRegistered p (canonicalFamily p n)) (hne : canonicalFamily p n ≠ "") :
    ∃ path, path ≠ "" ∧ assetSource p n = FontSource.file path := by
  have hr := resolvedFamily_of_registered p n h
  rw [assetRegistered_iff] at h
  unfold assetSource
  rw [hr]
  simp only [hne, if_false]
  by_cases hreg : (BoostHash.value default p.sets (canonicalFamily p n)).regular = ""
  · refine ⟨(BoostHash.value default p.sets (canonicalFamily p n)).other, ?_, ?_⟩
    · intro ho
      exact h ⟨hreg, ho⟩
    · simp [hreg]
  · exact ⟨(BoostHash.value default p.sets (canonicalFamily p n)).regular, hreg, by simp [hreg]⟩

/-- A `getFont` call opens nothing or the asset of the resolved family, at the
corrected size for that family. -/
theorem getFont_opened (lib : FontLib) (p : SharedFontStatePrivate) (n : String) (s : Int) :
    (SharedFontState.getFont lib p n s).opened = none ∨
      (SharedFontState.getFont lib p n s).opened
        = some (assetSource p n, lib.pointSize (resolvedFamily p n) s) := by
  by_cases hz : BoostHash.value 0 p.pool (resolvedFamily p n, s) = 0
  · right
    rw [getFont_miss lib p n s hz]
    split_ifs <;> rfl
  · left
    rw [getFont_hit lib p n s hz]

/-- C21, as the code has it: when no candidate is present, `pickExistingFontName`
chooses the empty name, and `getFont` resolves it like any other name: to the
built-in font (pool key family `""`, bundled asset) when the substitution table
has no entry for the empty name or the target of that entry has no asset, and to
that target when it has one. When some candidate is present, the first such `n`
is chosen and `getFont` resolves it to the canonical family of `n`, which has an
asset registered; if that family is not the empty name, the asset opened on a
pool miss is one of its files, not the bundled font. -/
theorem chosen_family_resolution (sfs : SharedFontStatePrivate) (names : List String) :
    ((∀ n ∈ names, (SharedFontState.fontPresent sfs n).1 = false) →
      (pickExistingFontName names sfs).1 = "" ∧
      (BoostHash.find sfs.subs "" = none →
        resolvedFamily (pickExistingFontName names sfs).2 (pickExistingFontName names sfs).1 = "" ∧
        assetSource (pickExistingFontName names sfs).2 (pickExistingFontName names sfs).1
          = FontSource.bundled) ∧
      (¬ assetRegistered sfs (canonicalFamily sfs "") →
        resolvedFamily (pickExistingFontName names sfs).2 (pickExistingFontName names sfs).1 = "" ∧
        assetSource (pickExistingFontName names sfs).2 (pickExistingFontName names sfs).1
          = FontSource.bundled) ∧
      (assetRegistered sfs (canonicalFamily sfs "") →
        resolvedFamily (pickExistingFontName names sfs).2 (pickExistingFontName names sfs).1
          = canonicalFamily sfs "")) ∧
    (∀ n, names.find? (fun m => (SharedFontState.fontPresent sfs m).1) = some n →
      (pickExistingFontName names sfs).1 = n ∧
      resolvedFamily (pickExistingFontName names sfs).2 (pickExistingFontName names sfs).1
        = canonicalFamily sfs n ∧
      assetRegistered sfs (canonicalFamily sfs n) ∧
      (canonicalFamily sfs n ≠ "" → ∃ path, path ≠ "" ∧
        assetSource (pickExistingFontName names sfs).2 (pickExistingFontName names sfs).1
          = FontSource.file path)) ∧
    (∀ (lib : FontLib) (s : Int),
      (SharedFontState.getFont lib (pickExistingFontName names sfs).2
          (pickExistingFontName names sfs).1 s).opened = none ∨
      (SharedFontState.getFont lib (pickExistingFontName names sfs).2
          (pickExistingFontName names sfs).1 s).opened
        = some (assetSource (pickExistingFontName names sfs).2 (pickExistingFontName names sfs).1,
            lib.pointSize (resolvedFamily (pickExistingFontName names sfs).2
              (pickExistingFontName names sfs).1) s)) := by
  have hpick : (pickExistingFontName names sfs).1 =
      (names.find? (fun n => (SharedFontState.fontPresent sfs n).1)).getD "" := by
    unfold pickExistingFontName
    exact pickLoop_first_present names sfs sfs (sameTables_refl sfs)
  have htab : SameTables sfs (pickExistingFontName names sfs).2 := by
    unfold pickExistingFontName
    exact sameTables_pickLoop names sfs
  refine ⟨?_, ?_, fun lib s => getFont_opened lib _ _ s⟩
  · intro hnone
    have hfind : names.find? (fun n => (SharedFontState.fontPresent sfs n).1) = none := by
      rw [List.find?_eq_none]
      intro x hx
      rw [hnone x hx]
      simp
    have hname : (pickExistingFontName names sfs).1 = "" := by
      rw [hpick, hfind]
      rfl
    rw [hname, resolvedFamily_congr htab, assetSource_congr htab]
    refine ⟨rfl, ?_, ?_, ?_⟩
    · intro hsub
      have hc : canonicalFamily sfs "" = "" := by
        unfold canonicalFamily
        rw [hsub]
      have hr : resolvedFamily sfs "" = "" := by
        unfold resolvedFamily
        rw [hc]
        simp only [ite_self]
      exact ⟨hr, assetSource_of_empty sfs "" hr⟩
    · intro hreg
      have hr := resolvedFamily_of_not_registered sfs "" hreg
      exact ⟨hr, assetSource_of_empty sfs "" hr⟩
    · intro hreg
      exact resolvedFamily_of_registered sfs "" hreg
  · intro n hn
    have hname : (pickExistingFontName names sfs).1 = n := by
      rw [hpick, hn]
      rfl
    have hpres : (SharedFontState.fontPresent sfs n).1 = true :=
      (List.find?_eq_some.mp hn).1
    have hreg := (present_iff_registered sfs n).mp hpres
    rw [hname, resolvedFamily_congr htab, assetSource_congr htab]
    exact ⟨rfl, resolvedFamily_of_registered sfs n hreg, hreg,
      fun hne => assetSource_of_registered sfs n hreg hne⟩

theorem chosen_family_resolution_witness :
    ((∀ n ∈ ["A", "C"], (SharedFontState.fontPresent onlyBFonts n).1 = false) ∧
      BoostHash.find onlyBFonts.subs "" = none) ∧
      resolvedFamily (pickExistingFontName ["A", "C"] onlyBFonts).2
        (pickExistingFontName ["A", "C"] onlyBFonts).1 = "" ∧
      assetSource (pickExistingFontName ["A", "C"] onlyBFonts).2
        (pickExistingFontName ["A", "C"] onlyBFonts).1 = FontSource.bundled ∧
      List.find? (fun m => (SharedFontState.fontPresent onlyBFonts m).1) ["A", "B", "C"]
        = some "B" ∧
      resolvedFamily (pickExistingFontName ["A", "B", "C"] onlyBFonts).2
        (pickExistingFontName ["A", "B", "C"] onlyBFonts).1 = canonicalFamily onlyBFonts "B" :=
  ⟨⟨by decide, by decide⟩,
    (((chosen_family_resolution onlyBFonts ["A", "C"]).1 (by decide)).2.1 (by decide)).1,
    (((chosen_family_resolution onlyBFonts ["A", "C"]).1 (by decide)).2.1 (by decide)).2,
    by decide,
    ((chosen_family_resolution onlyBFonts ["A", "B", "C"]).2.1 "B" (by decide)).2.1⟩

/-- C21, counterexample: with the configuration string ">Arial" and assets for
"Arial" only, the candidate "Missing" is not present and the empty name is
chosen, yet `getFont` resolves the chosen name to "Arial" and opens the file of
"Arial", not the bundled font. -/
theorem empty_name_substituted :
    (∀ n ∈ ["Missing"], (SharedFontState.fontPresent emptyKeyFonts n).1 = false) ∧
      (pickExistingFontName ["Missing"] emptyKeyFonts).1 = "" ∧
      resolvedFamily (pickExistingFontName ["Missing"] emptyKeyFonts).2
        (pickExistingFontName ["Missing"] emptyKeyFonts).1 = "Arial" ∧
      resolvedFamily (pickExistingFontName ["Missing"] emptyKeyFonts).2
        (pickExistingFontName ["Missing"] emptyKeyFonts).1 ≠ "" ∧
      (SharedFontState.getFont (constLib 9 1) (pickExistingFontName ["Missing"] emptyKeyFonts).2
        (pickExistingFontName ["Missing"] emptyKeyFonts).1 10).opened
        = some (FontSource.file "Fonts/arial.ttf", 9) ∧
      (SharedFontState.getFont (constLib 9 1) (pickExistingFontName ["Missing"] emptyKeyFonts).2
        (pickExistingFontName ["Missing"] emptyKeyFonts).1 10).state.pool
        = [(("Arial", 10), 1)] := by
  refine ⟨by decide, by decide, by decide, by decide, rfl, by decide⟩

/-! ## Font objects: the cached handle is the pooled handle -/

theorem extends_refl (p : SharedFontStatePrivate) : Extends p p :=
  ⟨sameTables_refl p, fun _ _ h => h⟩

theorem extends_trans {p q r : SharedFontStatePrivate} (h1 : Extends p q) (h2 : Extends q r) :
    Extends p r :=
  ⟨sameTables_trans h1.1 h2.1, fun k h hk => h2.2 k h (h1.2 k h hk)⟩

theorem extends_getFont (lib : FontLib) (p : SharedFontStatePrivate) (n : String) (s : Int) :
    Extends p (SharedFontState.getFont lib p n s).state :=
  ⟨sameTables_getFont lib p n s, fun k h hk => getFont_keeps lib p n s k h hk⟩

theorem extends_fontPresent (p : SharedFontStatePrivate) (n : String) :
    Extends p (SharedFontState.fontPresent p n).2 := by
  refine ⟨sameTables_fontPresent p n, ?_⟩
  intro k h hk
  rw [fontPresent_snd]
  exact hk

theorem pickLoop_pool (names : List String) : ∀ p : SharedFontStatePrivate,
    (pickExistingFontNameLoop names p).2.pool = p.pool := by
  induction names with
  | nil => intro p; rfl
  | cons n rest ih =>
    intro p
    simp only [pickExistingFontNameLoop]
    split_ifs
    · rw [fontPresent_snd]
    · rw [ih, fontPresent_snd]

theorem extends_pick (names : List String) (p : SharedFontStatePrivate) :
    Extends p (pickExistingFontName names p).2 := by
  unfold pickExistingFontName
  refine ⟨sameTables_pickLoop names p, ?_⟩
  intro k h hk
  rw [pickLoop_pool]
  exact hk

theorem extends_setName (p : SharedFontStatePrivate) (f : FontPrivate) (names : List String) :
    Extends p (Font.setName p f names).2 :=
  extends_pick names p

theorem extends_construct (d : FontDefaults) (p : SharedFontStatePrivate)
    (names : Option (List String)) (size : Int) : Extends p (Font.construct d p names size).2 := by
  cases names with
  | none => exact extends_refl p
  | some ns => exact extends_pick ns p

theorem cached_extends {p q : SharedFontStatePrivate} (h : Extends p q) (f : FontPrivate)
    (hc : Cached p f) : Cached q f := by
  rcases hc with h0 | hf
  · exact Or.inl h0
  · right
    rw [resolvedFamily_congr h.1]
    exact h.2 _ _ hf

theorem noNull_extends_pool {p q : SharedFontStatePrivate} (hp : NoNullPool p)
    (h : q.pool = p.pool) : NoNullPool q := by
  intro k
  rw [h]
  exact hp k

theorem find_none_of_noNull (p : SharedFontStatePrivate) (hp : NoNullPool p) (k : FontKey)
    (h : BoostHash.value 0 p.pool k = 0) : BoostHash.find p.pool k = none := by
  unfold BoostHash.value at h
  cases hf : BoostHash.find p.pool k with
  | none => rfl
  | some v =>
    rw [hf] at h
    simp only [Option.getD_some] at h
    rw [h] at hf
    exact absurd hf (hp k)

theorem noNull_getFont (lib : FontLib) (p : SharedFontStatePrivate) (n : String) (s : Int)
    (hp : NoNullPool p) : NoNullPool (SharedFontState.getFont lib p n s).state := by
  by_cases hz : BoostHash.value 0 p.pool (resolvedFamily p n, s) = 0
  · have hnone := find_none_of_noNull p hp _ hz
    rw [getFont_miss lib p n s hz]
    split_ifs with hopen
    · exact hp
    · intro k
      simp only
      rw [find_insert_of_none _ _ _ _ hnone]
      cases hk : BoostHash.find p.pool k with
      | some x =>
        simp only
        rw [← hk]
        exact hp k
      | none =>
        simp only
        split_ifs
        · intro h0
          exact hopen (Option.some.inj h0)
        · simp
  · rw [getFont_hit lib p n s hz]
    exact hp

/-- A `getFont` call that returns leaves the returned handle in the pool under
the key of the resolved family and the nominal size. -/
theorem getFont_ok_noNull (lib : FontLib) (p : SharedFontStatePrivate) (n : String) (s : Int)
    (hp : NoNullPool p) (h : Nat) (hok : (SharedFontState.getFont lib p n s).result = .ok h) :
    BoostHash.find (SharedFontState.getFont lib p n s).state.pool (resolvedFamily p n, s)
      = some h ∧ h ≠ 0 := by
  by_cases hz : BoostHash.value 0 p.pool (resolvedFamily p n, s) = 0
  · have hnone := find_none_of_noNull p hp _ hz
    rw [getFont_miss lib p n s hz] at hok ⊢
    split_ifs at hok ⊢ with hopen
    simp only [Except.ok.injEq] at hok
    subst hok
    refine ⟨?_, hopen⟩
    simp only
    rw [find_insert_of_none _ _ _ _ hnone, hnone]
    simp
  · rw [getFont_hit lib p n s hz] at hok ⊢
    simp only [Except.ok.injEq] at hok
    subst hok
    refine ⟨?_, hz⟩
    simp only
    unfold BoostHash.value at hz ⊢
    cases hf : BoostHash.find p.pool (resolvedFamily p n, s) with
    | none => rw [hf] at hz; simp at hz
    | some v => simp

theorem copy_eq (f : FontPrivate) : FontPrivate.copy f = f := rfl

theorem cached_of_fields {p : SharedFontStatePrivate} {f g : FontPrivate}
    (hn : g.name = f.name) (hs : g.size = f.size) (hh : g.sdlFont = f.sdlFont)
    (hc : Cached p f) : Cached p g := by
  unfold Cached at hc ⊢
  rw [hn, hs, hh]
  exact hc

theorem cached_setSize (p : SharedFontStatePrivate) (f : FontPrivate) (value : Int)
    (hc : Cached p f) : Cached p (Font.setSize f value).2 := by
  unfold Font.setSize
  split_ifs
  · exact hc
  · exact hc
  · exact Or.inl rfl

/-- What `getSdlFont` does to the invariant of one font. -/
theorem cached_getSdlFont (lib : FontLib) (p : SharedFontStatePrivate) (f : FontPrivate)
    (hp : NoNullPool p) (hc : Cached p f) :
    NoNullPool (Font.getSdlFont lib p f).state ∧ Extends p (Font.getSdlFont lib p f).state ∧
      Cached (Font.getSdlFont lib p f).state (Font.getSdlFont lib p f).font ∧
      (Font.getSdlFont lib p f).font.name = f.name ∧
      (Font.getSdlFont lib p f).font.size = f.size ∧
      ∀ h, (Font.getSdlFont lib p f).result = .ok h →
        (Font.getSdlFont lib p f).font.sdlFont = h ∧ h ≠ 0 ∧
        BoostHash.find (Font.getSdlFont lib p f).state.pool
          (resolvedFamily p (c_str f.name), f.size) = some h := by
  unfold Font.getSdlFont
  by_cases h0 : f.sdlFont = 0
  · simp only [h0, if_true]
    have hext := extends_getFont lib p (c_str f.name) f.size
    have hnn := noNull_getFont lib p (c_str f.name) f.size hp
    cases hres : (SharedFontState.getFont lib p (c_str f.name) f.size).result with
    | error e =>
      simp only
      refine ⟨hnn, hext, Or.inl h0, trivial, trivial, ?_⟩
      intro h hh
      cases hh
    | ok h1 =>
      simp only
      obtain ⟨hfind, hne⟩ := getFont_ok_noNull lib p (c_str f.name) f.size hp h1 hres
      refine ⟨hnn, hext, ?_, trivial, trivial, ?_⟩
      · right
        simp only
        rw [resolvedFamily_congr hext.1]
        exact hfind
      · intro h hh
        simp only [Except.ok.injEq] at hh
        subst hh
        exact ⟨rfl, hne, hfind⟩
  · simp only [h0, if_false]
    refine ⟨hp, extends_refl p, hc, trivial, trivial, ?_⟩
    intro h hh
    simp only [Except.ok.injEq] at hh
    subst hh
    rcases hc with hz | hf
    · exact absurd hz h0
    · exact ⟨rfl, h0, hf⟩

theorem modify_inv (w w1 : FontWorld) (i : Nat) (g : FontPrivate → FontPrivate)
    (hw : w.Inv) (hg : ∀ f, Cached w.sfs f → Cached w.sfs (g f))
    (h : w.modify i g = some w1) : w1.Inv ∧ Extends w.sfs w1.sfs := by
  unfold FontWorld.modify at h
  cases hf : w.fonts[i]? with
  | none => rw [hf] at h; cases h
  | some f =>
    rw [hf] at h
    simp only [Option.some.injEq] at h
    subst h
    refine ⟨⟨hw.1, ?_⟩, extends_refl _⟩
    intro f1 hf1
    rcases List.mem_or_eq_of_mem_set hf1 with hm | he
    · exact hw.2 f1 hm
    · rw [he]
      exact hg f (hw.2 f (List.getElem?_mem hf))

theorem inv_append (w : FontWorld) (q : SharedFontStatePrivate) (f : FontPrivate)
    (hw : w.Inv) (hq : NoNullPool q) (hext : Extends w.sfs q) (hf : Cached q f) :
    FontWorld.Inv { sfs := q, fonts := w.fonts ++ [f] } := by
  refine ⟨hq, ?_⟩
  intro f1 hf1
  rcases List.mem_append.mp hf1 with hm | hm
  · exact cached_extends hext f1 (hw.2 f1 hm)
  · rw [List.mem_singleton.mp hm]
    exact hf

theorem inv_set (w : FontWorld) (q : SharedFontStatePrivate) (i : Nat) (f : FontPrivate)
    (hw : w.Inv) (hq : NoNullPool q) (hext : Extends w.sfs q) (hf : Cached q f) :
    FontWorld.Inv { sfs := q, fonts := w.fonts.set i f } := by
  refine ⟨hq, ?_⟩
  intro f1 hf1
  rcases List.mem_or_eq_of_mem_set hf1 with hm | he
  · exact cached_extends hext f1 (hw.2 f1 hm)
  · rw [he]
    exact hf

theorem stepFont_inv (w w1 : FontWorld) (op : FontOp) (hw : w.Inv)
    (h : stepFont w op = some w1) : w1.Inv ∧ Extends w.sfs w1.sfs := by
  cases op with
  | construct d names size =>
    simp only [stepFont, Option.some.injEq] at h
    subst h
    have hext := extends_construct d w.sfs names size
    have hnn : NoNullPool (Font.construct d w.sfs names size).2 := by
      cases names with
      | none => exact hw.1
      | some ns =>
        refine noNull_extends_pool hw.1 ?_
        simp only [Font.construct, Font.setName, pickExistingFontName]
        exact pickLoop_pool ns w.sfs
    have hc : Cached (Font.construct d w.sfs names size).2
        (Font.construct d w.sfs names size).1 := by
      cases names with
      | none => exact Or.inl rfl
      | some ns => exact Or.inl rfl
    exact ⟨inv_append w _ _ hw hnn hext hc, hext⟩
  | copy i =>
    simp only [stepFont] at h
    cases hf : w.fonts[i]? with
    | none => rw [hf] at h; cases h
    | some f =>
      rw [hf] at h
      simp only [Option.some.injEq] at h
      subst h
      refine ⟨inv_append w w.sfs _ hw hw.1 (extends_refl _) ?_, extends_refl _⟩
      rw [copy_eq]
      exact hw.2 f (List.getElem?_mem hf)
  | assign i j =>
    simp only [stepFont] at h
    cases hf : w.fonts[j]? with
    | none => rw [hf] at h; cases h
    | some o =>
      rw [hf] at h
      exact modify_inv w w1 i _ hw (fun _ _ => Or.inl rfl) h
  | setName i names =>
    simp only [stepFont] at h
    cases hf : w.fonts[i]? with
    | none => rw [hf] at h; cases h
    | some f =>
      rw [hf] at h
      simp only [Option.some.injEq] at h
      subst h
      have hext := extends_setName w.sfs f names
      have hnn : NoNullPool (Font.setName w.sfs f names).2 := by
        refine noNull_extends_pool hw.1 ?_
        simp only [Font.setName, pickExistingFontName]
        exact pickLoop_pool names w.sfs
      exact ⟨inv_set w _ i _ hw hnn hext (Or.inl rfl), hext⟩
  | setSize i value =>
    simp only [stepFont] at h
    exact modify_inv w w1 i _ hw (fun f hc => cached_setSize w.sfs f value hc) h
  | setBold i value =>
    simp only [stepFont] at h
    exact modify_inv w w1 i (fun f => Font.setBold f value) hw
      (fun f hc => cached_of_fields rfl rfl rfl hc) h
  | setItalic i value =>
    simp only [stepFont] at h
    exact modify_inv w w1 i (fun f => Font.setItalic f value) hw
      (fun f hc => cached_of_fields rfl rfl rfl hc) h
  | setOutline i value =>
    simp only [stepFont] at h
    exact modify_inv w w1 i (fun f => Font.setOutline f value) hw
      (fun f hc => cached_of_fields rfl rfl rfl hc) h
  | setShadow i value =>
    simp only [stepFont] at h
    exact modify_inv w w1 i (fun f => Font.setShadow f value) hw
      (fun f hc => cached_of_fields rfl rfl rfl hc) h
  | setColor i value =>
    simp only [stepFont] at h
    exact modify_inv w w1 i (fun f => Font.setColor f value) hw
      (fun f hc => cached_of_fields rfl rfl rfl hc) h
  | setOutColor i value =>
    simp only [stepFont] at h
    exact modify_inv w w1 i (fun f => Font.setOutColor f value) hw
      (fun f hc => cached_of_fields rfl rfl rfl hc) h
  | getSdlFont lib i =>
    simp only [stepFont] at h
    cases hf : w.fonts[i]? with
    | none => rw [hf] at h; cases h
    | some f =>
      rw [hf] at h
      simp only [Option.some.injEq] at h
      subst h
      obtain ⟨h1, h2, h3, -⟩ := cached_getSdlFont lib w.sfs f hw.1 (hw.2 f (List.getElem?_mem hf))
      exact ⟨inv_set w _ i _ hw h1 h2 h3, h2⟩
  | getFont lib family size =>
    simp only [stepFont, Option.some.injEq] at h
    subst h
    have hext := extends_getFont lib w.sfs family size
    exact ⟨⟨noNull_getFont lib w.sfs family size hw.1,
      fun f hf => cached_extends hext f (hw.2 f hf)⟩, hext⟩
  | fontPresent family =>
    simp only [stepFont, Option.some.injEq] at h
    subst h
    have hext := extends_fontPresent w.sfs family
    refine ⟨⟨noNull_extends_pool hw.1 (by rw [fontPresent_snd]),
      fun f hf => cached_extends hext f (hw.2 f hf)⟩, hext⟩

theorem runFonts_inv (ops : List FontOp) : ∀ (w w1 : FontWorld), w.Inv →
    runFonts w ops = some w1 → w1.Inv ∧ Extends w.sfs w1.sfs := by
  induction ops with
  | nil =>
    intro w w1 hw h
    simp only [runFonts, Option.some.injEq] at h
    subst h
    exact ⟨hw, extends_refl _⟩
  | cons op ops ih =>
    intro w w1 hw h
    simp only [runFonts] at h
    cases hstep : stepFont w op with
    | none => rw [hstep] at h; cases h
    | some w2 =>
      rw [hstep] at h
      obtain ⟨h1, h2⟩ := stepFont_inv w w2 op hw hstep
      obtain ⟨h3, h4⟩ := ih w2 w1 h1 h
      exact ⟨h3, extends_trans h2 h4⟩

/-- C23: start from a font cache with an empty pool and no fonts, and make any
calls of Font construction, copy construction, assignment, setName, setSize, the
style and colour setters, getSdlFont, and of getFont and fontPresent by other
users of the cache. Then the tables still answer as at the start, and for every
font the cached handle is null or is the pool entry under the key made of the
family `getFont` resolves the font's current name to and the font's current
size; a `getSdlFont` call that returns returns a handle that is not null, that
the font then caches, and that is the pool entry under that key. -/
theorem cached_handle_pooled (sfs0 : SharedFontStatePrivate) (hempty : sfs0.pool = [])
    (ops : List FontOp) (w : FontWorld)
    (hrun : runFonts { sfs := sfs0, fonts := [] } ops = some w) :
    SameTables sfs0 w.sfs ∧
    (∀ f ∈ w.fonts, f.sdlFont = 0 ∨
      BoostHash.find w.sfs.pool (resolvedFamily w.sfs (c_str f.name), f.size)
        = some f.sdlFont) ∧
    (∀ f ∈ w.fonts, ∀ (lib : FontLib) (h : Nat),
      (Font.getSdlFont lib w.sfs f).result = .ok h →
      h ≠ 0 ∧ (Font.getSdlFont lib w.sfs f).font.sdlFont = h ∧
      (Font.getSdlFont lib w.sfs f).font.name = f.name ∧
      (Font.getSdlFont lib w.sfs f).font.size = f.size ∧
      BoostHash.find (Font.getSdlFont lib w.sfs f).state.pool
        (resolvedFamily w.sfs (c_str f.name), f.size) = some h) := by
  have h0 : FontWorld.Inv { sfs := sfs0, fonts := [] } := by
    refine ⟨?_, by simp⟩
    intro k
    simp only [hempty]
    simp [BoostHash.find]
  obtain ⟨hinv, hext⟩ := runFonts_inv ops _ w h0 hrun
  refine ⟨hext.1, hinv.2, ?_⟩
  intro f hf lib h hok
  obtain ⟨-, -, -, hn, hs, hret⟩ := cached_getSdlFont lib w.sfs f hinv.1 (hinv.2 f hf)
  obtain ⟨h1, h2, h3⟩ := hret h hok
  exact ⟨h2, h1, hn, hs, h3⟩

theorem cached_handle_pooled_witness :
    (fooBarFonts.pool = [] ∧
      runFonts { sfs := fooBarFonts, fonts := [] } sampleFontOps = some sampleFontWorld) ∧
      ∀ f ∈ sampleFontWorld.fonts, f.sdlFont = 0 ∨
        BoostHash.find sampleFontWorld.sfs.pool
          (resolvedFamily sampleFontWorld.sfs (c_str f.name), f.size) = some f.sdlFont :=
  ⟨⟨rfl, rfl⟩, (cached_handle_pooled fooBarFonts rfl sampleFontOps sampleFontWorld rfl).2.1⟩

theorem findNextPow2_least_witness :
    (1000 : Int) ≤ 2 ^ 30 ∧ findNextPow2 31 1000 = some 1024 ∧
      ∃ r : Int, (∀ fuel, findNextPow2 (fuel + 31) 1000 = some r) ∧
        (∃ j : Nat, r = 2 ^ j) ∧ (1000 : Int) ≤ r ∧ (1 < r → r / 2 < 1000) ∧
        (∀ i : Nat, (1000 : Int) ≤ 2 ^ i → r ≤ 2 ^ i) ∧ ((1000 : Int) ≤ 1 → r = 1) :=
  ⟨by norm_num, by decide, findNextPow2_least 1000 (by norm_num)⟩

end Mkxp
